import Mathlib

/-!
Verification of the weighted-graph algorithm engine
(`src/data_structures/weighted_graph.py`).

The Python module is shallowly embedded: Python dicts (which preserve
insertion order and update values in place) become association lists,
the `heapq` library functions are translated from CPython's `heapq.py`,
Python exceptions become an explicit error type, and `float("inf")`
becomes `Option Int` with `none` as infinity.  Node objects are keyed by
their label (the graph holds exactly one node object per label, so
object identity coincides with label equality).  While-loops without a
structural termination argument take explicit fuel; a `none` result
models divergence.
-/

namespace WG

/-- Exceptions that the embedded code can raise.  `keyError` and
`indexError` are Python built-ins (`dict` lookup / `list.pop` on empty),
`typeError` is raised by `ord` on a non-single-character string, and
`nonexistentNode` / `pathNotFound` are the module's own
`NonexistentNode` and `PathNotFoundError` exception classes. -/
inductive PyErr where
  | keyError
  | indexError
  | typeError
  | nonexistentNode
  | pathNotFound
deriving DecidableEq, Repr

/-- `d.get(k)` on a Python dict modelled as an insertion-ordered
association list. -/
def dget {α : Type} (d : List (String × α)) (k : String) : Option α :=
  match d with
  | [] => none
  | (k', v) :: rest => if k' = k then some v else dget rest k

/-- `d[k] = v` on a Python dict: updates in place if the key is present
(keeping its position in the insertion order), appends otherwise. -/
def dset {α : Type} (d : List (String × α)) (k : String) (v : α) :
    List (String × α) :=
  match d with
  | [] => [(k, v)]
  | (k', v') :: rest => if k' = k then (k', v) :: rest else (k', v') :: dset rest k v

/-- The state of a `WeightedGraph`: the `nodes` dict maps each label to
the node's `edges` dict, which maps a neighbour label to the weight of
the stored `Edge` record (an `Edge` is determined by its endpoints and
weight, and its source is the owning node). -/
structure WGraph where
  nodes : List (String × List (String × Int))
deriving DecidableEq

/-- `WeightedGraph.add_node`:
`self.nodes[name] = self.nodes.get(name, self.Node(name))` — a no-op if
the label is present, otherwise appends a fresh node with no edges. -/
def addNode (g : WGraph) (name : String) : WGraph :=
  match dget g.nodes name with
  | some _ => g
  | none => ⟨g.nodes ++ [(name, [])]⟩

/-- `Node.add_edge` on the node with label `a`:
`self.edges[node.value] = Edge(self, node, weight)`. -/
def setEdge (ns : List (String × List (String × Int))) (a b : String)
    (w : Int) : List (String × List (String × Int)) :=
  ns.map (fun p => if p.1 = a then (p.1, dset p.2 b w) else p)

/-- `WeightedGraph.add_edge`: looks up `self.nodes[source]` and
`self.nodes[target]` (a missing label raises the built-in `KeyError`),
then stores the edge record in both nodes' edge dicts. -/
def addEdge (g : WGraph) (source target : String) (w : Int) :
    Except PyErr WGraph :=
  match dget g.nodes source with
  | none => .error .keyError
  | some _ =>
    match dget g.nodes target with
    | none => .error .keyError
    | some _ => .ok ⟨setEdge (setEdge g.nodes source target w) target source w⟩

/-- The edge dict of the node labelled `v` (`[]` for an absent label;
in any state reachable through the API every label handed to this
function is present). -/
def edgesOf (g : WGraph) (v : String) : List (String × Int) :=
  (dget g.nodes v).getD []

/-- Python's `ord`: the code point of a one-character string, a
`TypeError` otherwise. -/
def pyOrd (s : String) : Except PyErr Nat :=
  match s.toList with
  | [c] => .ok c.toNat
  | _ => .error .typeError

/-- A priority-queue entry `(cumulative weight, node)`; the node object
is represented by its label. -/
abbrev Entry := Int × String

/-- Python `<` on two entries: tuple comparison finds the first unequal
component.  The weights compare as integers; node objects are equal only
when identical (same label), and otherwise compare through
`Node.__lt__`, i.e. `ord(self.value) < ord(other.value)`. -/
def entryLt (x y : Entry) : Except PyErr Bool :=
  if x.1 = y.1 then
    if x.2 = y.2 then .ok false
    else do
      let a ← pyOrd x.2
      let b ← pyOrd y.2
      .ok (decide (a < b))
  else .ok (decide (x.1 < y.1))

/-! ### CPython `heapq`

Translated from `Lib/heapq.py`: `_siftdown` moves the item at `pos`
toward the root while it is smaller than its parent; `_siftup` moves the
item at `pos` down to a leaf, always promoting the smaller child, and
then calls `_siftdown`.  List indices are always in range when called as
CPython calls them; out-of-range reads return the irrelevant default. -/

/-- `heapq._siftdown(heap, startpos, pos)` with `newitem = heap[pos]`
passed explicitly (the algorithm only writes it back at the end).
The extra `Nat` is structural fuel: callers pass the initial `pos`, and
since `pos` drops by at least one per iteration, fuel can run out only
at `pos = 0`, where the loop condition `startpos < pos` is false anyway,
so the fuel-0 branch returns exactly what the loop exit returns. -/
def siftdown {α : Type} (lt : α → α → Except PyErr Bool)
    (startpos : Nat) (newitem : α) :
    Nat → List α → Nat → Except PyErr (List α)
  | 0, heap, pos => .ok (heap.set pos newitem)
  | fuel + 1, heap, pos =>
    if startpos < pos then
      match lt newitem (heap.getD ((pos - 1) / 2) newitem) with
      | .error e => .error e
      | .ok true =>
        siftdown lt startpos newitem fuel
          (heap.set pos (heap.getD ((pos - 1) / 2) newitem)) ((pos - 1) / 2)
      | .ok false => .ok (heap.set pos newitem)
    else .ok (heap.set pos newitem)

/-- The while-loop of `heapq._siftup`: bubble the hole at `pos` down to
a leaf, promoting the smaller child, returning the final list and
position.  Fuel is the list length: the position at least doubles per
iteration while staying below the (unchanged) length, so fuel can run
out only once `pos ≥ length`, where the loop condition
`2*pos + 1 < length` is false anyway. -/
def siftupLoop {α : Type} (lt : α → α → Except PyErr Bool) (dflt : α) :
    Nat → List α → Nat → Except PyErr (List α × Nat)
  | 0, heap, pos => .ok (heap, pos)
  | fuel + 1, heap, pos =>
    if 2 * pos + 1 < heap.length then
      if 2 * pos + 2 < heap.length then
        match lt (heap.getD (2 * pos + 1) dflt) (heap.getD (2 * pos + 2) dflt) with
        | .error e => .error e
        | .ok true =>
          siftupLoop lt dflt fuel (heap.set pos (heap.getD (2 * pos + 1) dflt)) (2 * pos + 1)
        | .ok false =>
          siftupLoop lt dflt fuel (heap.set pos (heap.getD (2 * pos + 2) dflt)) (2 * pos + 2)
      else
        siftupLoop lt dflt fuel (heap.set pos (heap.getD (2 * pos + 1) dflt)) (2 * pos + 1)
    else .ok (heap, pos)

/-- `heapq._siftup(heap, pos)`. -/
def siftup {α : Type} (lt : α → α → Except PyErr Bool) (dflt : α)
    (heap : List α) (pos : Nat) : Except PyErr (List α) := do
  let newitem := heap.getD pos dflt
  let (h2, finalpos) ← siftupLoop lt dflt heap.length heap pos
  siftdown lt pos newitem finalpos (h2.set finalpos newitem) finalpos

/-- `heapq.heappush(heap, item)`. -/
def heappush {α : Type} (lt : α → α → Except PyErr Bool)
    (heap : List α) (item : α) : Except PyErr (List α) :=
  siftdown lt 0 item heap.length (heap ++ [item]) heap.length

/-- `heapq.heappop(heap)`: pops the last element; if the list is still
non-empty the root is returned and the last element is sifted up from
the root position. -/
def heappop {α : Type} (lt : α → α → Except PyErr Bool) (dflt : α)
    (heap : List α) : Except PyErr (α × List α) :=
  match heap.getLast? with
  | none => .error .indexError
  | some lastelt =>
    let rest := heap.dropLast
    if rest.isEmpty then .ok (lastelt, [])
    else do
      let returnitem := rest.getD 0 dflt
      let h2 ← siftup lt dflt (rest.set 0 lastelt) 0
      .ok (returnitem, h2)

/-! ### `get_shortest_distance`

The while-loop is embedded with explicit fuel (`none` = fuel ran out);
`distLoop_some` below proves that the fuel chosen by
`get_shortest_distance` always suffices, so `none` never escapes. -/

/-- The relaxation inner loop of `get_shortest_distance`:
`for edge in node.get_edges(): heappush(heap, (weight + edge.weight, edge.target))`. -/
def pushEdges (es : List (String × Int)) (w : Int) (heap : List Entry) :
    Except PyErr (List Entry) :=
  match es with
  | [] => .ok heap
  | (t, ew) :: rest =>
    match heappush entryLt heap (w + ew, t) with
    | .error e => .error e
    | .ok h2 => pushEdges rest w h2

/-- The main loop of `get_shortest_distance`. -/
def distLoop (g : WGraph) (target : String) :
    Nat → List Entry → List String → Option (Except PyErr Int)
  | 0, _, _ => none
  | fuel + 1, heap, visited =>
    if heap.isEmpty then some (.error .pathNotFound)
    else
      match heappop entryLt (0, "") heap with
      | .error e => some (.error e)
      | .ok ((w, node), heap1) =>
        if node = target then some (.ok w)
        else if node ∈ visited then distLoop g target fuel heap1 visited
        else
          match pushEdges (edgesOf g node) w heap1 with
          | .error e => some (.error e)
          | .ok heap2 => distLoop g target fuel heap2 (node :: visited)

/-- Sum of `degree + 1` over the registered nodes not yet visited: the
potential that bounds the remaining loop iterations. -/
def filterSum (ns : List (String × List (String × Int))) (visited : List String) : Nat :=
  match ns with
  | [] => 0
  | (k, v) :: rest => (if k ∈ visited then 0 else v.length + 1) + filterSum rest visited

/-- Fuel that `distLoop_some` proves sufficient for any graph. -/
def distFuel (g : WGraph) : Nat := filterSum g.nodes [] + 2

/-- `WeightedGraph.get_shortest_distance`: the target lookup (and only
it) is guarded by `try/except KeyError → NonexistentNode`; a target
with an empty edge dict raises `PathNotFoundError`; the later
`self.nodes[source]` lookup is unguarded, so a missing source escapes
as the built-in `KeyError`. -/
def get_shortest_distance (g : WGraph) (source target : String) :
    Option (Except PyErr Int) :=
  match dget g.nodes target with
  | none => some (.error .nonexistentNode)
  | some tedges =>
    if tedges.isEmpty then some (.error .pathNotFound)
    else
      match dget g.nodes source with
      | none => some (.error .keyError)
      | some _ =>
        match heappush entryLt [] (0, source) with
        | .error e => some (.error e)
        | .ok heap0 => distLoop g target (distFuel g) heap0 []

/-! ### `get_shortest_path` -/

/-- `float("inf")`-valued distances: `none` is infinity. -/
def eadd : Option Int → Int → Option Int
  | none, _ => none
  | some a, w => some (a + w)

/-- `<` on possibly-infinite distances (`inf < x` is false, `a < inf`
is true for finite `a`). -/
def elt : Option Int → Option Int → Bool
  | none, _ => false
  | some _, none => true
  | some a, some b => decide (a < b)

/-- The `for edge in current.get_edges()` body of `get_shortest_path`:
skip visited targets, compute `distance = routes[current] + edge.weight`,
and on strict improvement update `routes`, `previous_nodes` and push. -/
def relaxEdges (es : List (String × Int)) (current : String)
    (visited : List String) (routes : List (String × Option Int))
    (prev : List (String × String)) (heap : List Entry) :
    Except PyErr (List (String × Option Int) × List (String × String) × List Entry) :=
  match es with
  | [] => .ok (routes, prev, heap)
  | (t, ew) :: rest =>
    if t ∈ visited then relaxEdges rest current visited routes prev heap
    else
      match dget routes current with
      | none => .error .keyError
      | some rc =>
        match dget routes t with
        | none => .error .keyError
        | some rt =>
          if elt (eadd rc ew) rt then
            match eadd rc ew with
            | none => .error .typeError
            | some d =>
              match heappush entryLt heap (d, t) with
              | .error e => .error e
              | .ok h2 =>
                relaxEdges rest current visited (dset routes t (some d))
                  (dset prev t current) h2
          else relaxEdges rest current visited routes prev heap

/-- The main loop of `get_shortest_path`: pop, mark visited, relax all
edges of the popped node (no visited check on the popped node itself). -/
def pathLoop (g : WGraph) :
    Nat → List (String × Option Int) → List (String × String) →
    List Entry → List String → Option (Except PyErr (List (String × String)))
  | 0, _, _, _, _ => none
  | fuel + 1, routes, prev, heap, visited =>
    if heap.isEmpty then some (.ok prev)
    else
      match heappop entryLt (0, "") heap with
      | .error e => some (.error e)
      | .ok ((_, current), heap1) =>
        let visited' := if current ∈ visited then visited else current :: visited
        match relaxEdges (edgesOf g current) current visited' routes prev heap1 with
        | .error e => some (.error e)
        | .ok (routes', prev', heap2) =>
          pathLoop g fuel routes' prev' heap2 visited'

/-- `routes`: every registered node starts at infinity, then
`routes[source_node] = 0`. -/
def initRoutes (g : WGraph) (source : String) : List (String × Option Int) :=
  dset (g.nodes.map (fun p => (p.1, (none : Option Int)))) source (some 0)

/-- Total non-negative part of one node's outgoing weights. -/
def outW (es : List (String × Int)) : Nat := (es.map (fun e => e.2.toNat)).sum

/-- Total non-negative part of all stored directed edge weights; with
non-negative weights every finite tentative distance stays below it. -/
def wSum (g : WGraph) : Nat :=
  (g.nodes.map (fun p => outW p.2)).sum

/-- Fuel proved sufficient (for well-formed graphs with non-negative
weights) by `pathLoop_some`. -/
def pathFuel (g : WGraph) : Nat := g.nodes.length * (wSum g + 1) + 2

/-- The backward walk of `_generate_shortest_path`: follow
`previous_nodes.get` while the result is truthy (a non-empty string),
prepending each label.  Fuel guards against a cyclic predecessor map. -/
def genLoop (prev : List (String × String)) :
    Nat → Option String → List String → Option (List String)
  | _, none, acc => some acc
  | fuel, some p, acc =>
    if p = "" then some acc
    else
      match fuel with
      | 0 => none
      | fuel + 1 => genLoop prev fuel (dget prev p) (p :: acc)

/-- `WeightedGraph._generate_shortest_path(previous_nodes, target)`:
builds the stack `[target, prev(target), ...]` and returns it reversed
(the embedding accumulates in reverse directly). -/
def generate_shortest_path (prev : List (String × String)) (target : String) :
    Option (List String) :=
  genLoop prev (prev.length + 1) (dget prev target) [target]

/-- `WeightedGraph.get_shortest_path`: both labels are looked up under
`try/except KeyError → NonexistentNode`; Dijkstra relaxation runs until
the queue empties, then the predecessor map is turned into a path (no
`PathNotFoundError` is ever raised here). -/
def get_shortest_path (g : WGraph) (source target : String) :
    Option (Except PyErr (List String)) :=
  match dget g.nodes source with
  | none => some (.error .nonexistentNode)
  | some _ =>
    match dget g.nodes target with
    | none => some (.error .nonexistentNode)
    | some _ =>
      match heappush entryLt [] (0, source) with
      | .error e => some (.error e)
      | .ok heap0 =>
        match pathLoop g (pathFuel g) (initRoutes g source) [] heap0 [] with
        | none => none
        | some (.error e) => some (.error e)
        | some (.ok prev) =>
          match generate_shortest_path prev target with
          | none => none
          | some path => some (.ok path)

/-! ### The test fixture graph (nodes A–F, seven weighted edges) -/

/-- The `weighted_graph` fixture of `test_weighted_graph.py`: nodes
`A`–`F` registered in order, then the seven edges added in order. -/
def demoGraphE : Except PyErr WGraph := do
  let g := addNode (addNode (addNode (addNode (addNode (addNode ⟨[]⟩
    "A") "B") "C") "D") "E") "F"
  let g ← addEdge g "A" "B" 1
  let g ← addEdge g "A" "C" 2
  let g ← addEdge g "A" "D" 5
  let g ← addEdge g "B" "D" 3
  let g ← addEdge g "B" "E" 7
  let g ← addEdge g "C" "D" 1
  let g ← addEdge g "D" "E" 2
  pure g

/-- The fixture graph itself. -/
def demoGraph : WGraph := (demoGraphE.toOption).getD ⟨[]⟩

/-! ### Association-list lemmas -/

theorem dget_eq_none {α : Type} {d : List (String × α)} {k : String} :
    dget d k = none ↔ k ∉ d.map Prod.fst := by
  induction d with
  | nil => simp [dget]
  | cons p rest ih =>
    obtain ⟨k', v⟩ := p
    by_cases h : k' = k
    · subst h
      simp [dget]
    · rw [dget, if_neg h, ih]
      simp only [List.map_cons, List.mem_cons]
      constructor
      · intro hn hc
        rcases hc with he | hm
        · exact h he.symm
        · exact hn hm
      · intro hn hm
        exact hn (Or.inr hm)

theorem dget_isSome_iff {α : Type} {d : List (String × α)} {k : String} :
    (dget d k).isSome = true ↔ k ∈ d.map Prod.fst := by
  rcases h : dget d k with _ | v
  · simpa [h] using dget_eq_none.mp h
  · simp only [Option.isSome_some, true_iff]
    by_contra hk
    rw [dget_eq_none.mpr hk] at h
    cases h

theorem dget_some_mem {α : Type} {d : List (String × α)} {k : String} {v : α}
    (h : dget d k = some v) : (k, v) ∈ d := by
  induction d with
  | nil => cases h
  | cons p rest ih =>
    obtain ⟨k', v'⟩ := p
    by_cases hk : k' = k
    · subst hk
      simp [dget] at h
      simp [h]
    · simp [dget, hk] at h
      simp [ih h]

theorem dget_of_mem {α : Type} {d : List (String × α)} {k : String} {v : α}
    (hnd : (d.map Prod.fst).Nodup) (hm : (k, v) ∈ d) : dget d k = some v := by
  induction d with
  | nil => cases hm
  | cons p rest ih =>
    obtain ⟨k', v'⟩ := p
    simp only [List.map_cons, List.nodup_cons] at hnd
    rcases List.mem_cons.mp hm with h | h
    · cases h
      simp [dget]
    · have hk : k' ≠ k := by
        intro he
        exact hnd.1 (he ▸ (List.mem_map.mpr ⟨(k, v), h, rfl⟩))
      simp [dget, hk, ih hnd.2 h]

theorem dget_dset_self {α : Type} (d : List (String × α)) (k : String) (v : α) :
    dget (dset d k v) k = some v := by
  induction d with
  | nil => simp [dget, dset]
  | cons p rest ih =>
    obtain ⟨k', v'⟩ := p
    by_cases h : k' = k <;> simp [dget, dset, h, ih]

theorem dget_dset_ne {α : Type} (d : List (String × α)) {k x : String} (v : α)
    (h : x ≠ k) : dget (dset d k v) x = dget d x := by
  induction d with
  | nil => simp [dget, dset, Ne.symm h]
  | cons p rest ih =>
    obtain ⟨k', v'⟩ := p
    by_cases hk : k' = k
    · subst hk
      simp [dget, dset, Ne.symm h]
    · by_cases hx : k' = x
      · subst hx
        simp [dget, dset, hk]
      · simp [dget, dset, hk, hx, ih]

theorem dset_map_fst {α : Type} (d : List (String × α)) (k : String) (v : α) :
    (dset d k v).map Prod.fst =
      if k ∈ d.map Prod.fst then d.map Prod.fst else d.map Prod.fst ++ [k] := by
  induction d with
  | nil => simp [dset]
  | cons p rest ih =>
    obtain ⟨k', v'⟩ := p
    by_cases h : k' = k
    · simp [dset, h]
    · simp only [dset, if_neg h, List.map_cons, ih]
      by_cases hm : k ∈ rest.map Prod.fst <;>
        simp [hm, Ne.symm h, List.mem_cons]

theorem dset_nodup {α : Type} {d : List (String × α)} (k : String) (v : α)
    (hnd : (d.map Prod.fst).Nodup) : ((dset d k v).map Prod.fst).Nodup := by
  rw [dset_map_fst]
  split
  · exact hnd
  · next hk =>
    rw [List.nodup_append]
    refine ⟨hnd, List.nodup_singleton _, ?_⟩
    intro a ha hb
    simp only [List.mem_singleton] at hb
    subst hb
    exact hk ha

theorem dget_append {α : Type} (d1 d2 : List (String × α)) (k : String) :
    dget (d1 ++ d2) k =
      match dget d1 k with
      | some v => some v
      | none => dget d2 k := by
  induction d1 with
  | nil => simp [dget]
  | cons p rest ih =>
    obtain ⟨k', v'⟩ := p
    by_cases h : k' = k <;> simp [dget, h, ih]

/-! ### Graph state predicates and operation characterizations -/

/-- Whether a label has been registered through `add_node`. -/
def isRegistered (g : WGraph) (v : String) : Bool := (dget g.nodes v).isSome

/-- The stored weight of the directed edge record from `a` to `b`. -/
def edgeWeight (g : WGraph) (a b : String) : Option Int :=
  match dget g.nodes a with
  | none => none
  | some es => dget es b

/-- Executable well-formedness check satisfied by every state reachable
through the API: node keys are unique, every node's edge dict has unique
keys, every edge target is registered, and every directed record has a
mirror record of the same weight. -/
def wfB (g : WGraph) : Bool :=
  decide (g.nodes.map Prod.fst).Nodup &&
  g.nodes.all (fun p => decide ((p.2.map Prod.fst).Nodup)) &&
  g.nodes.all (fun p => p.2.all (fun e => isRegistered g e.1)) &&
  g.nodes.all (fun p => p.2.all (fun e => edgeWeight g e.1 p.1 == some e.2))

/-- All registered labels are single characters (the domain on which
`Node.__lt__`'s `ord` is defined). -/
def scB (g : WGraph) : Bool :=
  g.nodes.all (fun p => p.1.length == 1)

/-- All stored edge weights are non-negative. -/
def nnB (g : WGraph) : Bool :=
  g.nodes.all (fun p => p.2.all (fun e => decide (0 ≤ e.2)))

theorem wf_nodup {g : WGraph} (h : wfB g = true) : (g.nodes.map Prod.fst).Nodup := by
  simp only [wfB, Bool.and_eq_true, decide_eq_true_eq] at h
  exact h.1.1.1

theorem wf_inner_nodup {g : WGraph} (h : wfB g = true) {a : String}
    {es : List (String × Int)} (ha : dget g.nodes a = some es) :
    (es.map Prod.fst).Nodup := by
  simp only [wfB, Bool.and_eq_true, List.all_eq_true, decide_eq_true_eq] at h
  exact h.1.1.2 _ (dget_some_mem ha)

theorem wf_closed {g : WGraph} (h : wfB g = true) {a b : String} {w : Int}
    (hw : edgeWeight g a b = some w) : isRegistered g b = true := by
  simp only [wfB, Bool.and_eq_true, List.all_eq_true, decide_eq_true_eq] at h
  unfold edgeWeight at hw
  rcases ha : dget g.nodes a with _ | es
  · rw [ha] at hw; cases hw
  · rw [ha] at hw
    exact h.1.2 _ (dget_some_mem ha) _ (dget_some_mem hw)

theorem wf_sym {g : WGraph} (h : wfB g = true) {a b : String} {w : Int}
    (hw : edgeWeight g a b = some w) : edgeWeight g b a = some w := by
  have h' := h
  simp only [wfB, Bool.and_eq_true, List.all_eq_true, beq_iff_eq] at h'
  unfold edgeWeight at hw
  rcases ha : dget g.nodes a with _ | es
  · rw [ha] at hw; cases hw
  · rw [ha] at hw
    exact h'.2 _ (dget_some_mem ha) _ (dget_some_mem hw)

theorem wf_intro {g : WGraph}
    (h1 : (g.nodes.map Prod.fst).Nodup)
    (h2 : ∀ p ∈ g.nodes, ((p.2.map Prod.fst).Nodup : Prop))
    (h3 : ∀ a b w, edgeWeight g a b = some w → isRegistered g b = true)
    (h4 : ∀ a b w, edgeWeight g a b = some w → edgeWeight g b a = some w) :
    wfB g = true := by
  simp only [wfB, Bool.and_eq_true, List.all_eq_true, decide_eq_true_eq, beq_iff_eq]
  refine ⟨⟨⟨h1, h2⟩, ?_⟩, ?_⟩
  · intro p hp e he
    have hw : edgeWeight g p.1 e.1 = some e.2 := by
      unfold edgeWeight
      rw [dget_of_mem h1 hp]
      exact dget_of_mem (h2 p hp) he
    exact h3 _ _ _ hw
  · intro p hp e he
    have hw : edgeWeight g p.1 e.1 = some e.2 := by
      unfold edgeWeight
      rw [dget_of_mem h1 hp]
      exact dget_of_mem (h2 p hp) he
    exact h4 _ _ _ hw

theorem dget_addNode (g : WGraph) (n x : String) :
    dget (addNode g n).nodes x =
      if x = n then some ((dget g.nodes n).getD []) else dget g.nodes x := by
  unfold addNode
  rcases h : dget g.nodes n with _ | es
  · show dget (g.nodes ++ [(n, [])]) x = _
    rw [dget_append]
    by_cases hx : x = n
    · subst hx
      rw [h]
      simp [dget]
    · rcases hgx : dget g.nodes x with _ | v
      · simp [dget, hx, Ne.symm hx]
      · simp [hx]
  · by_cases hx : x = n
    · subst hx
      simp [h]
    · simp [hx]

theorem addNode_map_fst (g : WGraph) (n : String) :
    (addNode g n).nodes.map Prod.fst =
      if isRegistered g n = true then g.nodes.map Prod.fst
      else g.nodes.map Prod.fst ++ [n] := by
  unfold addNode isRegistered
  rcases h : dget g.nodes n with _ | es <;> simp [h]

theorem edgeWeight_addNode (g : WGraph) (n a b : String) :
    edgeWeight (addNode g n) a b = edgeWeight g a b := by
  unfold edgeWeight
  rw [dget_addNode]
  by_cases ha : a = n
  · subst ha
    rcases h : dget g.nodes a with _ | es <;> simp [h, dget]
  · simp [ha]

theorem setEdge_map_fst (ns : List (String × List (String × Int)))
    (a b : String) (w : Int) :
    (setEdge ns a b w).map Prod.fst = ns.map Prod.fst := by
  unfold setEdge
  rw [List.map_map]
  apply List.map_congr_left
  intro p _
  by_cases h : p.1 = a <;> simp [h]

theorem dget_setEdge (ns : List (String × List (String × Int)))
    (a b : String) (w : Int) (x : String) :
    dget (setEdge ns a b w) x =
      if x = a then (dget ns a).map (fun es => dset es b w) else dget ns x := by
  induction ns with
  | nil => by_cases h : x = a <;> simp [setEdge, dget, h]
  | cons p rest ih =>
    obtain ⟨k, es⟩ := p
    show dget ((if k = a then (k, dset es b w) else (k, es)) :: setEdge rest a b w) x = _
    by_cases hk : k = a
    · subst hk
      rw [if_pos rfl]
      by_cases hx : x = k
      · subst hx
        show (if x = x then some (dset es b w) else dget (setEdge rest x b w) x) = _
        rw [if_pos rfl, if_pos rfl]
        show some (dset es b w) =
          Option.map (fun es => dset es b w) (if x = x then some es else dget rest x)
        rw [if_pos rfl]
        rfl
      · show (if k = x then some (dset es b w) else dget (setEdge rest k b w) x) = _
        rw [if_neg (show ¬ k = x from fun h => hx h.symm), ih, if_neg hx, if_neg hx]
        show dget rest x = (if k = x then some es else dget rest x)
        rw [if_neg (show ¬ k = x from fun h => hx h.symm)]
    · rw [if_neg hk]
      by_cases hx : k = x
      · subst hx
        show (if k = k then some es else dget (setEdge rest a b w) k) = _
        rw [if_pos rfl, if_neg (show ¬ k = a from hk)]
        show some es = (if k = k then some es else dget rest k)
        rw [if_pos rfl]
      · show (if k = x then some es else dget (setEdge rest a b w) x) = _
        rw [if_neg hx, ih]
        by_cases hxa : x = a
        · rw [if_pos hxa, if_pos hxa]
          show Option.map _ (dget rest a) = Option.map _ (if k = a then some es else dget rest a)
          rw [if_neg hk]
        · rw [if_neg hxa, if_neg hxa]
          show dget rest x = (if k = x then some es else dget rest x)
          rw [if_neg hx]

theorem addEdge_ok {g : WGraph} {s t : String} {w : Int} {g' : WGraph}
    (h : addEdge g s t w = .ok g') :
    isRegistered g s = true ∧ isRegistered g t = true ∧
      g'.nodes = setEdge (setEdge g.nodes s t w) t s w := by
  unfold addEdge at h
  rcases hs : dget g.nodes s with _ | es <;> rw [hs] at h
  · cases h
  · rcases ht : dget g.nodes t with _ | et <;> rw [ht] at h
    · cases h
    · cases h
      exact ⟨by simp [isRegistered, hs], by simp [isRegistered, ht], rfl⟩

theorem addEdge_map_fst {g : WGraph} {s t : String} {w : Int} {g' : WGraph}
    (h : addEdge g s t w = .ok g') :
    g'.nodes.map Prod.fst = g.nodes.map Prod.fst := by
  rw [(addEdge_ok h).2.2, setEdge_map_fst, setEdge_map_fst]

theorem isRegistered_addEdge {g : WGraph} {s t : String} {w : Int} {g' : WGraph}
    (h : addEdge g s t w = .ok g') (x : String) :
    isRegistered g' x = isRegistered g x := by
  unfold isRegistered
  rcases h1 : dget g'.nodes x with _ | v1 <;> rcases h2 : dget g.nodes x with _ | v2 <;>
    try rfl
  · have := dget_eq_none.mp h1
    rw [addEdge_map_fst h] at this
    rw [dget_eq_none.mpr this] at h2
    cases h2
  · have := dget_eq_none.mp h2
    rw [← addEdge_map_fst h] at this
    rw [dget_eq_none.mpr this] at h1
    cases h1

theorem edgeWeight_addEdge {g : WGraph} {s t : String} {w : Int} {g' : WGraph}
    (h : addEdge g s t w = .ok g') (x y : String) :
    edgeWeight g' x y =
      if x = s ∧ y = t then some w
      else if x = t ∧ y = s then some w
      else edgeWeight g x y := by
  obtain ⟨hs, ht, hnodes⟩ := addEdge_ok h
  obtain ⟨ess, hess⟩ := Option.isSome_iff_exists.mp hs
  obtain ⟨est, hest⟩ := Option.isSome_iff_exists.mp ht
  have hmain : dget g'.nodes x =
      if x = t then
        (if t = s then some (dset (dset ess t w) s w) else some (dset est s w))
      else if x = s then some (dset ess t w)
      else dget g.nodes x := by
    rw [hnodes, dget_setEdge]
    by_cases hxt : x = t
    · rw [if_pos hxt, if_pos hxt, dget_setEdge]
      by_cases hts : t = s
      · rw [if_pos hts, if_pos hts, hess]
        rfl
      · rw [if_neg hts, if_neg hts, hest]
        rfl
    · rw [if_neg hxt, if_neg hxt, dget_setEdge]
      by_cases hxs : x = s
      · rw [if_pos hxs, if_pos hxs, hess]
        rfl
      · rw [if_neg hxs, if_neg hxs]
  unfold edgeWeight
  rw [hmain]
  by_cases hxt : x = t
  · rw [if_pos hxt]
    by_cases hts : t = s
    · rw [if_pos hts]
      by_cases hys : y = s
      · rw [if_pos ⟨hxt.trans hts, hys.trans hts.symm⟩]
        show dget (dset (dset ess t w) s w) y = some w
        rw [hys, dget_dset_self]
      · have hyt : ¬ y = t := fun hy => hys (hy.trans hts)
        rw [if_neg (fun hc => hyt hc.2), if_neg (fun hc => hys hc.2)]
        show dget (dset (dset ess t w) s w) y = _
        rw [dget_dset_ne _ _ hys, dget_dset_ne _ _ hyt, hxt.trans hts, hess]
    · have hxs : ¬ x = s := fun hx => hts (hxt.symm.trans hx)
      rw [if_neg hts, if_neg (fun hc => hxs hc.1)]
      by_cases hys : y = s
      · rw [if_pos ⟨hxt, hys⟩]
        show dget (dset est s w) y = some w
        rw [hys, dget_dset_self]
      · rw [if_neg (fun hc => hys hc.2)]
        show dget (dset est s w) y = _
        rw [dget_dset_ne _ _ hys, hxt, hest]
  · rw [if_neg hxt]
    by_cases hxs : x = s
    · rw [if_pos hxs]
      by_cases hyt : y = t
      · rw [if_pos ⟨hxs, hyt⟩]
        show dget (dset ess t w) y = some w
        rw [hyt, dget_dset_self]
      · rw [if_neg (show ¬(x = s ∧ y = t) from fun hc => hyt hc.2),
            if_neg (show ¬(x = t ∧ y = s) from fun hc => hxt hc.1)]
        show dget (dset ess t w) y = _
        rw [dget_dset_ne _ _ hyt, hxs, hess]
    · rw [if_neg hxs,
          if_neg (show ¬(x = s ∧ y = t) from fun hc => hxs hc.1),
          if_neg (show ¬(x = t ∧ y = s) from fun hc => hxt hc.1)]

theorem wfB_empty : wfB ⟨[]⟩ = true := by rfl

theorem wfB_addNode {g : WGraph} (h : wfB g = true) (n : String) :
    wfB (addNode g n) = true := by
  apply wf_intro
  · rw [addNode_map_fst]
    split
    · exact wf_nodup h
    · next hreg =>
      rw [List.nodup_append]
      refine ⟨wf_nodup h, List.nodup_singleton _, ?_⟩
      intro a ha hb
      simp only [List.mem_singleton] at hb
      subst hb
      rw [Bool.not_eq_true, isRegistered] at hreg
      rcases hn2 : dget g.nodes a with _ | es2
      · exact dget_eq_none.mp hn2 ha
      · rw [hn2] at hreg
        cases hreg
  · intro p hp
    unfold addNode at hp
    rcases hn : dget g.nodes n with _ | es <;> rw [hn] at hp
    · simp only [List.mem_append, List.mem_singleton] at hp
      rcases hp with hp | hp
      · have := wf_inner_nodup h (dget_of_mem (wf_nodup h) hp)
        exact this
      · subst hp
        simp
    · exact wf_inner_nodup h (dget_of_mem (wf_nodup h) hp)
  · intro a b v hw
    rw [edgeWeight_addNode] at hw
    have := wf_closed h hw
    rw [isRegistered] at this ⊢
    rw [dget_addNode]
    split <;> simp [this]
  · intro a b v hw
    rw [edgeWeight_addNode] at hw
    rw [edgeWeight_addNode]
    exact wf_sym h hw

theorem wfB_addEdge {g : WGraph} {s t : String} {w : Int} {g' : WGraph}
    (h : wfB g = true) (hok : addEdge g s t w = .ok g') : wfB g' = true := by
  obtain ⟨hs, ht, hnodes⟩ := addEdge_ok hok
  apply wf_intro
  · rw [addEdge_map_fst hok]
    exact wf_nodup h
  · intro p hp
    rw [hnodes] at hp
    unfold setEdge at hp
    simp only [List.mem_map] at hp
    obtain ⟨q, hq, hpq⟩ := hp
    obtain ⟨q0, hq0, hq0q⟩ := hq
    have hq0nd := wf_inner_nodup h (dget_of_mem (wf_nodup h) hq0)
    have hqnd : ((q.2).map Prod.fst).Nodup := by
      subst hq0q
      split
      · exact dset_nodup _ _ hq0nd
      · exact hq0nd
    subst hpq
    split
    · exact dset_nodup _ _ hqnd
    · exact hqnd
  · intro a b v hw
    rw [edgeWeight_addEdge hok] at hw
    rw [isRegistered_addEdge hok]
    split at hw
    · next hc => exact hc.2 ▸ ht
    · split at hw
      · next hc => exact hc.2 ▸ hs
      · exact wf_closed h hw
  · intro a b v hw
    rw [edgeWeight_addEdge hok] at hw
    rw [edgeWeight_addEdge hok]
    by_cases h1 : a = s ∧ b = t
    · rw [if_pos h1] at hw
      by_cases h1' : b = s ∧ a = t
      · rw [if_pos h1']
        exact hw
      · rw [if_neg h1', if_pos ⟨h1.2, h1.1⟩]
        exact hw
    · rw [if_neg h1] at hw
      by_cases h2 : a = t ∧ b = s
      · rw [if_pos h2] at hw
        rw [if_pos ⟨h2.2, h2.1⟩]
        exact hw
      · rw [if_neg h2] at hw
        have h1' : ¬(b = s ∧ a = t) := fun hc => h2 ⟨hc.2, hc.1⟩
        have h2' : ¬(b = t ∧ a = s) := fun hc => h1 ⟨hc.2, hc.1⟩
        rw [if_neg h1', if_neg h2']
        exact wf_sym h hw

/-! ### Sequences of API operations -/

/-- One mutating API call. -/
inductive Op where
  | node (name : String)
  | edge (source target : String) (w : Int)

/-- Run a sequence of `add_node` / `add_edge` calls from a state; a
failing `add_edge` raises and leaves the state unchanged. -/
def runOps : WGraph → List Op → WGraph
  | g, [] => g
  | g, .node n :: rest => runOps (addNode g n) rest
  | g, .edge s t w :: rest =>
    match addEdge g s t w with
    | .ok g' => runOps g' rest
    | .error _ => runOps g rest

/-- Graph states reachable from the empty graph through the API. -/
def Reachable (g : WGraph) : Prop := ∃ ops : List Op, runOps ⟨[]⟩ ops = g

theorem wfB_runOps (g : WGraph) (ops : List Op) (h : wfB g = true) :
    wfB (runOps g ops) = true := by
  induction ops generalizing g with
  | nil => exact h
  | cons op rest ih =>
    cases op with
    | node n => exact ih _ (wfB_addNode h n)
    | edge s t w =>
      rcases he : addEdge g s t w with e | g'
      · simpa only [runOps, he] using ih _ h
      · simpa only [runOps, he] using ih _ (wfB_addEdge h he)

theorem Reachable.wf {g : WGraph} (h : Reachable g) : wfB g = true := by
  obtain ⟨ops, rfl⟩ := h
  exact wfB_runOps _ _ wfB_empty

/-- The fixture graph as an operation sequence. -/
def demoOps : List Op :=
  [.node "A", .node "B", .node "C", .node "D", .node "E", .node "F",
   .edge "A" "B" 1, .edge "A" "C" 2, .edge "A" "D" 5, .edge "B" "D" 3,
   .edge "B" "E" 7, .edge "C" "D" 1, .edge "D" "E" 2]

theorem demoGraph_reachable : Reachable demoGraph := ⟨demoOps, by rfl⟩

/-! ### Auxiliary concrete graphs used by counterexamples and witnesses -/

/-- Nodes `B`, `C` with one edge; label `A` was never registered. -/
def cexGraph1 : WGraph := runOps ⟨[]⟩ [.node "B", .node "C", .edge "B" "C" 1]

/-- A single isolated registered node `A`. -/
def cexGraphA : WGraph := runOps ⟨[]⟩ [.node "A"]

/-- Nodes `A`, `B`, `C` with one edge `A-B`; `C` is registered but
unreachable. -/
def cexGraph2 : WGraph :=
  runOps ⟨[]⟩ [.node "A", .node "B", .node "C", .edge "A" "B" 1]

/-- A graph whose labels are two characters long: node comparison goes
through `ord`, which rejects them. -/
def cexGraphMulti : WGraph :=
  runOps ⟨[]⟩ [.node "AA", .node "BB", .node "CC",
    .edge "AA" "BB" 1, .edge "AA" "CC" 1]

/-- The fixture graph after one further successful `add_edge("E","F",4)`. -/
def demoGraphEF : WGraph := (addEdge demoGraph "E" "F" 4).toOption.getD ⟨[]⟩

theorem isRegistered_false_iff {g : WGraph} {v : String} :
    isRegistered g v = false ↔ dget g.nodes v = none := by
  unfold isRegistered
  rcases dget g.nodes v with _ | e <;> simp

/-! ### Claim C5 -/

/-- C5: in the fixed scenario (nodes A–F, edges A-B(1), A-C(2), A-D(5),
B-D(3), B-E(7), C-D(1), D-E(2)), `get_shortest_distance("A","E")`
returns 5, `get_shortest_path("A","E")` returns `["A","C","D","E"]`,
`get_shortest_distance("A","F")` raises `PathNotFoundError`, and
`get_shortest_distance("A","G")` raises `NonexistentNode`. -/
theorem C5_scenario :
    demoGraphE = .ok demoGraph ∧
    get_shortest_distance demoGraph "A" "E" = some (.ok 5) ∧
    get_shortest_path demoGraph "A" "E" = some (.ok ["A", "C", "D", "E"]) ∧
    get_shortest_distance demoGraph "A" "F" = some (.error .pathNotFound) ∧
    get_shortest_distance demoGraph "A" "G" = some (.error .nonexistentNode) :=
  ⟨rfl, rfl, rfl, rfl, rfl⟩

/-! ### Claim C1 -/

/-- C1 (amended): with an unregistered label, `get_shortest_path` always
raises `NonexistentNode`, and `get_shortest_distance` raises
`NonexistentNode` when the *target* is unregistered; but when only the
source is unregistered, `get_shortest_distance` instead escapes with the
built-in `KeyError` (or with `PathNotFoundError` when the registered
target has no edges, since that check runs first). -/
theorem C1_amended (g : WGraph) (s t : String)
    (h : isRegistered g s = false ∨ isRegistered g t = false) :
    get_shortest_path g s t = some (.error .nonexistentNode) ∧
    (isRegistered g t = false →
      get_shortest_distance g s t = some (.error .nonexistentNode)) ∧
    (isRegistered g t = true →
      get_shortest_distance g s t =
        some (.error (if (edgesOf g t).isEmpty then .pathNotFound else .keyError))) := by
  refine ⟨?_, ?_, ?_⟩
  · unfold get_shortest_path
    rcases hs : dget g.nodes s with _ | es
    · rfl
    · rcases ht : dget g.nodes t with _ | et
      · rfl
      · exfalso
        rcases h with h | h
        · rw [isRegistered_false_iff.mp h] at hs
          cases hs
        · rw [isRegistered_false_iff.mp h] at ht
          cases ht
  · intro h2
    unfold get_shortest_distance
    rw [isRegistered_false_iff.mp h2]
  · intro h2
    obtain ⟨et, het⟩ :=
      Option.isSome_iff_exists.mp (by simpa [isRegistered] using h2)
    have hs : dget g.nodes s = none := by
      rcases h with h | h
      · exact isRegistered_false_iff.mp h
      · rw [h2] at h
        cases h
    unfold get_shortest_distance edgesOf
    rw [het]
    by_cases he : et.isEmpty
    · simp [he]
    · rw [hs]
      simp [he]

/-- Concrete instance of `C1_amended` (label `A` unregistered in
`cexGraph1`). -/
theorem C1_amended_witness :
    (isRegistered cexGraph1 "A" = false ∨ isRegistered cexGraph1 "C" = false) ∧
    get_shortest_path cexGraph1 "A" "C" = some (.error .nonexistentNode) :=
  ⟨Or.inl rfl, (C1_amended cexGraph1 "A" "C" (Or.inl rfl)).1⟩

/-- C1 as stated is false: with target `C` registered (and carrying an
edge) but source `A` never registered, `get_shortest_distance`
escapes with the built-in `KeyError`, not `NonexistentNode`. -/
theorem C1_counterexample :
    isRegistered cexGraph1 "A" = false ∧
    get_shortest_distance cexGraph1 "A" "C" = some (.error .keyError) ∧
    PyErr.keyError ≠ PyErr.nonexistentNode :=
  ⟨rfl, rfl, by decide⟩

/-! ### Claim C8 -/

/-- C8 (amended): `add_edge` fails exactly when a label is absent, but
with the built-in `KeyError` (the lookups are not wrapped); both lookups
precede any mutation, so a failing call produces no new state, and a
call with both labels present always succeeds. -/
theorem C8_amended (g : WGraph) (s t : String) (w : Int) :
    ((isRegistered g s = false ∨ isRegistered g t = false) ↔
      addEdge g s t w = .error .keyError) ∧
    ((isRegistered g s = true ∧ isRegistered g t = true) ↔
      ∃ g', addEdge g s t w = .ok g') := by
  unfold addEdge
  rcases hs : dget g.nodes s with _ | es
  · have h1 : isRegistered g s = false := isRegistered_false_iff.mpr hs
    simp [h1]
  · have h1 : isRegistered g s = true := by simp [isRegistered, hs]
    rcases ht : dget g.nodes t with _ | et
    · have h2 : isRegistered g t = false := isRegistered_false_iff.mpr ht
      simp [h1, h2]
    · have h2 : isRegistered g t = true := by simp [isRegistered, ht]
      simp [h1, h2]

/-- Concrete instance of `C8_amended`. -/
theorem C8_amended_witness :
    addEdge cexGraphA "A" "B" 1 = .error .keyError ∧
    ∃ g', addEdge cexGraphA "A" "A" 2 = .ok g' :=
  ⟨(C8_amended cexGraphA "A" "B" 1).1.mp (Or.inr rfl),
   (C8_amended cexGraphA "A" "A" 2).2.mp ⟨rfl, rfl⟩⟩

/-- C8 as stated is false: the failure kind is `KeyError`, not
`NonexistentNode`. -/
theorem C8_counterexample :
    isRegistered cexGraphA "B" = false ∧
    addEdge cexGraphA "A" "B" 1 = .error .keyError ∧
    PyErr.keyError ≠ PyErr.nonexistentNode :=
  ⟨rfl, rfl, by decide⟩

/-! ### Claim C9 -/

/-- C9: in every state reachable through the API, the adjacency is
symmetric with equal weights; a successful `add_edge` creates both
directed records with the given weight (overwriting any previous weight
between the same pair — the conclusion holds whatever the prior state). -/
theorem C9_invariants (g : WGraph) (hg : Reachable g) :
    (∀ a b w, edgeWeight g a b = some w ↔ edgeWeight g b a = some w) ∧
    (∀ s t w g', addEdge g s t w = .ok g' →
      edgeWeight g' s t = some w ∧ edgeWeight g' t s = some w) := by
  have hwf := hg.wf
  constructor
  · intro a b w
    exact ⟨wf_sym hwf, wf_sym hwf⟩
  · intro s t w g' hok
    rw [edgeWeight_addEdge hok, edgeWeight_addEdge hok]
    constructor
    · rw [if_pos ⟨rfl, rfl⟩]
    · by_cases hst : t = s ∧ s = t
      · rw [if_pos hst]
      · rw [if_neg hst, if_pos ⟨rfl, rfl⟩]

/-- Concrete instance of `C9_invariants` on the fixture graph. -/
theorem C9_invariants_witness :
    (edgeWeight demoGraph "A" "B" = some 1 ↔ edgeWeight demoGraph "B" "A" = some 1) ∧
    (edgeWeight demoGraphEF "E" "F" = some 4 ∧ edgeWeight demoGraphEF "F" "E" = some 4) :=
  ⟨(C9_invariants demoGraph demoGraph_reachable).1 "A" "B" 1,
   (C9_invariants demoGraph demoGraph_reachable).2 "E" "F" 4 demoGraphEF rfl⟩

/-! ### Counterexamples for C2, C6, C7 (their amended claims come later) -/

/-- C2 as stated is false: for a registered but unreachable target,
`get_shortest_path` does not raise `PathNotFoundError` — it returns the
list `[target]`. -/
theorem C2_counterexample :
    isRegistered cexGraph2 "C" = true ∧
    get_shortest_path cexGraph2 "A" "C" = some (.ok ["C"]) :=
  ⟨rfl, rfl⟩

/-- C6 as stated is false: a registered node with no edges fails its own
self-distance query with `PathNotFoundError` (the target-edges precheck
fires before the self short-circuit). -/
theorem C6_counterexample :
    isRegistered cexGraphA "A" = true ∧
    get_shortest_distance cexGraphA "A" "A" = some (.error .pathNotFound) :=
  ⟨rfl, rfl⟩

/-- C7 as stated is false: all weights are non-negative and the edge
`("AA","BB",1)` was added, yet `get_shortest_distance("AA","BB")` does
not return a value `≤ 1` — it raises `TypeError`, because a heap tie
compares the two-character node labels through `ord`. -/
theorem C7_counterexample :
    edgeWeight cexGraphMulti "AA" "BB" = some 1 ∧
    nnB cexGraphMulti = true ∧
    get_shortest_distance cexGraphMulti "AA" "BB" = some (.error .typeError) :=
  ⟨rfl, rfl, rfl⟩

/-! ### List auxiliary lemmas for the heap proofs -/

theorem list_set_same {α : Type} :
    ∀ (l : List α) (i : Nat) (v : α), l[i]? = some v → l.set i v = l := by
  intro l
  induction l with
  | nil => intro i v h; cases h
  | cons x xs ih =>
    intro i v h
    cases i with
    | zero =>
      simp only [List.getElem?_cons_zero, Option.some_inj] at h
      simp [h]
    | succ n =>
      simp only [List.getElem?_cons_succ] at h
      simp [ih n v h]

theorem list_getD_mem {α : Type} {l : List α} {i : Nat} (h : i < l.length) (d : α) :
    l.getD i d ∈ l := by
  rw [List.getD_eq_getElem l d h]
  exact List.getElem_mem h

theorem cons_set_perm {α : Type} :
    ∀ (xs : List α) (j : Nat) (a b : α), j < xs.length →
      (a :: xs.set j b).Perm (b :: xs.set j a) := by
  intro xs
  induction xs with
  | nil => intro j a b h; cases h
  | cons y ys ih =>
    intro j a b h
    cases j with
    | zero => exact List.Perm.swap b a ys
    | succ n =>
      have hn : n < ys.length := by simpa using h
      exact ((List.Perm.swap y a _).trans ((ih n a b hn).cons y)).trans
        (List.Perm.swap b y _)

theorem set_set_perm {α : Type} :
    ∀ (l : List α) (i j : Nat), i ≠ j → i < l.length → j < l.length →
      ∀ a b : α, ((l.set i a).set j b).Perm ((l.set i b).set j a) := by
  intro l
  induction l with
  | nil => intro i j _ hi _ a b; cases hi
  | cons x xs ih =>
    intro i j hij hi hj a b
    cases i with
    | zero =>
      cases j with
      | zero => exact absurd rfl hij
      | succ m =>
        have hm : m < xs.length := by simpa using hj
        simpa using cons_set_perm xs m a b hm
    | succ n =>
      cases j with
      | zero =>
        have hn : n < xs.length := by simpa using hi
        simpa using cons_set_perm xs n b a hn
      | succ m =>
        have hn : n < xs.length := by simpa using hi
        have hm : m < xs.length := by simpa using hj
        have hnm : n ≠ m := fun he => hij (by rw [he])
        simpa using List.Perm.cons x (ih n m hnm hn hm a b)

/-! ### Specifications of the heap operations

Parametric in a predicate `P` under which the comparison never raises;
the results are characterized up to permutation (content only — the
ordering facts needed for Dijkstra come later). -/

theorem entryLt_ok {x y : Entry} (hx : x.2.length = 1) (hy : y.2.length = 1) :
    ∃ b, entryLt x y = .ok b := by
  unfold entryLt
  by_cases h1 : x.1 = y.1
  · by_cases h2 : x.2 = y.2
    · exact ⟨false, by rw [if_pos h1, if_pos h2]⟩
    · obtain ⟨cx, hcx⟩ := List.length_eq_one.mp (show x.2.toList.length = 1 from hx)
      obtain ⟨cy, hcy⟩ := List.length_eq_one.mp (show y.2.toList.length = 1 from hy)
      refine ⟨decide (cx.toNat < cy.toNat), ?_⟩
      rw [if_pos h1, if_neg h2]
      show (do
        let a ← pyOrd x.2
        let b ← pyOrd y.2
        Except.ok (decide (a < b))) = _
      unfold pyOrd
      rw [hcx, hcy]
      rfl
  · exact ⟨_, by rw [if_neg h1]⟩

theorem siftdown_ok {α : Type} {lt : α → α → Except PyErr Bool} {P : α → Prop}
    (hlt : ∀ x y, P x → P y → ∃ b, lt x y = .ok b) (sp : Nat) {newitem : α}
    (hPn : P newitem) :
    ∀ (fuel : Nat) (heap : List α) (pos : Nat), pos < heap.length → pos ≤ fuel →
      (∀ e ∈ heap, P e) →
      ∃ l', siftdown lt sp newitem fuel heap pos = .ok l' ∧
        l'.Perm (heap.set pos newitem) := by
  intro fuel
  induction fuel with
  | zero =>
    intro heap pos hpos _ _
    exact ⟨heap.set pos newitem, rfl, List.Perm.refl _⟩
  | succ fuel ih =>
    intro heap pos hpos hf hP
    by_cases hsp : sp < pos
    · have hpp_lt : (pos - 1) / 2 < pos := by omega
      have hpp_len : (pos - 1) / 2 < heap.length := lt_trans hpp_lt hpos
      have hparent : heap.getD ((pos - 1) / 2) newitem ∈ heap :=
        list_getD_mem hpp_len newitem
      obtain ⟨b, hb⟩ := hlt newitem _ hPn (hP _ hparent)
      cases b
      · exact ⟨heap.set pos newitem,
          by simp only [siftdown]; rw [if_pos hsp, hb], List.Perm.refl _⟩
      · have hlen : ((pos - 1) / 2) < (heap.set pos (heap.getD ((pos - 1) / 2) newitem)).length := by
          simpa using hpp_len
        have hP' : ∀ e ∈ heap.set pos (heap.getD ((pos - 1) / 2) newitem), P e := by
          intro e he
          rcases List.mem_or_eq_of_mem_set he with he | he
          · exact hP _ he
          · exact he ▸ hP _ hparent
        obtain ⟨l', hl', hperm⟩ := ih _ _ hlen (by omega) hP'
        refine ⟨l', by simp only [siftdown]; rw [if_pos hsp, hb]; exact hl', ?_⟩
        apply hperm.trans
        have hne : pos ≠ (pos - 1) / 2 := by omega
        have hswap := set_set_perm heap pos ((pos - 1) / 2) hne hpos hpp_len
          (heap.getD ((pos - 1) / 2) newitem) newitem
        apply hswap.trans
        have : (heap.set pos newitem).set ((pos - 1) / 2)
            (heap.getD ((pos - 1) / 2) newitem) = heap.set pos newitem := by
          apply list_set_same
          rw [List.getElem?_set_ne hne, List.getElem?_eq_getElem hpp_len,
            List.getD_eq_getElem heap newitem hpp_len]
        rw [this]
    · exact ⟨heap.set pos newitem, by simp only [siftdown]; rw [if_neg hsp], List.Perm.refl _⟩

theorem siftupLoop_ok {α : Type} {lt : α → α → Except PyErr Bool} {P : α → Prop}
    (hlt : ∀ x y, P x → P y → ∃ b, lt x y = .ok b) (dflt : α) :
    ∀ (fuel : Nat) (heap : List α) (pos : Nat),
      pos < heap.length → heap.length ≤ fuel + pos → (∀ e ∈ heap, P e) →
      ∃ l' fp, siftupLoop lt dflt fuel heap pos = .ok (l', fp) ∧
        fp < l'.length ∧ l'.length = heap.length ∧ (∀ e ∈ l', e ∈ heap) ∧
        ∀ x, ((l'.set fp x).Perm (heap.set pos x)) := by
  intro fuel
  induction fuel with
  | zero =>
    intro heap pos hpos hf _
    omega
  | succ fuel ih =>
    intro heap pos hpos hf hP
    by_cases hc1 : 2 * pos + 1 < heap.length
    · have step : ∀ cp, pos < cp → cp < heap.length →
        ∃ l' fp, siftupLoop lt dflt fuel (heap.set pos (heap.getD cp dflt)) cp = .ok (l', fp) ∧
          fp < l'.length ∧ l'.length = heap.length ∧ (∀ e ∈ l', e ∈ heap) ∧
          ∀ x, ((l'.set fp x).Perm (heap.set pos x)) := by
        intro cp hcp1 hcp2
        have hP' : ∀ e ∈ heap.set pos (heap.getD cp dflt), P e := by
          intro e he
          rcases List.mem_or_eq_of_mem_set he with he | he
          · exact hP _ he
          · exact he ▸ hP _ (list_getD_mem hcp2 dflt)
        obtain ⟨l', fp, hrun, hfp, hlen, hmem, hperm⟩ :=
          ih (heap.set pos (heap.getD cp dflt)) cp (by simpa using hcp2)
            (by simp only [List.length_set]; omega) hP'
        refine ⟨l', fp, hrun, by simpa using hfp, by simpa using hlen, ?_, ?_⟩
        · intro e he
          rcases List.mem_or_eq_of_mem_set (hmem e he) with he' | he'
          · exact he'
          · exact he' ▸ list_getD_mem hcp2 dflt
        · intro x
          apply (hperm x).trans
          have hne : pos ≠ cp := Nat.ne_of_lt hcp1
          have hswap := set_set_perm heap pos cp hne hpos hcp2 (heap.getD cp dflt) x
          apply hswap.trans
          have : (heap.set pos x).set cp (heap.getD cp dflt) = heap.set pos x := by
            apply list_set_same
            rw [List.getElem?_set_ne hne, List.getElem?_eq_getElem hcp2,
              List.getD_eq_getElem heap dflt hcp2]
          rw [this]
      by_cases hc2 : 2 * pos + 2 < heap.length
      · obtain ⟨b, hb⟩ := hlt _ _ (hP _ (list_getD_mem hc1 dflt)) (hP _ (list_getD_mem hc2 dflt))
        cases b
        · obtain ⟨l', fp, hrun, h1, h2, h3, h4⟩ := step (2 * pos + 2) (by omega) hc2
          exact ⟨l', fp, by simp only [siftupLoop]; rw [if_pos hc1, if_pos hc2, hb]; exact hrun,
            h1, h2, h3, h4⟩
        · obtain ⟨l', fp, hrun, h1, h2, h3, h4⟩ := step (2 * pos + 1) (by omega) hc1
          exact ⟨l', fp, by simp only [siftupLoop]; rw [if_pos hc1, if_pos hc2, hb]; exact hrun,
            h1, h2, h3, h4⟩
      · obtain ⟨l', fp, hrun, h1, h2, h3, h4⟩ := step (2 * pos + 1) (by omega) hc1
        exact ⟨l', fp, by simp only [siftupLoop]; rw [if_pos hc1, if_neg hc2]; exact hrun,
          h1, h2, h3, h4⟩
    · exact ⟨heap, pos, by simp only [siftupLoop]; rw [if_neg hc1], hpos, rfl,
        fun e he => he, fun x => List.Perm.refl _⟩

theorem siftup_ok {α : Type} {lt : α → α → Except PyErr Bool} {P : α → Prop}
    (hlt : ∀ x y, P x → P y → ∃ b, lt x y = .ok b) (dflt : α) {heap : List α}
    {pos : Nat} (hpos : pos < heap.length) (hP : ∀ e ∈ heap, P e) :
    ∃ l', siftup lt dflt heap pos = .ok l' ∧ l'.Perm heap := by
  obtain ⟨l', fp, hrun, hfp, hlen, hmem, hperm⟩ :=
    siftupLoop_ok hlt dflt heap.length heap pos hpos (by omega) hP
  have hPn : P (heap.getD pos dflt) := hP _ (list_getD_mem hpos dflt)
  have hP' : ∀ e ∈ l'.set fp (heap.getD pos dflt), P e := by
    intro e he
    rcases List.mem_or_eq_of_mem_set he with he | he
    · exact hP _ (hmem _ he)
    · exact he ▸ hPn
  obtain ⟨l2, hrun2, hperm2⟩ := siftdown_ok hlt pos hPn fp (l'.set fp (heap.getD pos dflt)) fp
    (by simpa using hfp) (Nat.le_refl fp) hP'
  refine ⟨l2, ?_, ?_⟩
  · unfold siftup
    rw [hrun]
    exact hrun2
  · apply hperm2.trans
    rw [List.set_set]
    apply (hperm (heap.getD pos dflt)).trans
    have hsame : heap.set pos (heap.getD pos dflt) = heap := by
      apply list_set_same
      rw [List.getElem?_eq_getElem hpos, List.getD_eq_getElem heap dflt hpos]
    rw [hsame]

theorem heappush_ok {α : Type} {lt : α → α → Except PyErr Bool} {P : α → Prop}
    (hlt : ∀ x y, P x → P y → ∃ b, lt x y = .ok b) {heap : List α} {item : α}
    (hP : ∀ e ∈ heap, P e) (hPi : P item) :
    ∃ l', heappush lt heap item = .ok l' ∧ l'.Perm (item :: heap) := by
  have hP' : ∀ e ∈ heap ++ [item], P e := by
    intro e he
    rcases List.mem_append.mp he with he | he
    · exact hP _ he
    · simp only [List.mem_singleton] at he
      exact he ▸ hPi
  obtain ⟨l', hrun, hperm⟩ := siftdown_ok hlt 0 hPi heap.length (heap ++ [item]) heap.length
    (by simp) (Nat.le_refl _) hP'
  refine ⟨l', hrun, ?_⟩
  apply hperm.trans
  have : (heap ++ [item]).set heap.length item = heap ++ [item] := by
    apply list_set_same
    rw [List.getElem?_append_right (Nat.le_refl _)]
    simp
  rw [this]
  exact List.perm_append_singleton item heap

theorem heappop_ok {α : Type} {lt : α → α → Except PyErr Bool} {P : α → Prop}
    (hlt : ∀ x y, P x → P y → ∃ b, lt x y = .ok b) (dflt : α) {heap : List α}
    (hP : ∀ e ∈ heap, P e) (hne : heap ≠ []) :
    ∃ x rest, heappop lt dflt heap = .ok (x, rest) ∧ heap.Perm (x :: rest) := by
  rcases List.eq_nil_or_concat heap with rfl | ⟨L, b, hLb⟩
  · exact absurd rfl hne
  · rw [List.concat_eq_append] at hLb
    subst hLb
    rcases L with _ | ⟨r0, tail0⟩
    · exact ⟨b, [], rfl, List.Perm.refl _⟩
    · have hPbt : ∀ e ∈ b :: tail0, P e := by
        intro e he
        rcases List.mem_cons.mp he with he | he
        · subst he
          exact hP _ (by simp)
        · exact hP _ (by simp [he])
      obtain ⟨l2, hrun2, hperm2⟩ :=
        @siftup_ok _ _ _ hlt dflt (b :: tail0) 0 (by simp) hPbt
      refine ⟨r0, l2, ?_, ?_⟩
      · unfold heappop
        rw [List.getLast?_concat]
        show (if ((r0 :: tail0) ++ [b]).dropLast.isEmpty then
            Except.ok (b, ([] : List α))
          else do
            let h2 ← siftup lt dflt (((r0 :: tail0) ++ [b]).dropLast.set 0 b) 0
            Except.ok (((r0 :: tail0) ++ [b]).dropLast.getD 0 dflt, h2)) = _
        rw [List.dropLast_concat]
        rw [if_neg (by simp)]
        show (do
          let h2 ← siftup lt dflt (b :: tail0) 0
          Except.ok (r0, h2)) = _
        rw [hrun2]
        rfl
      · show (r0 :: (tail0 ++ [b])).Perm (r0 :: l2)
        exact List.Perm.cons r0
          ((List.perm_append_singleton b tail0).trans hperm2.symm)

theorem pushEdges_ok {P : Entry → Prop}
    (hlt : ∀ x y : Entry, P x → P y → ∃ b, entryLt x y = .ok b) :
    ∀ (es : List (String × Int)) (w : Int) (heap : List Entry),
      (∀ e ∈ heap, P e) → (∀ p ∈ es, P (w + p.2, p.1)) →
      ∃ h', pushEdges es w heap = .ok h' ∧
        h'.Perm ((es.map (fun p => (w + p.2, p.1))) ++ heap) := by
  intro es
  induction es with
  | nil =>
    intro w heap hP _
    exact ⟨heap, rfl, List.Perm.refl _⟩
  | cons p rest ih =>
    intro w heap hP hPes
    obtain ⟨t, ew⟩ := p
    obtain ⟨h2, hrun2, hperm2⟩ := heappush_ok hlt hP (hPes (t, ew) (List.mem_cons_self _ _))
    have hP2 : ∀ e ∈ h2, P e := by
      intro e he
      rcases List.mem_cons.mp (hperm2.subset he) with he | he
      · exact he ▸ hPes (t, ew) (List.mem_cons_self _ _)
      · exact hP _ he
    obtain ⟨h', hrun', hperm'⟩ := ih w h2 hP2
      (fun q hq => hPes q (List.mem_cons_of_mem _ hq))
    refine ⟨h', ?_, ?_⟩
    · show (match heappush entryLt heap (w + ew, t) with
        | Except.error e => Except.error e
        | Except.ok h2 => pushEdges rest w h2) = _
      rw [hrun2]
      exact hrun'
    · apply hperm'.trans
      apply (List.Perm.append_left (rest.map (fun q => (w + q.2, q.1))) hperm2).trans
      exact List.perm_middle

/-! ### Reachability and the distance-loop invariant -/

/-- Reachability along stored edge records. -/
inductive ReachP (g : WGraph) (s : String) : String → Prop where
  | refl : ReachP g s s
  | tail {u v : String} {w : Int} : ReachP g s u → edgeWeight g u v = some w →
      ReachP g s v

theorem ReachP.registered {g : WGraph} {s v : String} (hwf : wfB g = true)
    (hs : isRegistered g s = true) (h : ReachP g s v) :
    isRegistered g v = true := by
  induction h with
  | refl => exact hs
  | tail _ hw _ => exact wf_closed hwf hw

theorem sc_label {g : WGraph} {v : String} (hsc : scB g = true)
    (hv : isRegistered g v = true) : v.length = 1 := by
  simp only [scB, List.all_eq_true, beq_iff_eq] at hsc
  obtain ⟨es, hes⟩ := Option.isSome_iff_exists.mp (show (dget g.nodes v).isSome = true from hv)
  exact hsc (v, es) (dget_some_mem hes)

theorem edgesOf_edgeWeight {g : WGraph} {v : String} (hwf : wfB g = true)
    (hv : isRegistered g v = true) {p : String × Int} (hp : p ∈ edgesOf g v) :
    edgeWeight g v p.1 = some p.2 := by
  obtain ⟨es, hes⟩ := Option.isSome_iff_exists.mp (show (dget g.nodes v).isSome = true from hv)
  unfold edgesOf at hp
  rw [hes] at hp
  unfold edgeWeight
  rw [hes]
  exact dget_of_mem (wf_inner_nodup hwf hes) hp

theorem filterSum_mono (ns : List (String × List (String × Int)))
    {v1 v2 : List String} (hsub : ∀ x, x ∈ v2 → x ∈ v1) :
    filterSum ns v1 ≤ filterSum ns v2 := by
  induction ns with
  | nil => exact Nat.le_refl _
  | cons p rest ih =>
    obtain ⟨k, v⟩ := p
    show (if k ∈ v1 then 0 else v.length + 1) + filterSum rest v1 ≤
      (if k ∈ v2 then 0 else v.length + 1) + filterSum rest v2
    by_cases h1 : k ∈ v1
    · rw [if_pos h1]
      by_cases h2 : k ∈ v2
      · rw [if_pos h2]
        omega
      · rw [if_neg h2]
        omega
    · have h2 : k ∉ v2 := fun hc => h1 (hsub _ hc)
      rw [if_neg h1, if_neg h2]
      omega

theorem filterSum_decrease (ns : List (String × List (String × Int)))
    {node : String} {visited : List String} (hmem : node ∉ visited)
    {es : List (String × Int)} (hget : dget ns node = some es) :
    filterSum ns (node :: visited) + es.length + 1 ≤ filterSum ns visited := by
  induction ns with
  | nil => cases hget
  | cons p rest ih =>
    obtain ⟨k, v⟩ := p
    show (if k ∈ node :: visited then 0 else v.length + 1) + filterSum rest (node :: visited)
        + es.length + 1 ≤
      (if k ∈ visited then 0 else v.length + 1) + filterSum rest visited
    by_cases hk : k = node
    · have hes : v = es := by
        simpa [dget, hk] using hget
      subst hes
      rw [if_pos (by simp [hk]), if_neg (by rw [hk]; exact hmem)]
      have hmono := @filterSum_mono rest (node :: visited) visited
        (fun x hx => List.mem_cons_of_mem _ hx)
      omega
    · have hget' : dget rest node = some es := by
        simpa [dget, hk] using hget
      have hrec := ih hget'
      by_cases hv : k ∈ visited
      · rw [if_pos hv, if_pos (List.mem_cons_of_mem _ hv)]
        omega
      · have hv2 : k ∉ node :: visited := by
          simp only [List.mem_cons]
          rintro (h | h)
          · exact hk h
          · exact hv h
        rw [if_neg hv, if_neg hv2]
        omega

/-- The loop potential: queue size plus, for each unvisited registered
node, its degree plus one. -/
def phi (g : WGraph) (heap : List Entry) (visited : List String) : Nat :=
  heap.length + filterSum g.nodes visited

theorem heappush_nil {α : Type} (lt : α → α → Except PyErr Bool) (item : α) :
    heappush lt [] item = .ok [item] := rfl

/-- Main specification of the `get_shortest_distance` loop: with enough
fuel it always produces a result, which is either a weight (and then the
target is reachable from the source) or `PathNotFoundError` — never a
comparison error, never fuel exhaustion. -/
theorem distLoop_main {g : WGraph} (hwf : wfB g = true) (hsc : scB g = true)
    {s : String} (hs : isRegistered g s = true) (t : String) :
    ∀ (fuel : Nat) (heap : List Entry) (visited : List String),
      phi g heap visited < fuel →
      (∀ e ∈ heap, ReachP g s e.2) →
      ∃ r, distLoop g t fuel heap visited = some r ∧
        ((∃ w, r = Except.ok w ∧ ReachP g s t) ∨ r = Except.error PyErr.pathNotFound) := by
  have hlt' : ∀ x y : Entry, ReachP g s x.2 → ReachP g s y.2 → ∃ b, entryLt x y = .ok b :=
    fun x y hx hy => entryLt_ok (sc_label hsc (hx.registered hwf hs))
      (sc_label hsc (hy.registered hwf hs))
  intro fuel
  induction fuel with
  | zero => intro heap visited hphi _; omega
  | succ fuel ih =>
    intro heap visited hphi hinv
    by_cases hemp : heap.isEmpty
    · refine ⟨.error .pathNotFound, ?_, Or.inr rfl⟩
      simp only [distLoop, hemp, if_true]
    · have hne : heap ≠ [] := by
        intro h
        rw [h] at hemp
        exact hemp rfl
      obtain ⟨x, rest, hpop, hperm⟩ := heappop_ok hlt' (0, "") hinv hne
      obtain ⟨w, node⟩ := x
      have hxr : ReachP g s node :=
        hinv _ (hperm.symm.subset (List.mem_cons_self _ _))
      have hrest : ∀ e ∈ rest, ReachP g s e.2 :=
        fun e he => hinv _ (hperm.symm.subset (List.mem_cons_of_mem _ he))
      have hlen : heap.length = rest.length + 1 := by
        simpa using hperm.length_eq
      by_cases hteq : node = t
      · refine ⟨.ok w, ?_, Or.inl ⟨w, rfl, hteq ▸ hxr⟩⟩
        simp only [distLoop, hemp, hpop, hteq, Bool.false_eq_true, if_false, if_true]
      · by_cases hvis : node ∈ visited
        · have hphi' : phi g rest visited < fuel := by
            unfold phi at *
            omega
          obtain ⟨r, hr, hcase⟩ := ih rest visited hphi' hrest
          refine ⟨r, ?_, hcase⟩
          simp only [distLoop, hemp, hpop, hteq, hvis, Bool.false_eq_true, if_false, if_true]
          exact hr
        · have hnreg : isRegistered g node = true := hxr.registered hwf hs
          obtain ⟨es0, hes0⟩ :=
            Option.isSome_iff_exists.mp (show (dget g.nodes node).isSome = true from hnreg)
          have hesOf : edgesOf g node = es0 := by
            unfold edgesOf
            rw [hes0]
            rfl
          have hPes : ∀ p ∈ edgesOf g node, ReachP g s (w + p.2, p.1).2 := by
            intro p hp
            exact ReachP.tail hxr (edgesOf_edgeWeight hwf hnreg hp)
          obtain ⟨heap2, hpush, hperm2⟩ := pushEdges_ok hlt' (edgesOf g node) w rest hrest hPes
          have hlen2 : heap2.length = (edgesOf g node).length + rest.length := by
            simpa using hperm2.length_eq
          have hdec := @filterSum_decrease g.nodes node visited hvis es0 hes0
          have hphi' : phi g heap2 (node :: visited) < fuel := by
            unfold phi at *
            rw [hlen2, hesOf]
            omega
          have hinv2 : ∀ e ∈ heap2, ReachP g s e.2 := by
            intro e he
            rcases List.mem_append.mp (hperm2.subset he) with he' | he'
            · obtain ⟨p, hp, rfl⟩ := List.mem_map.mp he'
              exact hPes p hp
            · exact hrest _ he'
          obtain ⟨r, hr, hcase⟩ := ih heap2 (node :: visited) hphi' hinv2
          refine ⟨r, ?_, hcase⟩
          simp only [distLoop, hemp, hpop, hteq, hvis, hpush, Bool.false_eq_true,
            if_false, if_true]
          exact hr

/-- Top-level specification of `get_shortest_distance` for registered
endpoints in a reachable-state graph. -/
theorem get_shortest_distance_spec {g : WGraph} {s t : String}
    (hwf : wfB g = true) (hsc : scB g = true)
    (hs : isRegistered g s = true) (ht : isRegistered g t = true) :
    ∃ r, get_shortest_distance g s t = some r ∧
      ((∃ w, r = Except.ok w ∧ ReachP g s t) ∨ r = Except.error PyErr.pathNotFound) := by
  obtain ⟨et, het⟩ := Option.isSome_iff_exists.mp (show (dget g.nodes t).isSome = true from ht)
  obtain ⟨es, hes⟩ := Option.isSome_iff_exists.mp (show (dget g.nodes s).isSome = true from hs)
  by_cases he : et.isEmpty
  · refine ⟨.error .pathNotFound, ?_, Or.inr rfl⟩
    simp only [get_shortest_distance, het, he, if_true]
  · have hinit : ∀ e ∈ [((0 : Int), s)], ReachP g s e.2 := by
      intro e he'
      simp only [List.mem_singleton] at he'
      subst he'
      exact ReachP.refl
    have hphi : phi g [((0 : Int), s)] [] < distFuel g := by
      unfold phi distFuel
      simp only [List.length_singleton]
      omega
    obtain ⟨r, hr, hcase⟩ := distLoop_main hwf hsc hs t (distFuel g) [(0, s)] [] hphi hinit
    refine ⟨r, ?_, hcase⟩
    simp only [get_shortest_distance, het, he, hes, heappush_nil, Bool.false_eq_true,
      if_false]
    exact hr

/-! ### Potentials for the `get_shortest_path` loop

`unfinAux` sums the outgoing weight of the nodes whose tentative
distance is still infinite; `rpotAux` is the per-node potential whose
strict decrease at every push bounds the loop length. -/

def unfinAux : List (String × List (String × Int)) → List (String × Option Int) → Nat
  | [], _ => 0
  | (k, es) :: rest, routes =>
    (if dget routes k = some none then outW es else 0) + unfinAux rest routes

/-- The potential of one routes cell with cap `B`. -/
def rterm (B : Nat) (c : Option (Option Int)) : Nat :=
  match c with
  | some (some d) => d.toNat
  | some none => B + 1
  | none => 0

def rpotAux (B : Nat) : List (String × List (String × Int)) → List (String × Option Int) → Nat
  | [], _ => 0
  | (k, _) :: rest, routes => rterm B (dget routes k) + rpotAux B rest routes

theorem unfinAux_dset_offkey (ns : List (String × List (String × Int)))
    (routes : List (String × Option Int)) (y : String) (val : Option Int)
    (hy : ∀ p ∈ ns, p.1 ≠ y) :
    unfinAux ns (dset routes y val) = unfinAux ns routes := by
  induction ns with
  | nil => rfl
  | cons p rest ih =>
    obtain ⟨k, es⟩ := p
    have hk : k ≠ y := hy (k, es) (List.mem_cons_self _ _)
    show (if dget (dset routes y val) k = some none then outW es else 0) +
        unfinAux rest (dset routes y val) =
      (if dget routes k = some none then outW es else 0) + unfinAux rest routes
    rw [dget_dset_ne _ _ hk, ih (fun q hq => hy q (List.mem_cons_of_mem _ hq))]

theorem rpotAux_dset_offkey (B : Nat) (ns : List (String × List (String × Int)))
    (routes : List (String × Option Int)) (y : String) (val : Option Int)
    (hy : ∀ p ∈ ns, p.1 ≠ y) :
    rpotAux B ns (dset routes y val) = rpotAux B ns routes := by
  induction ns with
  | nil => rfl
  | cons p rest ih =>
    obtain ⟨k, es⟩ := p
    have hk : k ≠ y := hy (k, es) (List.mem_cons_self _ _)
    show rterm B (dget (dset routes y val) k) + rpotAux B rest (dset routes y val) =
      rterm B (dget routes k) + rpotAux B rest routes
    rw [dget_dset_ne _ _ hk, ih (fun q hq => hy q (List.mem_cons_of_mem _ hq))]

theorem key_ne_of_nodup {ns : List (String × List (String × Int))}
    {k : String} {es : List (String × Int)}
    (hnd : ((( k, es) :: ns).map Prod.fst).Nodup) :
    ∀ p ∈ ns, p.1 ≠ k := by
  intro p hp he
  simp only [List.map_cons, List.nodup_cons] at hnd
  exact hnd.1 (he ▸ List.mem_map.mpr ⟨p, hp, rfl⟩)

theorem unfinAux_dset (ns : List (String × List (String × Int)))
    (hnd : (ns.map Prod.fst).Nodup) (routes : List (String × Option Int))
    {y : String} {es_y : List (String × Int)} (hy : (y, es_y) ∈ ns) (d : Int) :
    unfinAux ns (dset routes y (some d)) +
      (if dget routes y = some none then outW es_y else 0) = unfinAux ns routes := by
  induction ns with
  | nil => cases hy
  | cons p rest ih =>
    obtain ⟨k, es⟩ := p
    have hndr : (rest.map Prod.fst).Nodup := by
      simp only [List.map_cons, List.nodup_cons] at hnd
      exact hnd.2
    rcases List.mem_cons.mp hy with he | he
    · injection he with h1 h2
      subst h1
      subst h2
      show (if dget (dset routes y (some d)) y = some none then outW es_y else 0) +
          unfinAux rest (dset routes y (some d)) +
          (if dget routes y = some none then outW es_y else 0) =
        (if dget routes y = some none then outW es_y else 0) + unfinAux rest routes
      rw [dget_dset_self,
        unfinAux_dset_offkey rest routes y (some d) (key_ne_of_nodup hnd)]
      rw [if_neg (by simp)]
      omega
    · have hk : k ≠ y := by
        simp only [List.map_cons, List.nodup_cons] at hnd
        intro hc
        exact hnd.1 (hc ▸ List.mem_map.mpr ⟨(y, es_y), he, rfl⟩)
      show (if dget (dset routes y (some d)) k = some none then outW es else 0) +
          unfinAux rest (dset routes y (some d)) +
          (if dget routes y = some none then outW es_y else 0) =
        (if dget routes k = some none then outW es else 0) + unfinAux rest routes
      rw [dget_dset_ne _ _ hk]
      have := ih hndr he
      omega

theorem rpotAux_dset (B : Nat) (ns : List (String × List (String × Int)))
    (hnd : (ns.map Prod.fst).Nodup) (routes : List (String × Option Int))
    {y : String} {es_y : List (String × Int)} (hy : (y, es_y) ∈ ns) (d : Int) :
    rpotAux B ns (dset routes y (some d)) + rterm B (dget routes y) =
      rpotAux B ns routes + d.toNat := by
  induction ns with
  | nil => cases hy
  | cons p rest ih =>
    obtain ⟨k, es⟩ := p
    have hndr : (rest.map Prod.fst).Nodup := by
      simp only [List.map_cons, List.nodup_cons] at hnd
      exact hnd.2
    rcases List.mem_cons.mp hy with he | he
    · injection he with h1 h2
      subst h1
      subst h2
      show rterm B (dget (dset routes y (some d)) y) +
          rpotAux B rest (dset routes y (some d)) + rterm B (dget routes y) =
        rterm B (dget routes y) + rpotAux B rest routes + d.toNat
      rw [dget_dset_self,
        rpotAux_dset_offkey B rest routes y (some d) (key_ne_of_nodup hnd)]
      show d.toNat + rpotAux B rest routes + rterm B (dget routes y) = _
      omega
    · have hk : k ≠ y := by
        simp only [List.map_cons, List.nodup_cons] at hnd
        intro hc
        exact hnd.1 (hc ▸ List.mem_map.mpr ⟨(y, es_y), he, rfl⟩)
      show rterm B (dget (dset routes y (some d)) k) +
          rpotAux B rest (dset routes y (some d)) + rterm B (dget routes y) =
        rterm B (dget routes k) + rpotAux B rest routes + d.toNat
      rw [dget_dset_ne _ _ hk]
      have := ih hndr he
      omega

/-! ### Invariants of the `get_shortest_path` loop -/

/-- The `routes` dict has exactly the registered labels as keys. -/
def RKeys (g : WGraph) (routes : List (String × Option Int)) : Prop :=
  ∀ v, (dget routes v).isSome = isRegistered g v

/-- Outgoing weight still "unspent": nodes at distance infinity. -/
def unfin (g : WGraph) (routes : List (String × Option Int)) : Nat :=
  unfinAux g.nodes routes

/-- Total loop potential of the routes map. -/
def rpot (g : WGraph) (routes : List (String × Option Int)) : Nat :=
  rpotAux (wSum g) g.nodes routes

/-- Every finite tentative distance is non-negative and bounded by the
total weight минус the unspent part. -/
def RBound (g : WGraph) (routes : List (String × Option Int)) : Prop :=
  ∀ v d, dget routes v = some (some d) →
    0 ≤ d ∧ d + (unfin g routes : Int) ≤ (wSum g : Int)

theorem nn_edgeWeight {g : WGraph} (hnn : nnB g = true) {a b : String} {w : Int}
    (hw : edgeWeight g a b = some w) : 0 ≤ w := by
  simp only [nnB, List.all_eq_true, decide_eq_true_eq] at hnn
  unfold edgeWeight at hw
  rcases ha : dget g.nodes a with _ | es
  · rw [ha] at hw; cases hw
  · rw [ha] at hw
    exact hnn (a, es) (dget_some_mem ha) (b, w) (dget_some_mem hw)

theorem outW_ge_mem {es : List (String × Int)} {k : String} {w : Int}
    (h : (k, w) ∈ es) : w.toNat ≤ outW es := by
  induction es with
  | nil => cases h
  | cons p rest ih =>
    rcases List.mem_cons.mp h with he | he
    · subst he
      show w.toNat ≤ w.toNat + outW rest
      omega
    · have := ih he
      show _ ≤ p.2.toNat + outW rest
      omega

/-- One pass of the relaxation loop body: it never raises, preserves all
loop invariants, and does not increase `queue size + potential`. -/
theorem relaxEdges_ok {g : WGraph} {s : String}
    (hwf : wfB g = true) (hsc : scB g = true) (hnn : nnB g = true)
    (hs : isRegistered g s = true) :
    ∀ (es : List (String × Int)) (current : String) (visited : List String)
      (routes : List (String × Option Int)) (prev : List (String × String))
      (heap : List Entry),
      ReachP g s current →
      (∀ p ∈ es, edgeWeight g current p.1 = some p.2) →
      RKeys g routes → RBound g routes →
      (∀ e ∈ heap, ReachP g s e.2) →
      (∀ k, (dget prev k).isSome = true → ReachP g s k) →
      ∃ routes' prev' heap',
        relaxEdges es current visited routes prev heap = .ok (routes', prev', heap') ∧
        RKeys g routes' ∧ RBound g routes' ∧
        (∀ e ∈ heap', ReachP g s e.2) ∧
        (∀ k, (dget prev' k).isSome = true → ReachP g s k) ∧
        (s ∈ visited → dget prev s = none → dget prev' s = none) ∧
        heap'.length + rpot g routes' ≤ heap.length + rpot g routes := by
  have hlt' : ∀ x y : Entry, ReachP g s x.2 → ReachP g s y.2 → ∃ b, entryLt x y = .ok b :=
    fun x y hx hy => entryLt_ok (sc_label hsc (hx.registered hwf hs))
      (sc_label hsc (hy.registered hwf hs))
  intro es
  induction es with
  | nil =>
    intro current visited routes prev heap _ _ hrk hrb hhr hpr
    exact ⟨routes, prev, heap, rfl, hrk, hrb, hhr, hpr, fun _ h => h, Nat.le_refl _⟩
  | cons p rest ih =>
    obtain ⟨t', ew⟩ := p
    intro current visited routes prev heap hcur hes hrk hrb hhr hpr
    have hew : edgeWeight g current t' = some ew := hes (t', ew) (List.mem_cons_self _ _)
    have hest : ∀ p ∈ rest, edgeWeight g current p.1 = some p.2 :=
      fun q hq => hes q (List.mem_cons_of_mem _ hq)
    by_cases hv : t' ∈ visited
    · obtain ⟨r', p', h', hrun, c1, c2, c3, c4, c5, c6⟩ :=
        ih current visited routes prev heap hcur hest hrk hrb hhr hpr
      refine ⟨r', p', h', ?_, c1, c2, c3, c4, c5, c6⟩
      simp only [relaxEdges, hv, if_true]
      exact hrun
    · have hcreg : isRegistered g current = true := hcur.registered hwf hs
      have ht'reg : isRegistered g t' = true := wf_closed hwf hew
      obtain ⟨rcO, hrc⟩ := Option.isSome_iff_exists.mp ((hrk current).trans hcreg)
      obtain ⟨rtO, hrt⟩ := Option.isSome_iff_exists.mp ((hrk t').trans ht'reg)
      by_cases hrel : elt (eadd rcO ew) rtO = true
      · rcases rcO with _ | rcv
        · exact absurd hrel (by simp [eadd, elt])
        · have ht'r : ReachP g s t' := ReachP.tail hcur hew
          obtain ⟨h2, hpush, hperm2⟩ := heappush_ok hlt' hhr (show ReachP g s (rcv + ew, t').2 from ht'r)
          have hh2 : ∀ e ∈ h2, ReachP g s e.2 := by
            intro e he
            rcases List.mem_cons.mp (hperm2.subset he) with he | he
            · subst he
              exact ht'r
            · exact hhr _ he
          obtain ⟨est', hest'⟩ :=
            Option.isSome_iff_exists.mp (show (dget g.nodes t').isSome = true from ht'reg)
          have hmemt' : (t', est') ∈ g.nodes := dget_some_mem hest'
          have hnd := wf_nodup hwf
          have d := rcv + ew
          -- routes invariants after the write
          have hrk2 : RKeys g (dset routes t' (some (rcv + ew))) := by
            intro v
            by_cases hvt : v = t'
            · subst hvt
              rw [dget_dset_self]
              simp [ht'reg]
            · rw [dget_dset_ne _ _ hvt]
              exact hrk v
          have hunfin := unfinAux_dset g.nodes hnd routes hmemt' (rcv + ew)
          have hrpot := rpotAux_dset (wSum g) g.nodes hnd routes hmemt' (rcv + ew)
          have hrc_bound := hrb current rcv hrc
          have hew_nn : 0 ≤ ew := nn_edgeWeight hnn hew
          -- symmetric record gives ew ≤ outW est'
          have hsym : edgeWeight g t' current = some ew := wf_sym hwf hew
          have hsymmem : (current, ew) ∈ est' := by
            unfold edgeWeight at hsym
            rw [hest'] at hsym
            exact dget_some_mem hsym
          have hew_le : ew.toNat ≤ outW est' := outW_ge_mem hsymmem
          have hrb2 : RBound g (dset routes t' (some (rcv + ew))) := by
            intro v dv hdv
            rcases rtO with _ | rold
            · -- t' was infinite
              have hufeq : unfin g (dset routes t' (some (rcv + ew))) + outW est' =
                  unfin g routes := by
                have := hunfin
                rw [hrt] at this
                simpa [unfin] using this
              by_cases hvt : v = t'
              · subst hvt
                rw [dget_dset_self] at hdv
                injection hdv with hdv
                injection hdv with hdv
                subst hdv
                constructor
                · omega
                · omega
              · rw [dget_dset_ne _ _ hvt] at hdv
                have := hrb v dv hdv
                constructor
                · exact this.1
                · omega
            · -- t' was finite: unfin unchanged
              have hufeq : unfin g (dset routes t' (some (rcv + ew))) = unfin g routes := by
                have := hunfin
                rw [hrt] at this
                simpa [unfin] using this
              have hold := hrb t' rold hrt
              have hlt2 : rcv + ew < rold := by
                simpa [eadd, elt] using hrel
              by_cases hvt : v = t'
              · subst hvt
                rw [dget_dset_self] at hdv
                injection hdv with hdv
                injection hdv with hdv
                subst hdv
                constructor
                · omega
                · omega
              · rw [dget_dset_ne _ _ hvt] at hdv
                have := hrb v dv hdv
                constructor
                · exact this.1
                · omega
          -- potential strictly drops at the write
          have hpot2 : rpot g (dset routes t' (some (rcv + ew))) + 1 ≤ rpot g routes := by
            have hterm : rterm (wSum g) (dget routes t') ≥ (rcv + ew).toNat + 1 := by
              rcases rtO with _ | rold
              · -- infinite: term = wSum g + 1 and rcv + ew ≤ wSum g
                rw [hrt]
                show (rcv + ew).toNat + 1 ≤ wSum g + 1
                have hufeq : unfin g (dset routes t' (some (rcv + ew))) + outW est' =
                    unfin g routes := by
                  have := hunfin
                  rw [hrt] at this
                  simpa [unfin] using this
                have h1 := hrc_bound
                omega
              · rw [hrt]
                show (rcv + ew).toNat + 1 ≤ rold.toNat
                have hlt2 : rcv + ew < rold := by
                  simpa [eadd, elt] using hrel
                have h1 := hrc_bound
                omega
            have := hrpot
            unfold rpot
            omega
          have hpr2 : ∀ k, (dget (dset prev t' current) k).isSome = true → ReachP g s k := by
            intro k hk
            by_cases hkt : k = t'
            · subst hkt
              exact ht'r
            · rw [dget_dset_ne _ _ hkt] at hk
              exact hpr k hk
          obtain ⟨r', p', h', hrun, c1, c2, c3, c4, c5, c6⟩ :=
            ih current visited (dset routes t' (some (rcv + ew)))
              (dset prev t' current) h2 hcur hest hrk2 hrb2 hh2 hpr2
          refine ⟨r', p', h', ?_, c1, c2, c3, c4, ?_, ?_⟩
          · simp only [relaxEdges, hv, hrc, hrt, Bool.false_eq_true, if_false]
            rw [if_pos hrel]
            simp only [eadd, hpush]
            exact hrun
          · intro hsv hps
            have hts : ¬ s = t' := fun hc => hv (hc ▸ hsv)
            exact c5 hsv (by rw [dget_dset_ne _ _ hts]; exact hps)
          · have hlen2 : h2.length = heap.length + 1 := by
              simpa using hperm2.length_eq
            omega
      · obtain ⟨r', p', h', hrun, c1, c2, c3, c4, c5, c6⟩ :=
          ih current visited routes prev heap hcur hest hrk hrb hhr hpr
        refine ⟨r', p', h', ?_, c1, c2, c3, c4, c5, c6⟩
        simp only [relaxEdges, hv, hrc, hrt, hrel, Bool.false_eq_true, if_false]
        exact hrun

theorem dget_mapnone (ns : List (String × List (String × Int))) (v : String) :
    dget (ns.map (fun p => (p.1, (none : Option Int)))) v =
      (dget ns v).map (fun _ => (none : Option Int)) := by
  induction ns with
  | nil => rfl
  | cons p rest ih =>
    obtain ⟨k, es⟩ := p
    by_cases hk : k = v
    · subst hk
      show (if k = k then some none else _) = _
      rw [if_pos rfl]
      show _ = Option.map _ (if k = k then some es else dget rest k)
      rw [if_pos rfl]
      rfl
    · show (if k = v then some none else dget (rest.map _) v) = _
      rw [if_neg hk, ih]
      show _ = Option.map _ (if k = v then some es else dget rest v)
      rw [if_neg hk]

theorem dget_initRoutes (g : WGraph) (s v : String) :
    dget (initRoutes g s) v =
      if v = s then some (some 0)
      else (dget g.nodes v).map (fun _ => (none : Option Int)) := by
  unfold initRoutes
  by_cases hv : v = s
  · subst hv
    rw [if_pos rfl, dget_dset_self]
  · rw [if_neg hv, dget_dset_ne _ _ hv, dget_mapnone]

theorem unfinAux_le (ns : List (String × List (String × Int)))
    (routes : List (String × Option Int)) :
    unfinAux ns routes ≤ (ns.map (fun p => outW p.2)).sum := by
  induction ns with
  | nil => exact Nat.le_refl _
  | cons p rest ih =>
    obtain ⟨k, es⟩ := p
    show (if dget routes k = some none then outW es else 0) + unfinAux rest routes ≤
      outW es + (rest.map (fun p => outW p.2)).sum
    split <;> omega

theorem rpotAux_le (B : Nat) (ns : List (String × List (String × Int)))
    (routes : List (String × Option Int))
    (h : ∀ p ∈ ns, rterm B (dget routes p.1) ≤ B + 1) :
    rpotAux B ns routes ≤ ns.length * (B + 1) := by
  induction ns with
  | nil => exact Nat.zero_le _
  | cons p rest ih =>
    obtain ⟨k, es⟩ := p
    show rterm B (dget routes k) + rpotAux B rest routes ≤ (rest.length + 1) * (B + 1)
    have h1 : rterm B (dget routes k) ≤ B + 1 := h (k, es) (List.mem_cons_self _ _)
    have h2 := ih (fun q hq => h q (List.mem_cons_of_mem _ hq))
    have h3 : (rest.length + 1) * (B + 1) = rest.length * (B + 1) + (B + 1) := by ring
    omega

/-- Main specification of the `get_shortest_path` relaxation loop for
well-formed single-character graphs with non-negative weights: enough
fuel always completes the loop with a predecessor map whose keys are all
reachable from the source and which has no entry for the source. -/
theorem pathLoop_main {g : WGraph} {s : String}
    (hwf : wfB g = true) (hsc : scB g = true) (hnn : nnB g = true)
    (hs : isRegistered g s = true) :
    ∀ (fuel : Nat) (routes : List (String × Option Int))
      (prev : List (String × String)) (heap : List Entry) (visited : List String),
      heap.length + rpot g routes < fuel →
      RKeys g routes → RBound g routes →
      (∀ e ∈ heap, ReachP g s e.2) →
      (∀ k, (dget prev k).isSome = true → ReachP g s k) →
      dget prev s = none →
      (s ∈ visited ∨ ∃ d, heap = [(d, s)]) →
      ∃ pf, pathLoop g fuel routes prev heap visited = some (.ok pf) ∧
        (∀ k, (dget pf k).isSome = true → ReachP g s k) ∧
        dget pf s = none := by
  have hlt' : ∀ x y : Entry, ReachP g s x.2 → ReachP g s y.2 → ∃ b, entryLt x y = .ok b :=
    fun x y hx hy => entryLt_ok (sc_label hsc (hx.registered hwf hs))
      (sc_label hsc (hy.registered hwf hs))
  intro fuel
  induction fuel with
  | zero => intro routes prev heap visited hfuel _ _ _ _ _ _; omega
  | succ fuel ih =>
    intro routes prev heap visited hfuel hrk hrb hhr hpr hps hstart
    by_cases hemp : heap.isEmpty
    · refine ⟨prev, ?_, hpr, hps⟩
      simp only [pathLoop, hemp, if_true]
    · have hne : heap ≠ [] := by
        intro h
        rw [h] at hemp
        exact hemp rfl
      obtain ⟨x, rest, hpop, hperm⟩ := heappop_ok hlt' (0, "") hhr hne
      obtain ⟨w, current⟩ := x
      have hcur : ReachP g s current :=
        hhr _ (hperm.symm.subset (List.mem_cons_self _ _))
      have hrest : ∀ e ∈ rest, ReachP g s e.2 :=
        fun e he => hhr _ (hperm.symm.subset (List.mem_cons_of_mem _ he))
      have hlen : heap.length = rest.length + 1 := by
        simpa using hperm.length_eq
      have hcreg : isRegistered g current = true := hcur.registered hwf hs
      have hes : ∀ p ∈ edgesOf g current, edgeWeight g current p.1 = some p.2 :=
        fun p hp => edgesOf_edgeWeight hwf hcreg hp
      -- s is in the updated visited set
      have hsv' : s ∈ (if current ∈ visited then visited else current :: visited) := by
        rcases hstart with hsv | ⟨d, hheap⟩
        · split
          · exact hsv
          · exact List.mem_cons_of_mem _ hsv
        · have hxs : ((w, current) : Entry) = (d, s) := by
            have := hperm
            rw [hheap] at this
            have h1 := this.symm.subset (List.mem_cons_self _ _)
            simpa using h1
          have hcs : current = s := congrArg Prod.snd hxs
          subst hcs
          split
          · next hmem => exact hmem
          · exact List.mem_cons_self _ _
      obtain ⟨routes', prev', heap2, hrun, c1, c2, c3, c4, c5, c6⟩ :=
        relaxEdges_ok hwf hsc hnn hs (edgesOf g current) current
          (if current ∈ visited then visited else current :: visited)
          routes prev rest hcur hes hrk hrb hrest hpr
      have hps' : dget prev' s = none := c5 hsv' hps
      have hfuel' : heap2.length + rpot g routes' < fuel := by
        omega
      obtain ⟨pf, hrun2, d1, d2⟩ :=
        ih routes' prev' heap2 (if current ∈ visited then visited else current :: visited)
          hfuel' c1 c2 c3 c4 hps' (Or.inl hsv')
      refine ⟨pf, ?_, d1, d2⟩
      simp only [pathLoop, hemp, hpop, Bool.false_eq_true, if_false]
      rw [hrun]
      exact hrun2

/-- Safety-only version of `relaxEdges_ok`: without assuming
non-negative weights the body still never raises. -/
theorem relaxEdges_safe {g : WGraph} {s : String}
    (hwf : wfB g = true) (hsc : scB g = true) (hs : isRegistered g s = true) :
    ∀ (es : List (String × Int)) (current : String) (visited : List String)
      (routes : List (String × Option Int)) (prev : List (String × String))
      (heap : List Entry),
      ReachP g s current →
      (∀ p ∈ es, edgeWeight g current p.1 = some p.2) →
      RKeys g routes →
      (∀ e ∈ heap, ReachP g s e.2) →
      ∃ routes' prev' heap',
        relaxEdges es current visited routes prev heap = .ok (routes', prev', heap') ∧
        RKeys g routes' ∧ (∀ e ∈ heap', ReachP g s e.2) := by
  have hlt' : ∀ x y : Entry, ReachP g s x.2 → ReachP g s y.2 → ∃ b, entryLt x y = .ok b :=
    fun x y hx hy => entryLt_ok (sc_label hsc (hx.registered hwf hs))
      (sc_label hsc (hy.registered hwf hs))
  intro es
  induction es with
  | nil =>
    intro current visited routes prev heap _ _ hrk hhr
    exact ⟨routes, prev, heap, rfl, hrk, hhr⟩
  | cons p rest ih =>
    obtain ⟨t', ew⟩ := p
    intro current visited routes prev heap hcur hes hrk hhr
    have hew : edgeWeight g current t' = some ew := hes (t', ew) (List.mem_cons_self _ _)
    have hest : ∀ p ∈ rest, edgeWeight g current p.1 = some p.2 :=
      fun q hq => hes q (List.mem_cons_of_mem _ hq)
    by_cases hv : t' ∈ visited
    · obtain ⟨r', p', h', hrun, c1, c2⟩ :=
        ih current visited routes prev heap hcur hest hrk hhr
      refine ⟨r', p', h', ?_, c1, c2⟩
      simp only [relaxEdges, hv, if_true]
      exact hrun
    · have hcreg : isRegistered g current = true := hcur.registered hwf hs
      have ht'reg : isRegistered g t' = true := wf_closed hwf hew
      obtain ⟨rcO, hrc⟩ := Option.isSome_iff_exists.mp ((hrk current).trans hcreg)
      obtain ⟨rtO, hrt⟩ := Option.isSome_iff_exists.mp ((hrk t').trans ht'reg)
      by_cases hrel : elt (eadd rcO ew) rtO = true
      · rcases rcO with _ | rcv
        · exact absurd hrel (by simp [eadd, elt])
        · have ht'r : ReachP g s t' := ReachP.tail hcur hew
          obtain ⟨h2, hpush, hperm2⟩ :=
            heappush_ok hlt' hhr (show ReachP g s (rcv + ew, t').2 from ht'r)
          have hh2 : ∀ e ∈ h2, ReachP g s e.2 := by
            intro e he
            rcases List.mem_cons.mp (hperm2.subset he) with he | he
            · subst he
              exact ht'r
            · exact hhr _ he
          have hrk2 : RKeys g (dset routes t' (some (rcv + ew))) := by
            intro v
            by_cases hvt : v = t'
            · subst hvt
              rw [dget_dset_self]
              simp [ht'reg]
            · rw [dget_dset_ne _ _ hvt]
              exact hrk v
          obtain ⟨r', p', h', hrun, c1, c2⟩ :=
            ih current visited (dset routes t' (some (rcv + ew)))
              (dset prev t' current) h2 hcur hest hrk2 hh2
          refine ⟨r', p', h', ?_, c1, c2⟩
          simp only [relaxEdges, hv, hrc, hrt, Bool.false_eq_true, if_false]
          rw [if_pos hrel]
          simp only [eadd, hpush]
          exact hrun
      · obtain ⟨r', p', h', hrun, c1, c2⟩ :=
          ih current visited routes prev heap hcur hest hrk hhr
        refine ⟨r', p', h', ?_, c1, c2⟩
        simp only [relaxEdges, hv, hrc, hrt, hrel, Bool.false_eq_true, if_false]
        exact hrun

/-- The path loop either runs out of fuel or completes normally — in a
well-formed single-character graph it never surfaces an exception, with
no assumption on weight signs. -/
theorem pathLoop_safe {g : WGraph} {s : String}
    (hwf : wfB g = true) (hsc : scB g = true) (hs : isRegistered g s = true) :
    ∀ (fuel : Nat) (routes : List (String × Option Int))
      (prev : List (String × String)) (heap : List Entry) (visited : List String),
      RKeys g routes →
      (∀ e ∈ heap, ReachP g s e.2) →
      pathLoop g fuel routes prev heap visited = none ∨
        ∃ pf, pathLoop g fuel routes prev heap visited = some (.ok pf) := by
  have hlt' : ∀ x y : Entry, ReachP g s x.2 → ReachP g s y.2 → ∃ b, entryLt x y = .ok b :=
    fun x y hx hy => entryLt_ok (sc_label hsc (hx.registered hwf hs))
      (sc_label hsc (hy.registered hwf hs))
  intro fuel
  induction fuel with
  | zero => intro routes prev heap visited _ _; exact Or.inl rfl
  | succ fuel ih =>
    intro routes prev heap visited hrk hhr
    by_cases hemp : heap.isEmpty
    · refine Or.inr ⟨prev, ?_⟩
      simp only [pathLoop, hemp, if_true]
    · have hne : heap ≠ [] := by
        intro h
        rw [h] at hemp
        exact hemp rfl
      obtain ⟨x, rest, hpop, hperm⟩ := heappop_ok hlt' (0, "") hhr hne
      obtain ⟨w, current⟩ := x
      have hcur : ReachP g s current :=
        hhr _ (hperm.symm.subset (List.mem_cons_self _ _))
      have hrest : ∀ e ∈ rest, ReachP g s e.2 :=
        fun e he => hhr _ (hperm.symm.subset (List.mem_cons_of_mem _ he))
      have hcreg : isRegistered g current = true := hcur.registered hwf hs
      have hes : ∀ p ∈ edgesOf g current, edgeWeight g current p.1 = some p.2 :=
        fun p hp => edgesOf_edgeWeight hwf hcreg hp
      obtain ⟨routes', prev', heap2, hrun, c1, c2⟩ :=
        relaxEdges_safe hwf hsc hs (edgesOf g current) current
          (if current ∈ visited then visited else current :: visited)
          routes prev rest hcur hes hrk hrest
      rcases ih routes' prev' heap2
        (if current ∈ visited then visited else current :: visited) c1 c2 with hnone | ⟨pf, hok⟩
      · refine Or.inl ?_
        simp only [pathLoop, hemp, hpop, Bool.false_eq_true, if_false]
        rw [hrun]
        exact hnone
      · refine Or.inr ⟨pf, ?_⟩
        simp only [pathLoop, hemp, hpop, Bool.false_eq_true, if_false]
        rw [hrun]
        exact hok

/-! ### Initial state of the path loop, and path reconstruction -/

theorem initRoutes_keys {g : WGraph} {s : String} (hs : isRegistered g s = true) :
    RKeys g (initRoutes g s) := by
  intro v
  rw [dget_initRoutes]
  by_cases hv : v = s
  · subst hv
    rw [if_pos rfl]
    simp [hs]
  · rw [if_neg hv]
    rcases h : dget g.nodes v with _ | es <;> simp [isRegistered, h]

theorem initRoutes_bound (g : WGraph) (s : String) : RBound g (initRoutes g s) := by
  intro v d hdv
  rw [dget_initRoutes] at hdv
  by_cases hv : v = s
  · rw [if_pos hv] at hdv
    injection hdv with hdv
    injection hdv with hdv
    subst hdv
    refine ⟨le_refl 0, ?_⟩
    have h1 : unfin g (initRoutes g s) ≤ wSum g := unfinAux_le g.nodes _
    omega
  · rw [if_neg hv] at hdv
    rcases h : dget g.nodes v with _ | es <;> rw [h] at hdv
    · cases hdv
    · injection hdv with hdv
      cases hdv

theorem rpot_init_le (g : WGraph) (s : String) :
    rpot g (initRoutes g s) ≤ g.nodes.length * (wSum g + 1) := by
  apply rpotAux_le
  intro p _
  rw [dget_initRoutes]
  by_cases hv : p.1 = s
  · rw [if_pos hv]
    show (0 : Int).toNat ≤ wSum g + 1
    simp
  · rw [if_neg hv]
    rcases h : dget g.nodes p.1 with _ | es
    · exact Nat.zero_le _
    · exact Nat.le_refl _

theorem generate_none {prev : List (String × String)} {t : String}
    (h : dget prev t = none) : generate_shortest_path prev t = some [t] := by
  unfold generate_shortest_path
  rw [h]
  rfl

/-- For registered endpoints of a nice graph, an unreachable target
makes `get_shortest_path` return the one-element list `[target]`. -/
theorem path_unreachable {g : WGraph} {s t : String}
    (hwf : wfB g = true) (hsc : scB g = true) (hnn : nnB g = true)
    (hs : isRegistered g s = true) (ht : isRegistered g t = true)
    (hnr : ¬ ReachP g s t) :
    get_shortest_path g s t = some (.ok [t]) := by
  obtain ⟨es, hes⟩ := Option.isSome_iff_exists.mp (show (dget g.nodes s).isSome = true from hs)
  obtain ⟨et, het⟩ := Option.isSome_iff_exists.mp (show (dget g.nodes t).isSome = true from ht)
  have hfuel : 1 + rpot g (initRoutes g s) < pathFuel g := by
    have := rpot_init_le g s
    unfold pathFuel
    omega
  obtain ⟨pf, hrun, hkeys, hsnone⟩ :=
    pathLoop_main hwf hsc hnn hs (pathFuel g) (initRoutes g s) [] [(0, s)] []
      (by simpa using hfuel) (initRoutes_keys hs) (initRoutes_bound g s)
      (by
        intro e he
        simp only [List.mem_singleton] at he
        subst he
        exact ReachP.refl)
      (by intro k hk; simp [dget] at hk)
      rfl
      (Or.inr ⟨0, rfl⟩)
  have hpft : dget pf t = none := by
    rcases hd : dget pf t with _ | v
    · rfl
    · exact absurd (hkeys t (by simp [hd])) hnr
  simp only [get_shortest_path, hes, het, heappush_nil, hrun, generate_none hpft]

/-- Self-query of `get_shortest_path` returns the singleton path. -/
theorem path_self {g : WGraph} {s : String}
    (hwf : wfB g = true) (hsc : scB g = true) (hnn : nnB g = true)
    (hs : isRegistered g s = true) :
    get_shortest_path g s s = some (.ok [s]) := by
  obtain ⟨es, hes⟩ := Option.isSome_iff_exists.mp (show (dget g.nodes s).isSome = true from hs)
  have hfuel : 1 + rpot g (initRoutes g s) < pathFuel g := by
    have := rpot_init_le g s
    unfold pathFuel
    omega
  obtain ⟨pf, hrun, hkeys, hsnone⟩ :=
    pathLoop_main hwf hsc hnn hs (pathFuel g) (initRoutes g s) [] [(0, s)] []
      (by simpa using hfuel) (initRoutes_keys hs) (initRoutes_bound g s)
      (by
        intro e he
        simp only [List.mem_singleton] at he
        subst he
        exact ReachP.refl)
      (by intro k hk; simp [dget] at hk)
      rfl
      (Or.inr ⟨0, rfl⟩)
  simp only [get_shortest_path, hes, heappush_nil, hrun, generate_none hsnone]

/-! ### Claims C2, C6 and C10 -/

theorem reach_cex2_closed : ∀ v, ReachP cexGraph2 "A" v → v = "A" ∨ v = "B" := by
  intro v h
  induction h with
  | refl => exact Or.inl rfl
  | tail hu hw ih =>
    rcases ih with h | h
    · rw [h] at hw
      rw [show ∀ x, edgeWeight cexGraph2 "A" x = dget [("B", (1 : Int))] x from
        fun x => rfl] at hw
      have hmem := dget_some_mem hw
      simp only [List.mem_singleton, Prod.mk.injEq] at hmem
      exact Or.inr hmem.1
    · rw [h] at hw
      rw [show ∀ x, edgeWeight cexGraph2 "B" x = dget [("A", (1 : Int))] x from
        fun x => rfl] at hw
      have hmem := dget_some_mem hw
      simp only [List.mem_singleton, Prod.mk.injEq] at hmem
      exact Or.inl hmem.1

theorem not_reach_cex2 : ¬ ReachP cexGraph2 "A" "C" := by
  intro h
  rcases reach_cex2_closed "C" h with h | h <;> exact absurd h (by decide)

/-- C2 (amended): when both labels are registered and the target is
unreachable from the source, `get_shortest_distance` does raise
`PathNotFoundError`, but `get_shortest_path` raises nothing: it returns
the one-element list `[target]` (the predecessor walk stops at once). -/
theorem C2_amended (g : WGraph) (s t : String)
    (hwf : wfB g = true) (hsc : scB g = true) (hnn : nnB g = true)
    (hs : isRegistered g s = true) (ht : isRegistered g t = true)
    (hnr : ¬ ReachP g s t) :
    get_shortest_distance g s t = some (.error .pathNotFound) ∧
    get_shortest_path g s t = some (.ok [t]) := by
  constructor
  · obtain ⟨r, hr, hcase⟩ := get_shortest_distance_spec hwf hsc hs ht
    rcases hcase with ⟨w, hrw, hreach⟩ | hrpnf
    · exact absurd hreach hnr
    · rw [hrpnf] at hr
      exact hr
  · exact path_unreachable hwf hsc hnn hs ht hnr

theorem C2_amended_witness :
    get_shortest_distance cexGraph2 "A" "C" = some (.error .pathNotFound) ∧
    get_shortest_path cexGraph2 "A" "C" = some (.ok ["C"]) :=
  C2_amended cexGraph2 "A" "C" rfl rfl rfl rfl rfl not_reach_cex2

/-- C6 (amended): for a registered node `n`, the self-query
`get_shortest_path(n, n)` returns `[n]`, and `get_shortest_distance(n, n)`
returns `0` provided `n` has at least one edge — an isolated node is
rejected by the target-edges precheck before the self short-circuit. -/
theorem C6_amended (g : WGraph) (n : String) (es : List (String × Int))
    (hwf : wfB g = true) (hsc : scB g = true) (hnn : nnB g = true)
    (hn : dget g.nodes n = some es) :
    (es ≠ [] → get_shortest_distance g n n = some (.ok 0)) ∧
    get_shortest_path g n n = some (.ok [n]) := by
  have hreg : isRegistered g n = true := by
    unfold isRegistered
    rw [hn]
    rfl
  constructor
  · intro hne
    have hnemp : es.isEmpty = false := by
      cases es
      · exact absurd rfl hne
      · rfl
    have hfeq : distFuel g = (filterSum g.nodes [] + 1) + 1 := rfl
    have hpop : heappop entryLt ((0 : Int), "") [((0 : Int), n)] =
        .ok (((0 : Int), n), []) := rfl
    simp only [get_shortest_distance, hn, hnemp, Bool.false_eq_true, if_false,
      heappush_nil]
    rw [hfeq]
    simp only [distLoop, List.isEmpty_cons, Bool.false_eq_true, if_false, hpop]
    simp
  · exact path_self hwf hsc hnn hreg

theorem C6_amended_witness :
    get_shortest_distance demoGraph "A" "A" = some (.ok 0) ∧
    get_shortest_path demoGraph "A" "A" = some (.ok ["A"]) :=
  ⟨(C6_amended demoGraph "A" [("B", 1), ("C", 2), ("D", 5)] rfl rfl rfl rfl).1
      (by decide),
   (C6_amended demoGraph "A" [("B", 1), ("C", 2), ("D", 5)] rfl rfl rfl rfl).2⟩

/-- C10: in any API-reachable graph whose labels are all single
characters, neither `get_shortest_distance` nor `get_shortest_path`
ever surfaces a `TypeError`; and on a concrete graph with
two-character labels a query does reach the undefined `ord`-based node
comparison and raises `TypeError`. -/
theorem C10_claim :
    (∀ g s t, Reachable g → scB g = true →
      get_shortest_distance g s t ≠ some (.error .typeError) ∧
      get_shortest_path g s t ≠ some (.error .typeError)) ∧
    scB cexGraphMulti = false ∧
    get_shortest_distance cexGraphMulti "AA" "BB" = some (.error .typeError) := by
  refine ⟨?_, rfl, rfl⟩
  intro g s t hre hsc
  have hwf := hre.wf
  constructor
  · rcases hreg : dget g.nodes t with _ | et
    · simp [get_shortest_distance, hreg]
    · by_cases he : et.isEmpty = true
      · simp [get_shortest_distance, hreg, he]
      · have heF : et.isEmpty = false := by
          revert he
          cases et.isEmpty <;> simp
        rcases hsrc : dget g.nodes s with _ | es
        · simp [get_shortest_distance, hreg, heF, hsrc]
        · have ht' : isRegistered g t = true := by
            unfold isRegistered
            rw [hreg]
            rfl
          have hs' : isRegistered g s = true := by
            unfold isRegistered
            rw [hsrc]
            rfl
          obtain ⟨r, hr, hcase⟩ := get_shortest_distance_spec hwf hsc hs' ht'
          rw [hr]
          rcases hcase with ⟨w, rfl, _⟩ | rfl <;> simp
  · rcases hsrc : dget g.nodes s with _ | es
    · simp [get_shortest_path, hsrc]
    · rcases hreg : dget g.nodes t with _ | et
      · simp [get_shortest_path, hsrc, hreg]
      · have hs' : isRegistered g s = true := by
          unfold isRegistered
          rw [hsrc]
          rfl
        rcases pathLoop_safe hwf hsc hs' (pathFuel g) (initRoutes g s) [] [(0, s)] []
            (initRoutes_keys hs')
            (by
              intro e he'
              simp only [List.mem_singleton] at he'
              subst he'
              exact ReachP.refl)
          with hnone | ⟨pf, hok⟩
        · simp [get_shortest_path, hsrc, hreg, heappush_nil, hnone]
        · rcases hgen : generate_shortest_path pf t with _ | path <;>
            simp [get_shortest_path, hsrc, hreg, heappush_nil, hok, hgen]

theorem C10_claim_witness :
    get_shortest_distance demoGraph "A" "E" ≠ some (.error .typeError) ∧
    get_shortest_path demoGraph "A" "E" ≠ some (.error .typeError) :=
  C10_claim.1 demoGraph "A" "E" demoGraph_reachable rfl

/-! ### The heap order on entries and the binary-heap invariant

Under the single-character precondition every `entryLt` comparison
succeeds and computes the pure strict order `keL` below; CPython's
`heapq` then maintains the standard binary-heap shape, so `heappop`
returns a minimum.  This is the machinery behind the Dijkstra
correctness argument for claim C7. -/

/-- The code point `Node.__lt__` compares for a single-character label
(`0` is an irrelevant default for other strings). -/
def keyOrd (s : String) : Nat :=
  match s.toList with
  | [c] => c.toNat
  | _ => 0

/-- The pure strict order computed by a successful `entryLt`: weight
first, then the label code point. -/
def keL (x y : Entry) : Bool :=
  decide (x.1 < y.1) || (decide (x.1 = y.1) && decide (keyOrd x.2 < keyOrd y.2))

/-- Single-character label predicate for heap entries. -/
def SCe (e : Entry) : Prop := e.2.length = 1

theorem keL_iff {x y : Entry} :
    keL x y = true ↔ (x.1 < y.1 ∨ (x.1 = y.1 ∧ keyOrd x.2 < keyOrd y.2)) := by
  simp [keL]

theorem keL_irrefl (x : Entry) : keL x x = false := by
  rw [← Bool.not_eq_true, keL_iff]
  omega

theorem keL_asymm {x y : Entry} (h : keL x y = true) : keL y x = false := by
  rw [keL_iff] at h
  rw [← Bool.not_eq_true, keL_iff]
  omega

theorem keL_trans {x y z : Entry} (h1 : keL x y = true) (h2 : keL y z = true) :
    keL x z = true := by
  rw [keL_iff] at h1 h2 ⊢
  omega

theorem keL_neg_trans {x y z : Entry} (h1 : keL x y = false) (h2 : keL y z = false) :
    keL x z = false := by
  rw [← Bool.not_eq_true, keL_iff] at h1 h2 ⊢
  omega

theorem keL_shift {a b c : Entry} (h1 : keL a c = false) (h2 : keL b c = true) :
    keL a b = false := by
  rcases hab : keL a b with _ | _
  · rfl
  · rw [keL_trans hab h2] at h1
    cases h1

theorem keL_false_weight {x y : Entry} (h : keL x y = false) : y.1 ≤ x.1 := by
  rw [← Bool.not_eq_true, keL_iff] at h
  omega

/-- On single-character labels, `entryLt` succeeds and computes `keL`. -/
theorem entryLt_eval {x y : Entry} (hx : SCe x) (hy : SCe y) :
    entryLt x y = .ok (keL x y) := by
  obtain ⟨cx, hcx⟩ := List.length_eq_one.mp (show x.2.toList.length = 1 from hx)
  obtain ⟨cy, hcy⟩ := List.length_eq_one.mp (show y.2.toList.length = 1 from hy)
  have hkx : keyOrd x.2 = cx.toNat := by
    unfold keyOrd
    rw [hcx]
  have hky : keyOrd y.2 = cy.toNat := by
    unfold keyOrd
    rw [hcy]
  unfold entryLt
  by_cases h1 : x.1 = y.1
  · by_cases h2 : x.2 = y.2
    · rw [if_pos h1, if_pos h2]
      have hfalse : keL x y = false := by
        rw [← Bool.not_eq_true, keL_iff, h2]
        omega
      rw [hfalse]
    · have hval : keL x y = decide (cx.toNat < cy.toNat) := by
        rw [← hkx, ← hky]
        simp [keL, h1]
      rw [hval, if_pos h1, if_neg h2]
      show (do
        let a ← pyOrd x.2
        let b ← pyOrd y.2
        Except.ok (decide (a < b))) = _
      unfold pyOrd
      rw [hcx, hcy]
      rfl
  · have hval : keL x y = decide (x.1 < y.1) := by
      simp [keL, h1]
    rw [hval, if_neg h1]

/-- The binary-heap shape: every non-root entry is not below its
parent. -/
def HeapP (l : List Entry) : Prop :=
  ∀ j x y, 0 < j → l[j]? = some x → l[(j - 1) / 2]? = some y → keL x y = false

theorem heapP_nil : HeapP [] := by
  intro j x y _ hx _
  simp at hx

theorem lt_of_getElem?_some {α : Type} {l : List α} {i : Nat} {a : α}
    (h : l[i]? = some a) : i < l.length := by
  by_contra hc
  rw [List.getElem?_eq_none (by omega)] at h
  cases h

theorem heapP_le_root {l : List Entry} (hH : HeapP l) {r : Entry} (hr : l[0]? = some r) :
    ∀ (i : Nat) (x : Entry), l[i]? = some x → keL x r = false := by
  intro i
  induction i using Nat.strong_induction_on with
  | _ i ih =>
    intro x hx
    rcases Nat.eq_zero_or_pos i with rfl | hi
    · rw [hr] at hx
      injection hx with hx
      subst hx
      exact keL_irrefl _
    · have hlen : i < l.length := lt_of_getElem?_some hx
      obtain ⟨y, hy⟩ : ∃ y, l[(i - 1) / 2]? = some y :=
        ⟨_, List.getElem?_eq_getElem (by omega)⟩
      exact keL_neg_trans (hH i x y hi hx hy) (ih _ (by omega) y hy)

theorem heapP_min {l : List Entry} (hH : HeapP l) {r : Entry} (hr : l[0]? = some r)
    {e : Entry} (he : e ∈ l) : keL e r = false := by
  obtain ⟨i, hi, hei⟩ := List.mem_iff_getElem.mp he
  refine heapP_le_root hH hr i e ?_
  rw [List.getElem?_eq_getElem hi]
  exact congrArg some hei

/-- Writing `newitem` into the hole keeps the heap shape, given the
shape away from the hole (`h1`), dominance of the hole
children (`h2`), and dominance of `newitem` over the hole parent. -/
theorem heapP_place {heap : List Entry} {pos : Nat} {newitem : Entry}
    (h1 : ∀ j x y, 0 < j → j ≠ pos → heap[j]? = some x →
      heap[(j - 1) / 2]? = some y → keL x y = false)
    (h2 : ∀ j x, 0 < j → (j - 1) / 2 = pos → heap[j]? = some x → keL x newitem = false)
    (hroot : ∀ y, 0 < pos → heap[(pos - 1) / 2]? = some y → keL newitem y = false) :
    HeapP (heap.set pos newitem) := by
  intro j x y hj hx hy
  by_cases hjp : j = pos
  · subst hjp
    have hlen : j < heap.length := by
      have := lt_of_getElem?_some hx
      simpa using this
    rw [List.getElem?_set_self hlen] at hx
    injection hx with hx
    subst hx
    rw [List.getElem?_set_ne (by omega)] at hy
    exact hroot y hj hy
  · rw [List.getElem?_set_ne (fun h => hjp h.symm)] at hx
    by_cases hpj : (j - 1) / 2 = pos
    · have hlen : pos < heap.length := by
        rw [hpj] at hy
        have := lt_of_getElem?_some hy
        simpa using this
      rw [hpj, List.getElem?_set_self hlen] at hy
      injection hy with hy
      subst hy
      exact h2 j x hj hpj hx
    · rw [List.getElem?_set_ne (fun h => hpj h.symm)] at hy
      exact h1 j x y hj hjp hx hy

/-- `_siftdown` (as called with `startpos = 0`) restores the heap shape:
hypotheses are the shape away from the hole, dominance of the hole
children over `newitem`, and dominance of the hole children over the
hole parent. -/
theorem siftdown_heapP {newitem : Entry} (hSCn : SCe newitem) :
    ∀ (fuel : Nat) (heap : List Entry) (pos : Nat), pos < heap.length → pos ≤ fuel →
      (∀ e ∈ heap, SCe e) →
      (∀ j x y, 0 < j → j ≠ pos → heap[j]? = some x →
        heap[(j - 1) / 2]? = some y → keL x y = false) →
      (∀ j x, 0 < j → (j - 1) / 2 = pos → heap[j]? = some x → keL x newitem = false) →
      (∀ j x y, 0 < j → (j - 1) / 2 = pos → 0 < pos → heap[j]? = some x →
        heap[(pos - 1) / 2]? = some y → keL x y = false) →
      ∃ l', siftdown entryLt 0 newitem fuel heap pos = .ok l' ∧ HeapP l' := by
  intro fuel
  induction fuel with
  | zero =>
    intro heap pos hpos hf hSC h1 h2 h3
    have hp0 : pos = 0 := by omega
    subst hp0
    exact ⟨heap.set 0 newitem, rfl, heapP_place h1 h2 (fun y hy => by omega)⟩
  | succ fuel ih =>
    intro heap pos hpos hf hSC h1 h2 h3
    by_cases hsp : 0 < pos
    · have hpplt : (pos - 1) / 2 < pos := by omega
      have hpplen : (pos - 1) / 2 < heap.length := by omega
      have hparent : heap[(pos - 1) / 2]? = some (heap.getD ((pos - 1) / 2) newitem) := by
        rw [List.getElem?_eq_getElem hpplen, List.getD_eq_getElem heap newitem hpplen]
      have hSCp : SCe (heap.getD ((pos - 1) / 2) newitem) :=
        hSC _ (list_getD_mem hpplen newitem)
      have hcmp := entryLt_eval hSCn hSCp
      rcases hkb : keL newitem (heap.getD ((pos - 1) / 2) newitem) with _ | _
      · rw [hkb] at hcmp
        refine ⟨heap.set pos newitem, ?_, ?_⟩
        · simp only [siftdown]
          rw [if_pos hsp, hcmp]
        · refine heapP_place h1 h2 (fun y _ hy => ?_)
          rw [hparent] at hy
          injection hy with hy
          subst hy
          exact hkb
      · rw [hkb] at hcmp
        have hlen' : (pos - 1) / 2 <
            (heap.set pos (heap.getD ((pos - 1) / 2) newitem)).length := by
          simpa using hpplen
        have hSC' : ∀ e ∈ heap.set pos (heap.getD ((pos - 1) / 2) newitem), SCe e := by
          intro e he
          rcases List.mem_or_eq_of_mem_set he with he | he
          · exact hSC _ he
          · exact he ▸ hSCp
        have h1' : ∀ j x y, 0 < j → j ≠ (pos - 1) / 2 →
            (heap.set pos (heap.getD ((pos - 1) / 2) newitem))[j]? = some x →
            (heap.set pos (heap.getD ((pos - 1) / 2) newitem))[(j - 1) / 2]? = some y →
            keL x y = false := by
          intro j x y hj hjpp hx hy
          by_cases hjpos : j = pos
          · subst hjpos
            rw [List.getElem?_set_self hpos] at hx
            injection hx with hx
            subst hx
            rw [List.getElem?_set_ne (by omega)] at hy
            rw [hparent] at hy
            injection hy with hy
            subst hy
            exact keL_irrefl _
          · rw [List.getElem?_set_ne (fun h => hjpos h.symm)] at hx
            by_cases hpj : (j - 1) / 2 = pos
            · rw [hpj, List.getElem?_set_self hpos] at hy
              injection hy with hy
              subst hy
              exact h3 j x _ hj hpj hsp hx hparent
            · rw [List.getElem?_set_ne (fun h => hpj h.symm)] at hy
              exact h1 j x y hj hjpos hx hy
        have h2' : ∀ j x, 0 < j → (j - 1) / 2 = (pos - 1) / 2 →
            (heap.set pos (heap.getD ((pos - 1) / 2) newitem))[j]? = some x →
            keL x newitem = false := by
          intro j x hj hpj hx
          by_cases hjpos : j = pos
          · subst hjpos
            rw [List.getElem?_set_self hpos] at hx
            injection hx with hx
            subst hx
            exact keL_asymm hkb
          · rw [List.getElem?_set_ne (fun h => hjpos h.symm)] at hx
            have hx_pv : keL x (heap.getD ((pos - 1) / 2) newitem) = false := by
              refine h1 j x _ hj hjpos hx ?_
              rw [hpj]
              exact hparent
            exact keL_shift hx_pv hkb
        have h3' : ∀ j x y, 0 < j → (j - 1) / 2 = (pos - 1) / 2 → 0 < (pos - 1) / 2 →
            (heap.set pos (heap.getD ((pos - 1) / 2) newitem))[j]? = some x →
            (heap.set pos (heap.getD ((pos - 1) / 2) newitem))[((pos - 1) / 2 - 1) / 2]? =
              some y →
            keL x y = false := by
          intro j x y hj hpj hpp hx hy
          rw [List.getElem?_set_ne (by omega)] at hy
          have hppA : keL (heap.getD ((pos - 1) / 2) newitem) y = false :=
            h1 ((pos - 1) / 2) _ y hpp (by omega) hparent hy
          by_cases hjpos : j = pos
          · subst hjpos
            rw [List.getElem?_set_self hpos] at hx
            injection hx with hx
            subst hx
            exact hppA
          · rw [List.getElem?_set_ne (fun h => hjpos h.symm)] at hx
            have hx_pv : keL x (heap.getD ((pos - 1) / 2) newitem) = false := by
              refine h1 j x _ hj hjpos hx ?_
              rw [hpj]
              exact hparent
            exact keL_neg_trans hx_pv hppA
        obtain ⟨l', hrun, hH⟩ := ih _ _ hlen' (by omega) hSC' h1' h2' h3'
        refine ⟨l', ?_, hH⟩
        simp only [siftdown]
        rw [if_pos hsp, hcmp]
        exact hrun
    · have hp0 : pos = 0 := by omega
      subst hp0
      refine ⟨heap.set 0 newitem, ?_, heapP_place h1 h2 (fun y hy => by omega)⟩
      simp only [siftdown]
      rw [if_neg hsp]

theorem getD_getElem? {α : Type} (l : List α) (c : Nat) (d : α) (h : c < l.length) :
    l[c]? = some (l.getD c d) := by
  rw [List.getElem?_eq_getElem h, List.getD_eq_getElem l d h]

/-- The walk-down phase of `_siftup` keeps the heap shape away from the
hole (`W1`) and the hole children dominated by the hole parent
(`W3`); the hole ends at a leaf. -/
theorem siftupLoop_heapP (d : Entry) :
    ∀ (fuel : Nat) (heap : List Entry) (pos : Nat),
      pos < heap.length → heap.length ≤ fuel + pos →
      (∀ e ∈ heap, SCe e) →
      (∀ j x y, 0 < j → j ≠ pos → (j - 1) / 2 ≠ pos → heap[j]? = some x →
        heap[(j - 1) / 2]? = some y → keL x y = false) →
      (∀ j x y, 0 < j → (j - 1) / 2 = pos → 0 < pos → heap[j]? = some x →
        heap[(pos - 1) / 2]? = some y → keL x y = false) →
      ∃ l' fp, siftupLoop entryLt d fuel heap pos = .ok (l', fp) ∧
        l'.length = heap.length ∧ fp < l'.length ∧ l'.length ≤ 2 * fp + 1 ∧
        (∀ e ∈ l', SCe e) ∧
        (∀ j x y, 0 < j → j ≠ fp → (j - 1) / 2 ≠ fp → l'[j]? = some x →
          l'[(j - 1) / 2]? = some y → keL x y = false) := by
  intro fuel
  induction fuel with
  | zero =>
    intro heap pos hpos hfuel _ _ _
    omega
  | succ fuel ih =>
    intro heap pos hpos hfuel hSC W1 W3
    by_cases hc1 : 2 * pos + 1 < heap.length
    · have step : ∀ cstar : Nat, 0 < cstar → (cstar - 1) / 2 = pos →
          cstar < heap.length →
          (∀ sib xs, 0 < sib → (sib - 1) / 2 = pos → sib ≠ cstar →
            heap[sib]? = some xs → keL xs (heap.getD cstar d) = false) →
          ∃ l' fp,
            siftupLoop entryLt d fuel (heap.set pos (heap.getD cstar d)) cstar =
              .ok (l', fp) ∧
            l'.length = heap.length ∧ fp < l'.length ∧ l'.length ≤ 2 * fp + 1 ∧
            (∀ e ∈ l', SCe e) ∧
            (∀ j x y, 0 < j → j ≠ fp → (j - 1) / 2 ≠ fp → l'[j]? = some x →
              l'[(j - 1) / 2]? = some y → keL x y = false) := by
        intro cstar hc0 hcp hclen hsib
        have hgetc : heap[cstar]? = some (heap.getD cstar d) := getD_getElem? _ _ _ hclen
        have hW1' : ∀ j x y, 0 < j → j ≠ cstar → (j - 1) / 2 ≠ cstar →
            (heap.set pos (heap.getD cstar d))[j]? = some x →
            (heap.set pos (heap.getD cstar d))[(j - 1) / 2]? = some y →
            keL x y = false := by
          intro j x y hj hjc hpc hx hy
          by_cases hjpos : j = pos
          · subst hjpos
            rw [List.getElem?_set_self hpos] at hx
            injection hx with hx
            subst hx
            rw [List.getElem?_set_ne (by omega)] at hy
            exact W3 cstar _ y hc0 hcp hj hgetc hy
          · rw [List.getElem?_set_ne (fun h => hjpos h.symm)] at hx
            by_cases hpj : (j - 1) / 2 = pos
            · rw [hpj, List.getElem?_set_self hpos] at hy
              injection hy with hy
              subst hy
              exact hsib j x hj hpj hjc hx
            · rw [List.getElem?_set_ne (fun h => hpj h.symm)] at hy
              exact W1 j x y hj hjpos hpj hx hy
        have hW3' : ∀ j x y, 0 < j → (j - 1) / 2 = cstar → 0 < cstar →
            (heap.set pos (heap.getD cstar d))[j]? = some x →
            (heap.set pos (heap.getD cstar d))[(cstar - 1) / 2]? = some y →
            keL x y = false := by
          intro j x y hj hpj _ hx hy
          rw [hcp, List.getElem?_set_self hpos] at hy
          injection hy with hy
          subst hy
          rw [List.getElem?_set_ne (by omega)] at hx
          exact W1 j x _ hj (by omega) (by omega) hx (by rw [hpj]; exact hgetc)
        have hSC' : ∀ e ∈ heap.set pos (heap.getD cstar d), SCe e := by
          intro e he
          rcases List.mem_or_eq_of_mem_set he with he | he
          · exact hSC _ he
          · exact he ▸ hSC _ (list_getD_mem hclen d)
        obtain ⟨l', fp, hrun, hlen, hfp, hsmall, hSCl, hW1f⟩ :=
          ih (heap.set pos (heap.getD cstar d)) cstar (by simpa using hclen)
            (by simp only [List.length_set]; omega) hSC' hW1' hW3'
        refine ⟨l', fp, hrun, ?_, hfp, ?_, hSCl, hW1f⟩
        · rw [hlen]
          simp
        · exact hsmall
      by_cases hc2 : 2 * pos + 2 < heap.length
      · have hSCl : SCe (heap.getD (2 * pos + 1) d) := hSC _ (list_getD_mem (by omega) d)
        have hSCr : SCe (heap.getD (2 * pos + 2) d) := hSC _ (list_getD_mem hc2 d)
        have hcmp := entryLt_eval hSCl hSCr
        rcases hkb : keL (heap.getD (2 * pos + 1) d) (heap.getD (2 * pos + 2) d)
          with _ | _
        · rw [hkb] at hcmp
          obtain ⟨l', fp, hrun, hres⟩ := step (2 * pos + 2) (by omega) (by omega) hc2
            (by
              intro sib xs hs hsp hsne hxs
              have hsibv : sib = 2 * pos + 1 := by omega
              subst hsibv
              rw [getD_getElem? heap (2 * pos + 1) d (by omega)] at hxs
              injection hxs with hxs
              subst hxs
              exact hkb)
          refine ⟨l', fp, ?_, hres⟩
          simp only [siftupLoop]
          rw [if_pos hc1, if_pos hc2, hcmp]
          exact hrun
        · rw [hkb] at hcmp
          obtain ⟨l', fp, hrun, hres⟩ := step (2 * pos + 1) (by omega) (by omega) (by omega)
            (by
              intro sib xs hs hsp hsne hxs
              have hsibv : sib = 2 * pos + 2 := by omega
              subst hsibv
              rw [getD_getElem? heap (2 * pos + 2) d hc2] at hxs
              injection hxs with hxs
              subst hxs
              exact keL_asymm hkb)
          refine ⟨l', fp, ?_, hres⟩
          simp only [siftupLoop]
          rw [if_pos hc1, if_pos hc2, hcmp]
          exact hrun
      · obtain ⟨l', fp, hrun, hres⟩ := step (2 * pos + 1) (by omega) (by omega) (by omega)
          (by
            intro sib xs hs hsp hsne hxs
            have hsibv : sib = 2 * pos + 2 := by omega
            subst hsibv
            have := lt_of_getElem?_some hxs
            omega)
        refine ⟨l', fp, ?_, hres⟩
        simp only [siftupLoop]
        rw [if_pos hc1, if_neg hc2]
        exact hrun
    · refine ⟨heap, pos, ?_, rfl, hpos, by omega, hSC, W1⟩
      simp only [siftupLoop]
      rw [if_neg hc1]

/-- `_siftup` at the root establishes the heap shape, given the shape
away from the root. -/
theorem siftup_heapP {heap : List Entry} (d : Entry) (hpos : 0 < heap.length)
    (hSC : ∀ e ∈ heap, SCe e)
    (W1 : ∀ j x y, 0 < j → (j - 1) / 2 ≠ 0 → heap[j]? = some x →
      heap[(j - 1) / 2]? = some y → keL x y = false) :
    ∃ l2, siftup entryLt d heap 0 = .ok l2 ∧ HeapP l2 := by
  have hSCn : SCe (heap.getD 0 d) := hSC _ (list_getD_mem hpos d)
  obtain ⟨l', fp, hrun, hlen, hfp, hsmall, hSCl, W1f⟩ :=
    siftupLoop_heapP d heap.length heap 0 hpos (by omega) hSC
      (fun j x y hj _ hpne hx hy => W1 j x y hj hpne hx hy)
      (fun j x y _ _ h0 _ _ => absurd h0 (by omega))
  have hSCset : ∀ e ∈ l'.set fp (heap.getD 0 d), SCe e := by
    intro e he
    rcases List.mem_or_eq_of_mem_set he with he | he
    · exact hSCl _ he
    · exact he ▸ hSCn
  obtain ⟨l2, hrun2, hH2⟩ := siftdown_heapP hSCn fp (l'.set fp (heap.getD 0 d)) fp
    (by simpa using hfp) (Nat.le_refl fp) hSCset
    (by
      intro j x y hj hjfp hx hy
      by_cases hpj : (j - 1) / 2 = fp
      · have hjlen := lt_of_getElem?_some hx
        rw [List.length_set] at hjlen
        omega
      · rw [List.getElem?_set_ne (fun h => hjfp h.symm)] at hx
        rw [List.getElem?_set_ne (fun h => hpj h.symm)] at hy
        exact W1f j x y hj hjfp hpj hx hy)
    (by
      intro j x hj hpj hx
      have hjlen := lt_of_getElem?_some hx
      rw [List.length_set] at hjlen
      omega)
    (by
      intro j x y hj hpj _ hx _
      have hjlen := lt_of_getElem?_some hx
      rw [List.length_set] at hjlen
      omega)
  refine ⟨l2, ?_, hH2⟩
  unfold siftup
  rw [hrun]
  exact hrun2

/-- `heappush` on single-character entries: succeeds, permutes, keeps
the heap shape and the label condition. -/
theorem heappush_full {heap : List Entry} {item : Entry} (hH : HeapP heap)
    (hSC : ∀ e ∈ heap, SCe e) (hSCi : SCe item) :
    ∃ l', heappush entryLt heap item = .ok l' ∧ HeapP l' ∧ l'.Perm (item :: heap) ∧
      (∀ e ∈ l', SCe e) := by
  have hlt : ∀ x y : Entry, SCe x → SCe y → ∃ b, entryLt x y = .ok b :=
    fun x y hx hy => ⟨_, entryLt_eval hx hy⟩
  obtain ⟨l', hrun, hperm⟩ := heappush_ok hlt hSC hSCi
  have hSCapp : ∀ e ∈ heap ++ [item], SCe e := by
    intro e he
    rcases List.mem_append.mp he with he | he
    · exact hSC _ he
    · simp only [List.mem_singleton] at he
      exact he ▸ hSCi
  obtain ⟨l2, hrun2, hH2⟩ := siftdown_heapP hSCi heap.length (heap ++ [item])
    heap.length (by simp) (Nat.le_refl _) hSCapp
    (by
      intro j x y hj hjne hx hy
      have hjlen := lt_of_getElem?_some hx
      rw [List.length_append, List.length_singleton] at hjlen
      have hjlt : j < heap.length := by omega
      rw [List.getElem?_append_left hjlt] at hx
      rw [List.getElem?_append_left (by omega)] at hy
      exact hH j x y hj hx hy)
    (by
      intro j x hj hpj hx
      have hjlen := lt_of_getElem?_some hx
      rw [List.length_append, List.length_singleton] at hjlen
      omega)
    (by
      intro j x y hj hpj _ hx _
      have hjlen := lt_of_getElem?_some hx
      rw [List.length_append, List.length_singleton] at hjlen
      omega)
  have heq : heappush entryLt heap item = .ok l2 := by
    unfold heappush
    exact hrun2
  rw [hrun] at heq
  injection heq with heq
  subst heq
  refine ⟨l', hrun, hH2, hperm, ?_⟩
  intro e he
  rcases List.mem_cons.mp (hperm.subset he) with he | he
  · exact he ▸ hSCi
  · exact hSC _ he

/-- `heappop` on a single-character heap in shape: succeeds, returns the
root, which is a minimum, and keeps the shape. -/
theorem heappop_full {heap : List Entry} (hne : heap ≠ []) (hH : HeapP heap)
    (hSC : ∀ e ∈ heap, SCe e) :
    ∃ x rest, heappop entryLt (0, "") heap = .ok (x, rest) ∧ heap[0]? = some x ∧
      heap.Perm (x :: rest) ∧ HeapP rest ∧ (∀ e ∈ rest, SCe e) ∧
      (∀ e ∈ heap, keL e x = false) := by
  have hlt : ∀ x y : Entry, SCe x → SCe y → ∃ b, entryLt x y = .ok b :=
    fun x y hx hy => ⟨_, entryLt_eval hx hy⟩
  obtain ⟨x, rest, hrun, hperm⟩ := heappop_ok hlt ((0 : Int), "") hSC hne
  rcases List.eq_nil_or_concat heap with rfl | ⟨L, b, hLb⟩
  · exact absurd rfl hne
  · rw [List.concat_eq_append] at hLb
    subst hLb
    rcases L with _ | ⟨r0, tail0⟩
    · have heq : heappop entryLt ((0 : Int), "") ([] ++ [b]) = .ok (b, []) := rfl
      rw [hrun] at heq
      injection heq with heq
      injection heq with he1 he2
      subst he1
      subst he2
      refine ⟨x, [], hrun, rfl, hperm, heapP_nil, ?_, ?_⟩
      · intro e he
        simp at he
      · intro e he
        simp only [List.nil_append, List.mem_singleton] at he
        subst he
        exact keL_irrefl _
    · have hSC0 : ∀ e ∈ b :: tail0, SCe e := by
        intro e he
        rcases List.mem_cons.mp he with he | he
        · exact hSC _ (he ▸ (by simp : b ∈ (r0 :: tail0) ++ [b]))
        · exact hSC _ (by simp [he])
      have hW1 : ∀ j x y, 0 < j → (j - 1) / 2 ≠ 0 → (b :: tail0)[j]? = some x →
          (b :: tail0)[(j - 1) / 2]? = some y → keL x y = false := by
        intro j x y hj hpne hx hy
        obtain ⟨j', rfl⟩ : ∃ j', j = j' + 1 := ⟨j - 1, by omega⟩
        obtain ⟨p', hp'⟩ : ∃ p', (j' + 1 - 1) / 2 = p' + 1 := ⟨(j' + 1 - 1) / 2 - 1, by omega⟩
        rw [List.getElem?_cons_succ] at hx
        rw [hp', List.getElem?_cons_succ] at hy
        have hjlen : j' < tail0.length := lt_of_getElem?_some hx
        have hplen : p' < tail0.length := lt_of_getElem?_some hy
        have hx' : ((r0 :: tail0) ++ [b])[j' + 1]? = some x := by
          show (r0 :: (tail0 ++ [b]))[j' + 1]? = some x
          rw [List.getElem?_cons_succ, List.getElem?_append_left hjlen]
          exact hx
        have hy' : ((r0 :: tail0) ++ [b])[(j' + 1 - 1) / 2]? = some y := by
          show (r0 :: (tail0 ++ [b]))[(j' + 1 - 1) / 2]? = some y
          rw [hp', List.getElem?_cons_succ, List.getElem?_append_left hplen]
          exact hy
        exact hH (j' + 1) x y (by omega) hx' hy'
      obtain ⟨l2, hrun2, hH2⟩ :=
        siftup_heapP ((0 : Int), "") (show 0 < (b :: tail0).length by simp) hSC0 hW1
      have heq : heappop entryLt ((0 : Int), "") ((r0 :: tail0) ++ [b]) = .ok (r0, l2) := by
        unfold heappop
        rw [List.getLast?_concat]
        show (if ((r0 :: tail0) ++ [b]).dropLast.isEmpty then
            Except.ok (b, ([] : List Entry))
          else do
            let h2 ← siftup entryLt ((0 : Int), "")
              (((r0 :: tail0) ++ [b]).dropLast.set 0 b) 0
            Except.ok (((r0 :: tail0) ++ [b]).dropLast.getD 0 ((0 : Int), ""), h2)) = _
        rw [List.dropLast_concat]
        rw [if_neg (by simp)]
        show (do
          let h2 ← siftup entryLt ((0 : Int), "") (b :: tail0) 0
          Except.ok (r0, h2)) = _
        rw [hrun2]
        rfl
      rw [hrun] at heq
      injection heq with heq
      injection heq with he1 he2
      subst he1
      subst he2
      refine ⟨x, rest, hrun, by simp, hperm, hH2, ?_, ?_⟩
      · intro e he
        exact hSC _ (hperm.symm.subset (List.mem_cons_of_mem _ he))
      · intro e he
        exact heapP_min hH (by simp) he

/-- The relaxation loop of the distance query preserves success, shape,
permutation and single-character labels. -/
theorem pushEdges_full :
    ∀ (es : List (String × Int)) (w : Int) (heap : List Entry),
      HeapP heap → (∀ e ∈ heap, SCe e) → (∀ p ∈ es, p.1.length = 1) →
      ∃ h2, pushEdges es w heap = .ok h2 ∧ HeapP h2 ∧
        h2.Perm ((es.map (fun p => (w + p.2, p.1))) ++ heap) ∧ (∀ e ∈ h2, SCe e) := by
  intro es
  induction es with
  | nil =>
    intro w heap hH hSC _
    exact ⟨heap, rfl, hH, List.Perm.refl _, hSC⟩
  | cons p rest ih =>
    intro w heap hH hSC hes
    obtain ⟨t, ew⟩ := p
    have hSCt : SCe (w + ew, t) := hes (t, ew) (List.mem_cons_self _ _)
    obtain ⟨h1, hrun1, hH1, hperm1, hSC1⟩ := heappush_full hH hSC hSCt
    obtain ⟨h2, hrun2, hH2, hperm2, hSC2⟩ :=
      ih w h1 hH1 hSC1 (fun q hq => hes q (List.mem_cons_of_mem _ hq))
    refine ⟨h2, ?_, hH2, ?_, hSC2⟩
    · show (match heappush entryLt heap (w + ew, t) with
        | Except.error e => Except.error e
        | Except.ok hh => pushEdges rest w hh) = _
      rw [hrun1]
      exact hrun2
    · apply hperm2.trans
      apply (List.Perm.append_left (rest.map (fun q => (w + q.2, q.1))) hperm1).trans
      exact List.perm_middle

/-! ### Walks with weights, and Dijkstra correctness of the distance query -/

/-- A walk from `s` along stored edge records, together with its total
weight. -/
inductive IsWalkW (g : WGraph) (s : String) : String → Int → Prop where
  | refl : IsWalkW g s s 0
  | tail {u v : String} {c w : Int} : IsWalkW g s u c → edgeWeight g u v = some w →
      IsWalkW g s v (c + w)

theorem IsWalkW.endsReg {g : WGraph} {s v : String} {c : Int} (hwf : wfB g = true)
    (hs : isRegistered g s = true) (h : IsWalkW g s v c) : isRegistered g v = true := by
  induction h with
  | refl => exact hs
  | tail _ hw _ => exact wf_closed hwf hw

theorem IsWalkW.nonneg {g : WGraph} {s v : String} {c : Int} (hnn : nnB g = true)
    (h : IsWalkW g s v c) : 0 ≤ c := by
  induction h with
  | refl => exact le_refl 0
  | tail _ hw ih =>
    have := nn_edgeWeight hnn hw
    omega

theorem IsWalkW.reachP {g : WGraph} {s v : String} {c : Int} (h : IsWalkW g s v c) :
    ReachP g s v := by
  induction h with
  | refl => exact ReachP.refl
  | tail _ hw ih => exact ReachP.tail ih hw

theorem ReachP.exists_walk {g : WGraph} {s v : String} (h : ReachP g s v) :
    ∃ c, IsWalkW g s v c := by
  induction h with
  | refl => exact ⟨0, IsWalkW.refl⟩
  | tail _ hw ih =>
    obtain ⟨c, hc⟩ := ih
    exact ⟨_, IsWalkW.tail hc hw⟩

theorem IsWalkW.cast {g : WGraph} {s v : String} {c c' : Int} (h : IsWalkW g s v c)
    (he : c = c') : IsWalkW g s v c' := he ▸ h

theorem walk_concat {g : WGraph} {a b : String} {c1 : Int} (h1 : IsWalkW g a b c1) :
    ∀ {d : String} {c2 : Int}, IsWalkW g b d c2 → IsWalkW g a d (c1 + c2) := by
  intro d c2 h2
  induction h2 with
  | refl => exact h1.cast (by omega)
  | @tail u v c w hu hw ih => exact (ih.tail hw).cast (by omega)

theorem walk_reverse {g : WGraph} (hwf : wfB g = true) {s v : String} {c : Int}
    (h : IsWalkW g s v c) : IsWalkW g v s c := by
  induction h with
  | refl => exact .refl
  | @tail u v c w hu hw ih =>
    have hrev : edgeWeight g v u = some w := wf_sym hwf hw
    have hstep : IsWalkW g v u (0 + w) := IsWalkW.tail .refl hrev
    exact (walk_concat hstep ih).cast (by omega)

theorem edgeWeight_mem_edgesOf {g : WGraph} {u v : String} {w : Int}
    (h : edgeWeight g u v = some w) : (v, w) ∈ edgesOf g u := by
  rcases he : dget g.nodes u with _ | es
  · simp only [edgeWeight, he] at h
    cases h
  · simp only [edgeWeight, he] at h
    unfold edgesOf
    rw [he]
    exact dget_some_mem h

theorem heapP_singleton (e : Entry) : HeapP [e] := by
  intro j x y hj hx _
  rcases j with _ | j
  · omega
  · simp at hx

/-- The cut argument: while a node reachable by a walk is unvisited,
the heap root weight is at most the walk weight. -/
theorem dinv_cut {g : WGraph} {s : String} {heap : List Entry} {visited : List String}
    (hwf : wfB g = true) (hnn : nnB g = true) (hs : isRegistered g s = true)
    (hH : HeapP heap)
    (hB : ∀ v ∈ visited, ∀ p ∈ edgesOf g v, p.1 ∈ visited ∨
      ∃ c', (c', p.1) ∈ heap ∧ ∀ c, IsWalkW g s v c → c' ≤ c + p.2)
    (hC : s ∈ visited ∨ ∃ c', (c', s) ∈ heap ∧ c' ≤ 0) :
    ∀ (u : String) (c : Int), IsWalkW g s u c → u ∉ visited →
      ∃ r, heap[0]? = some r ∧ r.1 ≤ c := by
  intro u c hwalk
  induction hwalk with
  | refl =>
    intro hu
    rcases hC with hsv | ⟨c', hc'mem, hc'le⟩
    · exact absurd hsv hu
    · have hlen : 0 < heap.length := List.length_pos.mpr (List.ne_nil_of_mem hc'mem)
      obtain ⟨r, hr⟩ : ∃ r, heap[0]? = some r := ⟨_, List.getElem?_eq_getElem hlen⟩
      refine ⟨r, hr, ?_⟩
      have hw1 := keL_false_weight (heapP_min hH hr hc'mem)
      simp only at hw1
      omega
  | @tail u v c w hu_walk hw ih =>
    intro hv
    by_cases huv : u ∈ visited
    · have hmem : (v, w) ∈ edgesOf g u := edgeWeight_mem_edgesOf hw
      rcases hB u huv (v, w) hmem with hvv | ⟨c', hc'mem, hc'le⟩
      · exact absurd hvv hv
      · have hlen : 0 < heap.length := List.length_pos.mpr (List.ne_nil_of_mem hc'mem)
        obtain ⟨r, hr⟩ : ∃ r, heap[0]? = some r := ⟨_, List.getElem?_eq_getElem hlen⟩
        refine ⟨r, hr, ?_⟩
        have hw1 := keL_false_weight (heapP_min hH hr hc'mem)
        simp only at hw1
        have := hc'le c hu_walk
        omega
    · obtain ⟨r, hr, hle⟩ := ih huv
      have hwpos : 0 ≤ w := nn_edgeWeight hnn hw
      exact ⟨r, hr, by omega⟩

/-- Main correctness of the `get_shortest_distance` loop: a returned
weight is the minimum walk weight to the target, and `PathNotFoundError`
means no walk exists. -/
theorem distLoop_correct {g : WGraph} {s t : String}
    (hwf : wfB g = true) (hsc : scB g = true) (hnn : nnB g = true)
    (hs : isRegistered g s = true) :
    ∀ (fuel : Nat) (heap : List Entry) (visited : List String),
      HeapP heap → (∀ e ∈ heap, SCe e) →
      (∀ e ∈ heap, IsWalkW g s e.2 e.1) →
      (∀ v ∈ visited, ∀ p ∈ edgesOf g v, p.1 ∈ visited ∨
        ∃ c', (c', p.1) ∈ heap ∧ ∀ c, IsWalkW g s v c → c' ≤ c + p.2) →
      (s ∈ visited ∨ ∃ c', (c', s) ∈ heap ∧ c' ≤ 0) →
      t ∉ visited →
      ∀ r, distLoop g t fuel heap visited = some r →
        (∃ w, r = .ok w ∧ IsWalkW g s t w ∧ ∀ c, IsWalkW g s t c → w ≤ c) ∨
        (r = .error .pathNotFound ∧ ∀ c, ¬ IsWalkW g s t c) := by
  intro fuel
  induction fuel with
  | zero =>
    intro heap visited _ _ _ _ _ _ r hr
    simp [distLoop] at hr
  | succ fuel ih =>
    intro heap visited hH hSC hA hB hC ht r hr
    by_cases hemp : heap.isEmpty
    · have hemp' : heap = [] := by
        cases heap
        · rfl
        · simp at hemp
      subst hemp'
      simp only [distLoop, List.isEmpty_nil, if_true] at hr
      injection hr with hr
      refine Or.inr ⟨hr.symm, ?_⟩
      intro c hwalk
      obtain ⟨rt, hrt, _⟩ := dinv_cut hwf hnn hs hH hB hC t c hwalk ht
      simp at hrt
    · have hne : heap ≠ [] := fun h => hemp (by rw [h]; rfl)
      obtain ⟨x, rest, hpop, hroot, hperm, hHrest, hSCrest, hmin⟩ := heappop_full hne hH hSC
      obtain ⟨w0, v0⟩ := x
      have hwalk0 : IsWalkW g s v0 w0 :=
        hA _ (hperm.symm.subset (List.mem_cons_self _ _))
      have hArest : ∀ e ∈ rest, IsWalkW g s e.2 e.1 :=
        fun e he => hA _ (hperm.symm.subset (List.mem_cons_of_mem _ he))
      by_cases hvt : v0 = t
      · subst hvt
        simp only [distLoop, hemp, hpop, Bool.false_eq_true, if_false, if_true] at hr
        injection hr with hr
        refine Or.inl ⟨w0, hr.symm, hwalk0, ?_⟩
        intro c hc
        obtain ⟨rt, hrt, hrtle⟩ := dinv_cut hwf hnn hs hH hB hC v0 c hc ht
        rw [hroot] at hrt
        injection hrt with hrt
        subst hrt
        simpa using hrtle
      · by_cases hvis : v0 ∈ visited
        · have hBrest : ∀ v ∈ visited, ∀ p ∈ edgesOf g v, p.1 ∈ visited ∨
              ∃ c', (c', p.1) ∈ rest ∧ ∀ c, IsWalkW g s v c → c' ≤ c + p.2 := by
            intro v hv p hp
            by_cases hp1 : p.1 ∈ visited
            · exact Or.inl hp1
            · rcases hB v hv p hp with hp1' | ⟨c', hc'mem, hc'le⟩
              · exact absurd hp1' hp1
              · refine Or.inr ⟨c', ?_, hc'le⟩
                rcases List.mem_cons.mp (hperm.subset hc'mem) with he | he
                · exfalso
                  apply hp1
                  have : p.1 = v0 := congrArg Prod.snd he
                  rw [this]
                  exact hvis
                · exact he
          have hCrest : s ∈ visited ∨ ∃ c', (c', s) ∈ rest ∧ c' ≤ 0 := by
            rcases hC with hsv | ⟨c', hc'mem, hc'le⟩
            · exact Or.inl hsv
            · rcases List.mem_cons.mp (hperm.subset hc'mem) with he | he
              · refine Or.inl ?_
                have : s = v0 := congrArg Prod.snd he
                rw [this]
                exact hvis
              · exact Or.inr ⟨c', he, hc'le⟩
          simp only [distLoop, hemp, hpop, hvt, hvis, Bool.false_eq_true, if_false,
            if_true] at hr
          exact ih rest visited hHrest hSCrest hArest hBrest hCrest ht r hr
        · have hreg : isRegistered g v0 = true := hwalk0.endsReg hwf hs
          have hSCes : ∀ p ∈ edgesOf g v0, p.1.length = 1 := by
            intro p hp
            exact sc_label hsc (wf_closed hwf (edgesOf_edgeWeight hwf hreg hp))
          obtain ⟨heap2, hpush, hH2, hperm2, hSC2⟩ :=
            pushEdges_full (edgesOf g v0) w0 rest hHrest hSCrest hSCes
          have hmin0 : ∀ c, IsWalkW g s v0 c → w0 ≤ c := by
            intro c hc
            obtain ⟨rt, hrt, hrtle⟩ := dinv_cut hwf hnn hs hH hB hC v0 c hc hvis
            rw [hroot] at hrt
            injection hrt with hrt
            subst hrt
            simpa using hrtle
          have hA2 : ∀ e ∈ heap2, IsWalkW g s e.2 e.1 := by
            intro e he
            rcases List.mem_append.mp (hperm2.subset he) with he | he
            · obtain ⟨p, hp, hpe⟩ := List.mem_map.mp he
              subst hpe
              exact IsWalkW.tail hwalk0 (edgesOf_edgeWeight hwf hreg hp)
            · exact hArest _ he
          have hB2 : ∀ v ∈ v0 :: visited, ∀ p ∈ edgesOf g v, p.1 ∈ v0 :: visited ∨
              ∃ c', (c', p.1) ∈ heap2 ∧ ∀ c, IsWalkW g s v c → c' ≤ c + p.2 := by
            intro v hv p hp
            by_cases hp1 : p.1 ∈ v0 :: visited
            · exact Or.inl hp1
            · rcases List.mem_cons.mp hv with hv | hv
              · subst hv
                refine Or.inr ⟨w0 + p.2, ?_, ?_⟩
                · apply hperm2.symm.subset
                  apply List.mem_append_left
                  exact List.mem_map.mpr ⟨p, hp, rfl⟩
                · intro c hc
                  have := hmin0 c hc
                  omega
              · rcases hB v hv p hp with hp1' | ⟨c', hc'mem, hc'le⟩
                · exact absurd (List.mem_cons_of_mem _ hp1') hp1
                · refine Or.inr ⟨c', ?_, hc'le⟩
                  rcases List.mem_cons.mp (hperm.subset hc'mem) with he | he
                  · exfalso
                    apply hp1
                    have : p.1 = v0 := congrArg Prod.snd he
                    rw [this]
                    exact List.mem_cons_self _ _
                  · exact hperm2.symm.subset (List.mem_append_right _ he)
          have hC2 : s ∈ v0 :: visited ∨ ∃ c', (c', s) ∈ heap2 ∧ c' ≤ 0 := by
            rcases hC with hsv | ⟨c', hc'mem, hc'le⟩
            · exact Or.inl (List.mem_cons_of_mem _ hsv)
            · rcases List.mem_cons.mp (hperm.subset hc'mem) with he | he
              · refine Or.inl ?_
                have : s = v0 := congrArg Prod.snd he
                rw [this]
                exact List.mem_cons_self _ _
              · exact Or.inr ⟨c', hperm2.symm.subset (List.mem_append_right _ he), hc'le⟩
          have ht2 : t ∉ v0 :: visited := by
            intro hmem
            rcases List.mem_cons.mp hmem with hmem | hmem
            · exact hvt hmem.symm
            · exact ht hmem
          simp only [distLoop, hemp, hpop, hvt, hvis, Bool.false_eq_true, if_false,
            hpush] at hr
          exact ih heap2 (v0 :: visited) hH2 hSC2 hA2 hB2 hC2 ht2 r hr

/-- Top-level Dijkstra correctness of `get_shortest_distance` for
registered endpoints where the target has at least one edge. -/
theorem get_shortest_distance_correct {g : WGraph} {s t : String}
    (hwf : wfB g = true) (hsc : scB g = true) (hnn : nnB g = true)
    (hs : isRegistered g s = true) {et : List (String × Int)}
    (ht : dget g.nodes t = some et) (hne : et.isEmpty = false) :
    ∃ r, get_shortest_distance g s t = some r ∧
      ((∃ w, r = .ok w ∧ IsWalkW g s t w ∧ ∀ c, IsWalkW g s t c → w ≤ c) ∨
       (r = .error .pathNotFound ∧ ∀ c, ¬ IsWalkW g s t c)) := by
  have ht' : isRegistered g t = true := by
    unfold isRegistered
    rw [ht]
    rfl
  obtain ⟨es, hes⟩ := Option.isSome_iff_exists.mp
    (show (dget g.nodes s).isSome = true from hs)
  obtain ⟨r, hr, _⟩ := get_shortest_distance_spec hwf hsc hs ht'
  refine ⟨r, hr, ?_⟩
  have heq : get_shortest_distance g s t = distLoop g t (distFuel g) [(0, s)] [] := by
    simp only [get_shortest_distance, ht, hne, Bool.false_eq_true, if_false, hes,
      heappush_nil]
  rw [heq] at hr
  refine distLoop_correct hwf hsc hnn hs (distFuel g) [(0, s)] []
    (heapP_singleton _) ?_ ?_ ?_ ?_ (by simp) r hr
  · intro e he
    simp only [List.mem_singleton] at he
    subst he
    exact sc_label hsc hs
  · intro e he
    simp only [List.mem_singleton] at he
    subst he
    exact IsWalkW.refl
  · intro v hv
    simp at hv
  · exact Or.inr ⟨0, List.mem_singleton_self _, le_refl 0⟩

/-! ### Claim C7 -/

/-- C7 (amended): the claim holds once restricted to graphs whose labels
are single characters (the implicit precondition of the `ord`-based node
comparison): for every stored edge `(a, b, w)` in an API-reachable graph
with non-negative weights and single-character labels, both
`get_shortest_distance(a, b)` and `get_shortest_distance(b, a)` return
the same value, which is at most `w`.  Without that restriction the
claim fails (see the `TypeError` counterexample). -/
theorem C7_amended (g : WGraph) (a b : String) (w : Int)
    (hre : Reachable g) (hsc : scB g = true) (hnn : nnB g = true)
    (hw : edgeWeight g a b = some w) :
    ∃ d, get_shortest_distance g a b = some (.ok d) ∧ d ≤ w ∧
      get_shortest_distance g b a = some (.ok d) := by
  have hwf := hre.wf
  have ha : isRegistered g a = true := by
    rcases hna : dget g.nodes a with _ | es
    · simp only [edgeWeight, hna] at hw
      cases hw
    · unfold isRegistered
      rw [hna]
      rfl
  have hb : isRegistered g b = true := wf_closed hwf hw
  have hwrev : edgeWeight g b a = some w := wf_sym hwf hw
  obtain ⟨eb, heb⟩ := Option.isSome_iff_exists.mp
    (show (dget g.nodes b).isSome = true from hb)
  obtain ⟨ea, hea⟩ := Option.isSome_iff_exists.mp
    (show (dget g.nodes a).isSome = true from ha)
  have hbne : eb.isEmpty = false := by
    have hmem := edgeWeight_mem_edgesOf hwrev
    unfold edgesOf at hmem
    rw [heb] at hmem
    cases eb
    · simp at hmem
    · rfl
  have hane : ea.isEmpty = false := by
    have hmem := edgeWeight_mem_edgesOf hw
    unfold edgesOf at hmem
    rw [hea] at hmem
    cases ea
    · simp at hmem
    · rfl
  have hwab : IsWalkW g a b (0 + w) := IsWalkW.tail IsWalkW.refl hw
  have hwba : IsWalkW g b a (0 + w) := IsWalkW.tail IsWalkW.refl hwrev
  obtain ⟨r1, hr1, hcase1⟩ := get_shortest_distance_correct hwf hsc hnn ha heb hbne
  obtain ⟨r2, hr2, hcase2⟩ := get_shortest_distance_correct hwf hsc hnn hb hea hane
  rcases hcase1 with ⟨d1, hd1, hd1walk, hd1min⟩ | ⟨_, hnowalk⟩
  · rcases hcase2 with ⟨d2, hd2, hd2walk, hd2min⟩ | ⟨_, hnowalk⟩
    · have h12 : d1 ≤ d2 := hd1min d2 (walk_reverse hwf hd2walk)
      have h21 : d2 ≤ d1 := hd2min d1 (walk_reverse hwf hd1walk)
      have hdd : d1 = d2 := le_antisymm h12 h21
      subst hdd
      rw [hd1] at hr1
      rw [hd2] at hr2
      refine ⟨d1, hr1, ?_, hr2⟩
      have := hd1min _ hwab
      omega
    · exact absurd hwba (hnowalk _)
  · exact absurd hwab (hnowalk _)

theorem C7_amended_witness :
    ∃ d, get_shortest_distance demoGraph "A" "B" = some (.ok d) ∧ d ≤ 1 ∧
      get_shortest_distance demoGraph "B" "A" = some (.ok d) :=
  C7_amended demoGraph "A" "B" 1 demoGraph_reachable rfl rfl rfl

/-! ### Claims C3 and C4: `has_cycle` and `minimum_spanning_tree`

These two operations are called by the repository test-suite but their
code is absent from the sources, so they are modelled from the
specification (§1 "union-based cycle detection", §4.4 Kruskal, and the
glossary's disjoint-set description). -/

/-- Helper: position of a key in an association list. -/
def nodeIdxA {α : Type} : List (String × α) → String → Option Nat
  | [], _ => none
  | p :: rest, v => if p.1 = v then some 0 else (nodeIdxA rest v).map (· + 1)

/-- Modelled from the spec: the position of a label in node-insertion
order, used for the deterministic edge enumeration of §4.4 step 1. -/
def nodeIdx (g : WGraph) (v : String) : Option Nat :=
  nodeIdxA g.nodes v

/-- Modelled from the spec: `a` precedes `b` in node-insertion order. -/
def idxLt (g : WGraph) (a b : String) : Bool :=
  match nodeIdx g a, nodeIdx g b with
  | some i, some j => decide (i < j)
  | _, _ => false

/-- Modelled from the spec: enumerate every undirected edge exactly
once (§4.4 step 1) by keeping, of the two stored directions, the record
whose source comes first in node-insertion order; enumeration is by
source-node insertion order, then target order within a node's dict. -/
def dedupEdges (g : WGraph) : List (String × String × Int) :=
  g.nodes.flatMap (fun p =>
    (p.2.filter (fun q => idxLt g p.1 q.1)).map (fun q => (p.1, q.1, q.2)))

/-- The label pairs of an edge list. -/
def pairsOf (E : List (String × String × Int)) : List (String × String) :=
  E.map (fun e => (e.1, e.2.1))

/-- Modelled from the spec: the disjoint-set structure (glossary) as a
map from node label to component representative; initially every node is
its own component (§4.4 step 3). -/
def reps (g : WGraph) : List (String × String) :=
  g.nodes.map (fun p => (p.1, p.1))

/-- Modelled from the spec: merging two components redirects every
member of the second representative to the first. -/
def unionR (m : List (String × String)) (ru rv : String) : List (String × String) :=
  m.map (fun p => (p.1, if p.2 = rv then ru else p.2))

/-- Modelled from the spec: union-based cycle scan — process each edge;
if its endpoints already share a representative a cycle is found
(`none`), otherwise merge and continue, returning the final
component map. -/
def scanM : List (String × String × Int) → List (String × String) →
    Option (List (String × String))
  | [], m => some m
  | e :: rest, m =>
    match dget m e.1, dget m e.2.1 with
    | some ru, some rv => if ru = rv then none else scanM rest (unionR m ru rv)
    | _, _ => scanM rest m

/-- Modelled from the spec: `has_cycle` takes no input, never fails, and
reports whether the union-based scan over the deduplicated edges stops
on an edge whose endpoints are already connected. -/
def has_cycle (g : WGraph) : Bool := (scanM (dedupEdges g) (reps g)).isNone

/-- One step of a stable ascending insertion: the new edge goes after
every already-placed edge of smaller or equal weight. -/
def insertEdge (e : String × String × Int) :
    List (String × String × Int) → List (String × String × Int)
  | [] => [e]
  | x :: xs => if x.2.2 ≤ e.2.2 then x :: insertEdge e xs else e :: x :: xs

/-- Modelled from the spec: §4.4 step 2 — sort edges ascending by
weight with a stable sort, ties preserving enumeration order. -/
def sortEdges (g : WGraph) : List (String × String × Int) :=
  (dedupEdges g).foldl (fun acc e => insertEdge e acc) []

/-- Modelled from the spec: §4.4 step 4 — accept an edge whenever its
endpoints lie in different components, merging them; otherwise skip it
(it would close a cycle).  Returns the accepted edges in acceptance
order together with the final component map. -/
def kruskalM : List (String × String × Int) → List (String × String) →
    (List (String × String × Int) × List (String × String))
  | [], m => ([], m)
  | e :: rest, m =>
    match dget m e.1, dget m e.2.1 with
    | some ru, some rv =>
      if ru = rv then kruskalM rest m
      else (e :: (kruskalM rest (unionR m ru rv)).1,
        (kruskalM rest (unionR m ru rv)).2)
    | _, _ => kruskalM rest m

/-- The accepted minimum-spanning-tree edges. -/
def mstEdges (g : WGraph) : List (String × String × Int) :=
  (kruskalM (sortEdges g) (reps g)).1

/-- The component map after the spanning-tree construction. -/
def mstFinal (g : WGraph) : List (String × String) :=
  (kruskalM (sortEdges g) (reps g)).2

/-- Does an accepted edge connect `v` with `u`? -/
def touches (e : String × String × Int) (v u : String) : Bool :=
  decide ((e.1 = v ∧ e.2.1 = u) ∨ (e.1 = u ∧ e.2.1 = v))

/-- Modelled from the spec: the accepted neighbors of a node, listed in
node-insertion order (as in the observed adjacency output). -/
def nbrs (g : WGraph) (acc : List (String × String × Int)) (v : String) : List String :=
  (g.nodes.map Prod.fst).filter (fun u => acc.any (fun e => touches e v u))

def renderList : List String → String
  | [] => ""
  | [x] => x
  | x :: rest => x ++ ", " ++ renderList rest

/-- Modelled from the spec: §4.4 output — an adjacency listing in
node-insertion order, one line per node rendered as
`<node> is connected to [<neighbor>, ...]`; nodes with no accepted edge
produce no line, so an empty or single-node graph yields empty
output. -/
def minimum_spanning_tree (g : WGraph) : String :=
  String.join ((g.nodes.map Prod.fst).filterMap (fun v =>
    match nbrs g (mstEdges g) v with
    | [] => none
    | ns => some (v ++ " is connected to [" ++ renderList ns ++ "]\n")))

/-- Removing both stored directions of the undirected edge `u-v`. -/
def removeEdge (g : WGraph) (u v : String) : WGraph :=
  ⟨g.nodes.map (fun p =>
    if p.1 = u then (p.1, p.2.filter (fun q => decide (q.1 ≠ v)))
    else if p.1 = v then (p.1, p.2.filter (fun q => decide (q.1 ≠ u)))
    else p)⟩

/-- A graph is acyclic when no stored edge survives as a connection
after its own two records are removed (a self-loop is a cycle). -/
def Acyclic (g : WGraph) : Prop :=
  ∀ u v w, edgeWeight g u v = some w → ¬ ReachP (removeEdge g u v) u v

/-- Size of the component with representative `r`. -/
def sizeR (m : List (String × String)) (r : String) : Nat :=
  (m.filter (fun p => decide (p.2 = r))).length

/-- Number of accepted edges inside the component with
representative `r`. -/
def cntR (m : List (String × String)) (acc : List (String × String × Int))
    (r : String) : Nat :=
  (acc.filter (fun e => decide (dget m e.1 = some r))).length

/-- A tree-shaped fixture: nodes `A`–`D`, edges `A-B`, `B-C`, `B-D`. -/
def treeGraph : WGraph :=
  runOps ⟨[]⟩ [.node "A", .node "B", .node "C", .node "D",
    .edge "A" "B" 1, .edge "B" "C" 2, .edge "B" "D" 3]

/-- The tree fixture after one further edge `C-D`, closing a cycle. -/
def cycGraph : WGraph :=
  runOps ⟨[]⟩ [.node "A", .node "B", .node "C", .node "D",
    .edge "A" "B" 1, .edge "B" "C" 2, .edge "B" "D" 3, .edge "C" "D" 4]

/-- The spanning-tree scenario of the spec: nodes `A`–`E` with the
seven weighted edges. -/
def mstDemo : WGraph :=
  runOps ⟨[]⟩ [.node "A", .node "B", .node "C", .node "D", .node "E",
    .edge "A" "B" 1, .edge "A" "C" 2, .edge "A" "D" 5, .edge "B" "D" 3,
    .edge "B" "E" 7, .edge "C" "D" 1, .edge "D" "E" 2]

/-- Reachability through a list of undirected label pairs. -/
inductive RVia (P : List (String × String)) : String → String → Prop where
  | refl (x : String) : RVia P x x
  | step {x y z : String} : RVia P x y → ((y, z) ∈ P ∨ (z, y) ∈ P) → RVia P x z

theorem RVia.mono {P Q : List (String × String)} (hPQ : ∀ e ∈ P, e ∈ Q)
    {x y : String} (h : RVia P x y) : RVia Q x y := by
  induction h with
  | refl => exact .refl _
  | step _ hp ih =>
    refine ih.step ?_
    rcases hp with hp | hp
    · exact Or.inl (hPQ _ hp)
    · exact Or.inr (hPQ _ hp)

theorem RVia.trans {P : List (String × String)} {x y z : String}
    (h1 : RVia P x y) (h2 : RVia P y z) : RVia P x z := by
  induction h2 with
  | refl => exact h1
  | step _ hp ih => exact ih.step hp

theorem RVia.single {P : List (String × String)} {u v : String}
    (h : (u, v) ∈ P ∨ (v, u) ∈ P) : RVia P u v :=
  (RVia.refl u).step h

theorem RVia.symm {P : List (String × String)} {x y : String}
    (h : RVia P x y) : RVia P y x := by
  induction h with
  | refl => exact .refl _
  | step _ hp ih =>
    refine RVia.trans ?_ ih
    refine RVia.single ?_
    rcases hp with hp | hp
    · exact Or.inr hp
    · exact Or.inl hp

/-- Walk decomposition over one extra pair. -/
theorem RVia_cons {e : String × String} {P : List (String × String)} {a b : String}
    (h : RVia (e :: P) a b) :
    RVia P a b ∨ ((RVia P a e.1 ∨ RVia P a e.2) ∧ (RVia P e.1 b ∨ RVia P e.2 b)) := by
  induction h with
  | refl => exact Or.inl (.refl _)
  | @step y z hxy hp ih =>
    rcases hp with hp | hp
    · rcases List.mem_cons.mp hp with hp | hp
      · have hy : y = e.1 := congrArg Prod.fst hp
        have hz : z = e.2 := congrArg Prod.snd hp
        subst hy
        subst hz
        rcases ih with ih | ⟨iha, _⟩
        · exact Or.inr ⟨Or.inl ih, Or.inr (.refl _)⟩
        · exact Or.inr ⟨iha, Or.inr (.refl _)⟩
      · rcases ih with ih | ⟨iha, ihb⟩
        · exact Or.inl (ih.step (Or.inl hp))
        · refine Or.inr ⟨iha, ?_⟩
          rcases ihb with ihb | ihb
          · exact Or.inl (ihb.step (Or.inl hp))
          · exact Or.inr (ihb.step (Or.inl hp))
    · rcases List.mem_cons.mp hp with hp | hp
      · have hy : y = e.2 := congrArg Prod.snd hp
        have hz : z = e.1 := congrArg Prod.fst hp
        subst hy
        subst hz
        rcases ih with ih | ⟨iha, _⟩
        · exact Or.inr ⟨Or.inr ih, Or.inl (.refl _)⟩
        · exact Or.inr ⟨iha, Or.inl (.refl _)⟩
      · rcases ih with ih | ⟨iha, ihb⟩
        · exact Or.inl (ih.step (Or.inr hp))
        · refine Or.inr ⟨iha, ?_⟩
          rcases ihb with ihb | ihb
          · exact Or.inl (ihb.step (Or.inr hp))
          · exact Or.inr (ihb.step (Or.inr hp))

theorem RVia_nil {x y : String} (h : RVia [] x y) : x = y := by
  induction h with
  | refl => rfl
  | step _ hp ih =>
    rcases hp with hp | hp <;> simp at hp

theorem dget_reps (g : WGraph) (x : String) :
    dget (reps g) x = (dget g.nodes x).map (fun _ => x) := by
  unfold reps
  induction g.nodes with
  | nil => rfl
  | cons p rest ih =>
    obtain ⟨pk, pv⟩ := p
    by_cases hk : pk = x
    · subst hk
      simp [dget]
    · simp only [List.map_cons, dget, if_neg hk]
      exact ih

theorem dget_unionR (m : List (String × String)) (ru rv x : String) :
    dget (unionR m ru rv) x = (dget m x).map (fun r => if r = rv then ru else r) := by
  induction m with
  | nil => rfl
  | cons p rest ih =>
    obtain ⟨pk, pr⟩ := p
    by_cases hk : pk = x
    · subst hk
      simp [unionR, dget]
    · simp only [unionR, List.map_cons, dget, if_neg hk]
      exact ih

theorem dget_filter_ne {α : Type} {t b : String} (hne : b ≠ t) :
    ∀ es : List (String × α),
      dget (es.filter (fun q => decide (q.1 ≠ t))) b = dget es b := by
  intro es
  induction es with
  | nil => rfl
  | cons q rest ih =>
    obtain ⟨qk, qv⟩ := q
    simp only [List.filter_cons]
    by_cases hq : qk = t
    · rw [show (decide ((qk, qv).1 ≠ t)) = false by simp [hq], if_neg Bool.false_ne_true]
      rw [ih]
      show dget rest b = if qk = b then some qv else dget rest b
      rw [if_neg (fun h => hne (by rw [← h]; exact hq))]
    · rw [show (decide ((qk, qv).1 ≠ t)) = true by simp [hq], if_pos rfl]
      show (if qk = b then some qv else dget (rest.filter _) b) =
        (if qk = b then some qv else dget rest b)
      rw [ih]

theorem dget_filter_self {α : Type} (t : String) :
    ∀ es : List (String × α),
      dget (es.filter (fun q => decide (q.1 ≠ t))) t = none := by
  intro es
  induction es with
  | nil => rfl
  | cons q rest ih =>
    obtain ⟨qk, qv⟩ := q
    simp only [List.filter_cons]
    by_cases hq : qk = t
    · rw [show (decide ((qk, qv).1 ≠ t)) = false by simp [hq], if_neg Bool.false_ne_true]
      exact ih
    · rw [show (decide ((qk, qv).1 ≠ t)) = true by simp [hq], if_pos rfl]
      show (if qk = t then some qv else dget (rest.filter _) t) = none
      rw [if_neg hq]
      exact ih

theorem dget_cons {α : Type} (k : String) (vv : α) (l : List (String × α)) (x : String) :
    dget ((k, vv) :: l) x = if k = x then some vv else dget l x := rfl

theorem dget_removeEdge (g : WGraph) (u v x : String) :
    dget (removeEdge g u v).nodes x = (dget g.nodes x).map (fun es =>
      if x = u then es.filter (fun q => decide (q.1 ≠ v))
      else if x = v then es.filter (fun q => decide (q.1 ≠ u))
      else es) := by
  show dget (g.nodes.map _) x = _
  induction g.nodes with
  | nil => rfl
  | cons p rest ih =>
    obtain ⟨pk, pes⟩ := p
    simp only [List.map_cons]
    have hf : (if pk = u then (pk, pes.filter (fun q => decide (q.1 ≠ v)))
        else if pk = v then (pk, pes.filter (fun q => decide (q.1 ≠ u)))
        else (pk, pes)) =
        (pk, if pk = u then pes.filter (fun q => decide (q.1 ≠ v))
          else if pk = v then pes.filter (fun q => decide (q.1 ≠ u)) else pes) := by
      by_cases h1 : pk = u
      · rw [if_pos h1, if_pos h1]
      · rw [if_neg h1, if_neg h1]
        by_cases h2 : pk = v
        · rw [if_pos h2, if_pos h2]
        · rw [if_neg h2, if_neg h2]
    rw [hf, dget_cons, dget_cons]
    by_cases hk : pk = x
    · rw [if_pos hk, if_pos hk]
      subst hk
      rfl
    · rw [if_neg hk, if_neg hk]
      exact ih

/-- Key condition of a component map: defined on exactly the registered
labels. -/
def RepKeys (g : WGraph) (m : List (String × String)) : Prop :=
  ∀ x, (dget m x).isSome = isRegistered g x

theorem repKeys_reps (g : WGraph) : RepKeys g (reps g) := by
  intro x
  rw [dget_reps]
  unfold isRegistered
  cases dget g.nodes x <;> rfl

theorem repKeys_unionR {g : WGraph} {m : List (String × String)} {ru rv : String}
    (h : RepKeys g m) : RepKeys g (unionR m ru rv) := by
  intro x
  rw [dget_unionR, ← h x]
  cases dget m x <;> rfl

/-- Correctness condition of a component map: two labels share a
representative exactly when they are connected through the processed
pairs. -/
def RepC (P : List (String × String)) (m : List (String × String)) : Prop :=
  ∀ x y rx ry, dget m x = some rx → dget m y = some ry → (rx = ry ↔ RVia P x y)

theorem repC_init (g : WGraph) : RepC [] (reps g) := by
  intro x y rx ry hx hy
  rw [dget_reps] at hx hy
  rcases hmx : dget g.nodes x with _ | ex
  · rw [hmx] at hx
    cases hx
  · rw [hmx] at hx
    injection hx with hx
    subst hx
    rcases hmy : dget g.nodes y with _ | ey
    · rw [hmy] at hy
      cases hy
    · rw [hmy] at hy
      injection hy with hy
      subst hy
      constructor
      · intro h
        subst h
        exact .refl _
      · intro h
        exact RVia_nil h

theorem repC_union {P : List (String × String)} {m : List (String × String)}
    {u v ru rv : String} (hC : RepC P m)
    (hu : dget m u = some ru) (hv : dget m v = some rv) (hne : ru ≠ rv) :
    RepC ((u, v) :: P) (unionR m ru rv) := by
  intro x y rxp ryp hx hy
  rw [dget_unionR] at hx hy
  rcases hmx : dget m x with _ | rx
  · rw [hmx] at hx
    cases hx
  · rw [hmx] at hx
    injection hx with hx
    have hx2 : rxp = if rx = rv then ru else rx := hx.symm
    subst hx2
    rcases hmy : dget m y with _ | ry
    · rw [hmy] at hy
      cases hy
    · rw [hmy] at hy
      injection hy with hy
      have hy2 : ryp = if ry = rv then ru else ry := hy.symm
      subst hy2
      constructor
      · intro hfeq
        by_cases hrr : rx = ry
        · exact ((hC x y rx ry hmx hmy).mp hrr).mono
            (fun e he => List.mem_cons_of_mem _ he)
        · by_cases h1 : rx = rv
          · have h2 : ry ≠ rv := fun h => hrr (h1.trans h.symm)
            have h3 : ry = ru := by
              rw [if_pos h1, if_neg h2] at hfeq
              exact hfeq.symm
            have hxv : RVia P x v := (hC x v rx rv hmx hv).mp h1
            have hyu : RVia P y u := (hC y u ry ru hmy hu).mp h3
            refine RVia.trans (hxv.mono (fun e he => List.mem_cons_of_mem _ he)) ?_
            refine RVia.trans (RVia.single (Or.inr (List.mem_cons_self _ _))) ?_
            exact hyu.symm.mono (fun e he => List.mem_cons_of_mem _ he)
          · by_cases h2 : ry = rv
            · have h3 : rx = ru := by
                rw [if_neg h1, if_pos h2] at hfeq
                exact hfeq
              have hxu : RVia P x u := (hC x u rx ru hmx hu).mp h3
              have hyv : RVia P y v := (hC y v ry rv hmy hv).mp h2
              refine RVia.trans (hxu.mono (fun e he => List.mem_cons_of_mem _ he)) ?_
              refine RVia.trans (RVia.single (Or.inl (List.mem_cons_self _ _))) ?_
              exact hyv.symm.mono (fun e he => List.mem_cons_of_mem _ he)
            · rw [if_neg h1, if_neg h2] at hfeq
              exact absurd hfeq hrr
      · intro hR
        rcases RVia_cons hR with hR | ⟨ha, hb⟩
        · have heq := (hC x y rx ry hmx hmy).mpr hR
          rw [heq]
        · have hfx : (if rx = rv then ru else rx) = ru := by
            rcases ha with ha | ha
            · have heq := (hC x u rx ru hmx hu).mpr ha
              rw [heq, if_neg hne]
            · have heq := (hC x v rx rv hmx hv).mpr ha
              rw [heq, if_pos rfl]
          have hfy : (if ry = rv then ru else ry) = ru := by
            rcases hb with hb | hb
            · have heq := (hC u y ru ry hu hmy).mpr hb
              rw [← heq, if_neg hne]
            · have heq := (hC v y rv ry hv hmy).mpr hb
              rw [← heq, if_pos rfl]
          rw [hfx, hfy]

theorem repC_skip {P : List (String × String)} {m : List (String × String)}
    {u v r : String} (hC : RepC P m)
    (hu : dget m u = some r) (hv : dget m v = some r) :
    RepC ((u, v) :: P) m := by
  intro x y rx ry hx hy
  constructor
  · intro h
    exact ((hC x y rx ry hx hy).mp h).mono (fun e he => List.mem_cons_of_mem _ he)
  · intro hR
    rcases RVia_cons hR with hR | ⟨ha, hb⟩
    · exact (hC x y rx ry hx hy).mpr hR
    · have hx' : rx = r := by
        rcases ha with ha | ha
        · exact (hC x u rx r hx hu).mpr ha
        · exact (hC x v rx r hx hv).mpr ha
      have hy' : ry = r := by
        rcases hb with hb | hb
        · exact ((hC u y r ry hu hy).mpr hb).symm
        · exact ((hC v y r ry hv hy).mpr hb).symm
      rw [hx', hy']

theorem repC_congr {P Q : List (String × String)} {m : List (String × String)}
    (h : ∀ z, z ∈ P ↔ z ∈ Q) (hC : RepC P m) : RepC Q m := by
  intro x y rx ry hx hy
  constructor
  · intro he
    exact ((hC x y rx ry hx hy).mp he).mono (fun z hz => (h z).mp hz)
  · intro hR
    exact (hC x y rx ry hx hy).mpr (hR.mono (fun z hz => (h z).mpr hz))

theorem pairsOf_cons (e : String × String × Int) (E : List (String × String × Int)) :
    pairsOf (e :: E) = (e.1, e.2.1) :: pairsOf E := rfl

theorem pairsOf_append (E₁ E₂ : List (String × String × Int)) :
    pairsOf (E₁ ++ E₂) = pairsOf E₁ ++ pairsOf E₂ := by
  unfold pairsOf
  exact List.map_append _ _ _

theorem scanM_append :
    ∀ (E₁ E₂ : List (String × String × Int)) (m : List (String × String)),
      scanM (E₁ ++ E₂) m = (scanM E₁ m).bind (scanM E₂) := by
  intro E₁
  induction E₁ with
  | nil => intro E₂ m; rfl
  | cons e rest ih =>
    intro E₂ m
    show scanM (e :: (rest ++ E₂)) m = _
    rcases h1 : dget m e.1 with _ | ru
    · simp only [scanM, h1]
      exact ih E₂ m
    · rcases h2 : dget m e.2.1 with _ | rv
      · simp only [scanM, h1, h2]
        exact ih E₂ m
      · by_cases hr : ru = rv
        · simp only [scanM, h1, h2, if_pos hr]
          rfl
        · simp only [scanM, h1, h2, Bool.false_eq_true, if_neg hr]
          exact ih E₂ (unionR m ru rv)

/-- Soundness of the union scan: a reported cycle really is one — some
enumerated edge's endpoints are connected through the other pairs. -/
theorem scanM_none_cycle {g : WGraph} :
    ∀ (E : List (String × String × Int)) (P0 : List (String × String))
      (m : List (String × String)),
      RepKeys g m → RepC P0 m →
      (∀ e ∈ E, isRegistered g e.1 = true ∧ isRegistered g e.2.1 = true) →
      (pairsOf E).Nodup →
      scanM E m = none →
      ∃ e ∈ E, RVia (P0 ++ (pairsOf E).erase (e.1, e.2.1)) e.1 e.2.1 := by
  intro E
  induction E with
  | nil =>
    intro P0 m _ _ _ _ h
    cases h
  | cons e rest ih =>
    intro P0 m hK hC hreg hnd hrun
    obtain ⟨hre1, hre2⟩ := hreg e (List.mem_cons_self _ _)
    obtain ⟨ru, hru⟩ := Option.isSome_iff_exists.mp (by rw [hK e.1]; exact hre1)
    obtain ⟨rv, hrv⟩ := Option.isSome_iff_exists.mp (by rw [hK e.2.1]; exact hre2)
    rw [pairsOf_cons] at hnd
    have hnotin := (List.nodup_cons.mp hnd).1
    have hnd' := (List.nodup_cons.mp hnd).2
    by_cases hr : ru = rv
    · refine ⟨e, List.mem_cons_self _ _, ?_⟩
      subst hr
      have hcon := (hC e.1 e.2.1 ru ru hru hrv).mp rfl
      exact hcon.mono (fun z hz => List.mem_append_left _ hz)
    · have hrun' : scanM rest (unionR m ru rv) = none := by
        simp only [scanM, hru, hrv, if_neg hr] at hrun
        exact hrun
      obtain ⟨e', he', hR⟩ := ih ((e.1, e.2.1) :: P0) (unionR m ru rv)
        (repKeys_unionR hK) (repC_union hC hru hrv hr)
        (fun q hq => hreg q (List.mem_cons_of_mem _ hq)) hnd' hrun'
      have hpair' : ((e'.1, e'.2.1) : String × String) ∈ pairsOf rest :=
        List.mem_map.mpr ⟨e', he', rfl⟩
      have hne' : ((e.1, e.2.1) : String × String) ≠ (e'.1, e'.2.1) := by
        intro hcc
        apply hnotin
        rw [hcc]
        exact hpair'
      refine ⟨e', List.mem_cons_of_mem _ he', ?_⟩
      refine hR.mono ?_
      intro z hz
      rw [pairsOf_cons]
      rcases List.mem_append.mp hz with hz | hz
      · rcases List.mem_cons.mp hz with hz | hz
        · subst hz
          apply List.mem_append_right
          exact (List.mem_erase_of_ne hne').mpr (List.mem_cons_self _ _)
        · exact List.mem_append_left _ hz
      · apply List.mem_append_right
        have herase : ((e.1, e.2.1) :: pairsOf rest).erase (e'.1, e'.2.1) =
            (e.1, e.2.1) :: (pairsOf rest).erase (e'.1, e'.2.1) := by
          rw [show ((e.1, e.2.1) :: pairsOf rest) =
            [(e.1, e.2.1)] ++ pairsOf rest from rfl]
          rw [List.erase_append_right _ (by
            intro hcc
            simp only [List.mem_singleton] at hcc
            exact hne' hcc.symm)]
          rfl
        rw [herase]
        exact List.mem_cons_of_mem _ hz

/-- Completeness of the union scan: when it runs to completion the
processed pairs form a forest, and the final map's components are
exactly connectivity through them. -/
theorem scanM_forest {g : WGraph} :
    ∀ (E : List (String × String × Int)) (m' : List (String × String)),
      (∀ e ∈ E, isRegistered g e.1 = true ∧ isRegistered g e.2.1 = true) →
      (pairsOf E).Nodup →
      scanM E (reps g) = some m' →
      RepKeys g m' ∧ RepC (pairsOf E) m' ∧
      (∀ eh ∈ pairsOf E, ¬ RVia ((pairsOf E).erase eh) eh.1 eh.2) := by
  intro E
  induction E using List.reverseRecOn with
  | nil =>
    intro m' _ _ hrun
    injection hrun with hrun
    subst hrun
    refine ⟨repKeys_reps g, repC_init g, ?_⟩
    intro eh heh
    simp [pairsOf] at heh
  | append_singleton E₀ e ih =>
    intro m' hreg hnd hrun
    rw [scanM_append] at hrun
    rcases h0 : scanM E₀ (reps g) with _ | m₁
    · rw [h0] at hrun
      cases hrun
    · rw [h0, Option.some_bind] at hrun
      rw [pairsOf_append] at hnd
      have hnd0 := (List.nodup_append.mp hnd).1
      have hdisj := (List.nodup_append.mp hnd).2.2
      have hnotinE : ((e.1, e.2.1) : String × String) ∉ pairsOf E₀ := by
        intro hmem
        exact hdisj hmem (by show _ ∈ pairsOf [e]; exact List.mem_cons_self _ _)
      obtain ⟨hK₁, hC₁, hF₁⟩ := ih m₁
        (fun q hq => hreg q (List.mem_append_left _ hq)) hnd0 h0
      obtain ⟨hre1, hre2⟩ := hreg e (List.mem_append_right _ (List.mem_cons_self _ _))
      obtain ⟨ru, hru⟩ := Option.isSome_iff_exists.mp (by rw [hK₁ e.1]; exact hre1)
      obtain ⟨rv, hrv⟩ := Option.isSome_iff_exists.mp (by rw [hK₁ e.2.1]; exact hre2)
      by_cases hr : ru = rv
      · exfalso
        simp only [scanM, hru, hrv, if_pos hr] at hrun
        cases hrun
      · have hm' : m' = unionR m₁ ru rv := by
          simp only [scanM, hru, hrv, Bool.false_eq_true, if_neg hr] at hrun
          injection hrun with hrun
          exact hrun.symm
        subst hm'
        have hnc : ¬ RVia (pairsOf E₀) e.1 e.2.1 := by
          intro hcon
          exact hr ((hC₁ e.1 e.2.1 ru rv hru hrv).mpr hcon)
        have hmemiff : ∀ z : String × String,
            z ∈ (e.1, e.2.1) :: pairsOf E₀ ↔ z ∈ pairsOf (E₀ ++ [e]) := by
          intro z
          rw [pairsOf_append]
          simp [pairsOf, List.mem_append, List.mem_cons, or_comm]
        refine ⟨repKeys_unionR hK₁,
          repC_congr hmemiff (repC_union hC₁ hru hrv hr), ?_⟩
        intro eh heh
        rw [pairsOf_append] at heh ⊢
        rcases List.mem_append.mp heh with heh | heh
        · intro hR
          have hne : eh ≠ (e.1, e.2.1) := by
            intro hcc
            exact hnotinE (hcc ▸ heh)
          rw [List.erase_append_left _ heh] at hR
          have hR' : RVia ((e.1, e.2.1) :: (pairsOf E₀).erase eh) eh.1 eh.2 := by
            refine hR.mono ?_
            intro z hz
            rcases List.mem_append.mp hz with hz | hz
            · exact List.mem_cons_of_mem _ hz
            · rcases List.mem_cons.mp hz with hz | hz
              · exact hz ▸ List.mem_cons_self _ _
              · cases hz
          have hsub : ∀ z ∈ (pairsOf E₀).erase eh, z ∈ pairsOf E₀ :=
            fun z hz => List.mem_of_mem_erase hz
          rcases RVia_cons hR' with hR2 | ⟨ha, hb⟩
          · exact hF₁ eh heh hR2
          · have hstep : RVia (pairsOf E₀) eh.1 eh.2 := RVia.single (Or.inl heh)
            rcases ha with ha | ha <;> rcases hb with hb | hb
            · exact hF₁ eh heh (ha.trans hb)
            · exact hnc ((ha.mono hsub).symm.trans (hstep.trans (hb.mono hsub).symm))
            · exact hnc (((ha.mono hsub).symm.trans
                (hstep.trans (hb.mono hsub).symm)).symm)
            · exact hF₁ eh heh (ha.trans hb)
        · simp only [show pairsOf [e] = [(e.1, e.2.1)] from rfl,
            List.mem_singleton] at heh
          subst heh
          intro hR
          rw [List.erase_append_right _ hnotinE,
            show pairsOf [e] = [(e.1, e.2.1)] from rfl, List.erase_cons_head,
            List.append_nil] at hR
          exact hnc hR

theorem nodeIdxA_isSome {α : Type} :
    ∀ (l : List (String × α)) (v : String), (nodeIdxA l v).isSome = (dget l v).isSome := by
  intro l
  induction l with
  | nil => intro v; rfl
  | cons p rest ih =>
    intro v
    obtain ⟨pk, pv⟩ := p
    by_cases hk : pk = v
    · simp [nodeIdxA, dget, hk]
    · simp only [nodeIdxA, dget, if_neg hk]
      rw [← ih v]
      cases nodeIdxA rest v <;> rfl

theorem nodeIdxA_cons {α : Type} (p : String × α) (rest : List (String × α)) (v : String) :
    nodeIdxA (p :: rest) v =
      if p.1 = v then some 0 else (nodeIdxA rest v).map (· + 1) := rfl

theorem nodeIdxA_inj {α : Type} :
    ∀ (l : List (String × α)) (a b : String) (i : Nat),
      nodeIdxA l a = some i → nodeIdxA l b = some i → a = b := by
  intro l
  induction l with
  | nil => intro a b i ha _; cases ha
  | cons p rest ih =>
    intro a b i ha hb
    rw [nodeIdxA_cons] at ha hb
    by_cases hka : p.1 = a
    · by_cases hkb : p.1 = b
      · rw [← hka, hkb]
      · rw [if_pos hka] at ha
        injection ha with ha
        rw [if_neg hkb] at hb
        rcases hrb : nodeIdxA rest b with _ | k
        · rw [hrb] at hb
          cases hb
        · rw [hrb] at hb
          injection hb with hb
          have hb' : k + 1 = i := hb
          omega
    · by_cases hkb : p.1 = b
      · rw [if_pos hkb] at hb
        injection hb with hb
        rw [if_neg hka] at ha
        rcases hra : nodeIdxA rest a with _ | k
        · rw [hra] at ha
          cases ha
        · rw [hra] at ha
          injection ha with ha
          have ha' : k + 1 = i := ha
          omega
      · rw [if_neg hka] at ha
        rw [if_neg hkb] at hb
        rcases hra : nodeIdxA rest a with _ | k
        · rw [hra] at ha
          cases ha
        · rcases hrb : nodeIdxA rest b with _ | k2
          · rw [hrb] at hb
            cases hb
          · rw [hra] at ha
            rw [hrb] at hb
            injection ha with ha
            injection hb with hb
            have ha' : k + 1 = i := ha
            have hb' : k2 + 1 = i := hb
            have hkk : k = k2 := by omega
            subst hkk
            exact ih a b k hra hrb

theorem idxLt_asymm {g : WGraph} {a b : String} (h : idxLt g a b = true) :
    idxLt g b a = false := by
  unfold idxLt at h ⊢
  rcases ha : nodeIdx g a with _ | i <;> rcases hb : nodeIdx g b with _ | j <;>
    rw [ha, hb] at h <;> simp at h
  show decide (j < i) = false
  simp only [decide_eq_false_iff_not]
  omega

theorem dedupEdges_edge {g : WGraph} (hwf : wfB g = true)
    {e : String × String × Int} (he : e ∈ dedupEdges g) :
    edgeWeight g e.1 e.2.1 = some e.2.2 := by
  unfold dedupEdges at he
  rw [List.mem_flatMap] at he
  obtain ⟨p, hpmem, hin⟩ := he
  rw [List.mem_map] at hin
  obtain ⟨q, hq, heq⟩ := hin
  subst heq
  have hq' : q ∈ p.2 := List.mem_of_mem_filter hq
  have hga : dget g.nodes p.1 = some p.2 := dget_of_mem (wf_nodup hwf) hpmem
  have hnd := wf_inner_nodup hwf hga
  have hqq : dget p.2 q.1 = some q.2 := dget_of_mem hnd hq'
  simp only [edgeWeight, hga]
  exact hqq

theorem dedupEdges_idx {g : WGraph} {e : String × String × Int}
    (he : e ∈ dedupEdges g) : idxLt g e.1 e.2.1 = true := by
  unfold dedupEdges at he
  rw [List.mem_flatMap] at he
  obtain ⟨p, hpmem, hin⟩ := he
  rw [List.mem_map] at hin
  obtain ⟨q, hq, heq⟩ := hin
  subst heq
  exact (List.mem_filter.mp hq).2

theorem dedupPairs_edge {g : WGraph} (hwf : wfB g = true) {p : String × String}
    (hp : p ∈ pairsOf (dedupEdges g)) : ∃ w, edgeWeight g p.1 p.2 = some w := by
  rw [pairsOf, List.mem_map] at hp
  obtain ⟨e, he, heq⟩ := hp
  subst heq
  exact ⟨e.2.2, dedupEdges_edge hwf he⟩

theorem dedupPairs_idx {g : WGraph} {p : String × String}
    (hp : p ∈ pairsOf (dedupEdges g)) : idxLt g p.1 p.2 = true := by
  rw [pairsOf, List.mem_map] at hp
  obtain ⟨e, he, heq⟩ := hp
  subst heq
  exact dedupEdges_idx he

theorem rev_not_mem_dedupPairs {g : WGraph} {u v : String}
    (huv : idxLt g u v = true) : ((v, u) : String × String) ∉ pairsOf (dedupEdges g) := by
  intro hm
  have := dedupPairs_idx hm
  rw [idxLt_asymm huv] at this
  cases this

theorem dedupPairs_reg {g : WGraph} (hwf : wfB g = true)
    {e : String × String × Int} (he : e ∈ dedupEdges g) :
    isRegistered g e.1 = true ∧ isRegistered g e.2.1 = true := by
  have hw := dedupEdges_edge hwf he
  refine ⟨?_, wf_closed hwf hw⟩
  rcases hga : dget g.nodes e.1 with _ | es
  · simp [edgeWeight, hga] at hw
  · unfold isRegistered
    rw [hga]
    rfl

theorem edge_mem_dedup {g : WGraph} (hwf : wfB g = true) {a b : String} {w : Int}
    (hw : edgeWeight g a b = some w) (hab : a ≠ b) :
    (a, b, w) ∈ dedupEdges g ∨ (b, a, w) ∈ dedupEdges g := by
  rcases hga : dget g.nodes a with _ | esa
  · simp [edgeWeight, hga] at hw
  · have hw1 : dget esa b = some w := by
      simp only [edgeWeight, hga] at hw
      exact hw
    have hwsym := wf_sym hwf hw
    have hrb : isRegistered g b = true := wf_closed hwf hw
    obtain ⟨esb, hgb⟩ := Option.isSome_iff_exists.mp
      (show (dget g.nodes b).isSome = true from hrb)
    have hw2 : dget esb a = some w := by
      simp only [edgeWeight, hgb] at hwsym
      exact hwsym
    obtain ⟨i, hi⟩ : ∃ i, nodeIdx g a = some i := by
      apply Option.isSome_iff_exists.mp
      show (nodeIdxA g.nodes a).isSome = true
      rw [nodeIdxA_isSome, hga]
      rfl
    obtain ⟨j, hj⟩ : ∃ j, nodeIdx g b = some j := by
      apply Option.isSome_iff_exists.mp
      show (nodeIdxA g.nodes b).isSome = true
      rw [nodeIdxA_isSome, hgb]
      rfl
    have hij : i ≠ j := by
      intro hcc
      exact hab (nodeIdxA_inj g.nodes a b i hi (by rw [← hcc] at hj; exact hj))
    rcases Nat.lt_or_ge i j with hlt | hge
    · refine Or.inl ?_
      unfold dedupEdges
      rw [List.mem_flatMap]
      refine ⟨(a, esa), dget_some_mem hga, ?_⟩
      rw [List.mem_map]
      refine ⟨(b, w), ?_, rfl⟩
      rw [List.mem_filter]
      refine ⟨dget_some_mem hw1, ?_⟩
      show idxLt g a b = true
      unfold idxLt
      rw [hi, hj]
      simp [hlt]
    · have hlt : j < i := by omega
      refine Or.inr ?_
      unfold dedupEdges
      rw [List.mem_flatMap]
      refine ⟨(b, esb), dget_some_mem hgb, ?_⟩
      rw [List.mem_map]
      refine ⟨(a, w), ?_, rfl⟩
      rw [List.mem_filter]
      refine ⟨dget_some_mem hw2, ?_⟩
      show idxLt g b a = true
      unfold idxLt
      rw [hi, hj]
      simp [hlt]

theorem nodup_pairs_gen (g : WGraph) :
    ∀ nodes : List (String × List (String × Int)),
      (nodes.map Prod.fst).Nodup →
      (∀ p ∈ nodes, (p.2.map Prod.fst).Nodup) →
      (pairsOf (nodes.flatMap (fun p =>
        (p.2.filter (fun q => idxLt g p.1 q.1)).map
          (fun q => (p.1, q.1, q.2))))).Nodup := by
  intro nodes
  induction nodes with
  | nil =>
    intro _ _
    exact List.nodup_nil
  | cons p rest ih =>
    intro hkeys hinner
    rw [List.flatMap_cons, pairsOf_append, List.nodup_append]
    have hkc : p.1 ∉ rest.map Prod.fst ∧ (rest.map Prod.fst).Nodup := by
      have hh := hkeys
      rw [List.map_cons, List.nodup_cons] at hh
      exact hh
    refine ⟨?_, ih hkc.2 (fun q hq => hinner q (List.mem_cons_of_mem _ hq)), ?_⟩
    · show (((p.2.filter (fun q => idxLt g p.1 q.1)).map
        (fun q => (p.1, q.1, q.2))).map (fun e => (e.1, e.2.1))).Nodup
      rw [List.map_map]
      have hsub : ((p.2.filter (fun q => idxLt g p.1 q.1)).map Prod.fst).Nodup := by
        refine List.Nodup.sublist ?_ (hinner p (List.mem_cons_self _ _))
        exact List.Sublist.map Prod.fst (List.filter_sublist _)
      have hcomp : ((fun e => (e.1, e.2.1)) ∘ (fun q : String × Int => (p.1, q.1, q.2))) =
          (fun t : String => (p.1, t)) ∘ Prod.fst := rfl
      rw [hcomp, ← List.map_map]
      refine List.Nodup.map ?_ hsub
      intro a b hab
      exact congrArg Prod.snd hab
    · intro z hz1 hz2
      have hz1' : z.1 = p.1 := by
        rcases List.mem_map.mp hz1 with ⟨e, he, heq⟩
        rcases List.mem_map.mp he with ⟨q, _, heq2⟩
        subst heq2
        subst heq
        rfl
      have hz2' : z.1 ∈ rest.map Prod.fst := by
        rcases List.mem_map.mp hz2 with ⟨e, he, heq⟩
        rcases List.mem_flatMap.mp he with ⟨p', hp', hin⟩
        rcases List.mem_map.mp hin with ⟨q, _, heq2⟩
        subst heq2
        subst heq
        exact List.mem_map.mpr ⟨p', hp', rfl⟩
      rw [hz1'] at hz2'
      exact hkc.1 hz2'

theorem dedupPairs_nodup {g : WGraph} (hwf : wfB g = true) :
    (pairsOf (dedupEdges g)).Nodup := by
  refine nodup_pairs_gen g g.nodes (wf_nodup hwf) ?_
  intro p hp
  have hget : dget g.nodes p.1 = some p.2 := dget_of_mem (wf_nodup hwf) hp
  exact wf_inner_nodup hwf hget

theorem edgeWeight_removeEdge_of_ne {g : WGraph} {u v a b : String} {w : Int}
    (h : edgeWeight g a b = some w)
    (h1 : ¬(a = u ∧ b = v)) (h2 : ¬(a = v ∧ b = u)) :
    edgeWeight (removeEdge g u v) a b = some w := by
  rcases hga : dget g.nodes a with _ | es
  · simp [edgeWeight, hga] at h
  · have h' : dget es b = some w := by
      simp only [edgeWeight, hga] at h
      exact h
    show (match dget (removeEdge g u v).nodes a with
      | none => none
      | some es => dget es b) = some w
    rw [dget_removeEdge, hga]
    show dget (if a = u then es.filter (fun q => decide (q.1 ≠ v))
      else if a = v then es.filter (fun q => decide (q.1 ≠ u)) else es) b = some w
    by_cases hau : a = u
    · rw [if_pos hau]
      have hbv : b ≠ v := fun hc => h1 ⟨hau, hc⟩
      rw [dget_filter_ne hbv]
      exact h'
    · rw [if_neg hau]
      by_cases hav : a = v
      · rw [if_pos hav]
        have hbu : b ≠ u := fun hc => h2 ⟨hav, hc⟩
        rw [dget_filter_ne hbu]
        exact h'
      · rw [if_neg hav]
        exact h'

theorem edgeWeight_removeEdge_rev {g : WGraph} {u v a b : String} {w : Int}
    (h : edgeWeight (removeEdge g u v) a b = some w) :
    edgeWeight g a b = some w ∧ ¬(a = u ∧ b = v) ∧ ¬(a = v ∧ b = u) := by
  have h' : (match dget (removeEdge g u v).nodes a with
      | none => none
      | some es => dget es b) = some w := h
  rw [dget_removeEdge] at h'
  rcases hga : dget g.nodes a with _ | es
  · rw [hga] at h'
    cases h'
  · rw [hga] at h'
    have h2 : dget (if a = u then es.filter (fun q => decide (q.1 ≠ v))
        else if a = v then es.filter (fun q => decide (q.1 ≠ u)) else es) b = some w := h'
    by_cases hau : a = u
    · rw [if_pos hau] at h2
      by_cases hbv : b = v
      · rw [hbv, dget_filter_self] at h2
        cases h2
      · rw [dget_filter_ne hbv] at h2
        refine ⟨by simp only [edgeWeight, hga]; exact h2,
          fun hc => hbv hc.2, fun hc => hbv ?_⟩
        rw [hc.2, ← hau, hc.1]
    · rw [if_neg hau] at h2
      by_cases hav : a = v
      · rw [if_pos hav] at h2
        by_cases hbu : b = u
        · rw [hbu, dget_filter_self] at h2
          cases h2
        · rw [dget_filter_ne hbu] at h2
          exact ⟨by simp only [edgeWeight, hga]; exact h2,
            fun hc => hau hc.1, fun hc => hbu hc.2⟩
      · rw [if_neg hav] at h2
        exact ⟨by simp only [edgeWeight, hga]; exact h2,
          fun hc => hau hc.1, fun hc => hav hc.1⟩

theorem RVia_toReachP {g : WGraph} (hwf : wfB g = true) {u v : String}
    {Q : List (String × String)}
    (hQ : ∀ p ∈ Q, (∃ w, edgeWeight g p.1 p.2 = some w) ∧
      ¬(p.1 = u ∧ p.2 = v) ∧ ¬(p.1 = v ∧ p.2 = u)) :
    ∀ x y, RVia Q x y → ReachP (removeEdge g u v) x y := by
  intro x y h
  induction h with
  | refl => exact ReachP.refl
  | @step y z hxy hp ih =>
    rcases hp with hp | hp
    · obtain ⟨⟨w, hw⟩, hc1, hc2⟩ := hQ _ hp
      exact ReachP.tail ih (edgeWeight_removeEdge_of_ne hw hc1 hc2)
    · obtain ⟨⟨w, hw⟩, hc1, hc2⟩ := hQ _ hp
      exact ReachP.tail ih (edgeWeight_removeEdge_of_ne (wf_sym hwf hw)
        (fun hc => hc2 ⟨hc.2, hc.1⟩) (fun hc => hc1 ⟨hc.2, hc.1⟩))

theorem reachP_remove_toRVia {g : WGraph} (hwf : wfB g = true) {u v : String}
    {eh : String × String} (heh : eh = (u, v) ∨ eh = (v, u)) :
    ∀ x y, ReachP (removeEdge g u v) x y →
      RVia ((pairsOf (dedupEdges g)).erase eh) x y := by
  intro x y h
  induction h with
  | refl => exact .refl _
  | @tail a b w ha hw ih =>
    obtain ⟨hw', hc1, hc2⟩ := edgeWeight_removeEdge_rev hw
    by_cases hab : a = b
    · exact hab ▸ ih
    · rcases edge_mem_dedup hwf hw' hab with hm | hm
      · have hpm : ((a, b) : String × String) ∈ pairsOf (dedupEdges g) :=
          List.mem_map.mpr ⟨(a, b, w), hm, rfl⟩
        have hne : ((a, b) : String × String) ≠ eh := by
          rcases heh with rfl | rfl
          · intro hcc
            exact hc1 ⟨congrArg Prod.fst hcc, congrArg Prod.snd hcc⟩
          · intro hcc
            exact hc2 ⟨congrArg Prod.fst hcc, congrArg Prod.snd hcc⟩
        exact ih.step (Or.inl ((List.mem_erase_of_ne hne).mpr hpm))
      · have hpm : ((b, a) : String × String) ∈ pairsOf (dedupEdges g) :=
          List.mem_map.mpr ⟨(b, a, w), hm, rfl⟩
        have hne : ((b, a) : String × String) ≠ eh := by
          rcases heh with rfl | rfl
          · intro hcc
            exact hc2 ⟨congrArg Prod.snd hcc, congrArg Prod.fst hcc⟩
          · intro hcc
            exact hc1 ⟨congrArg Prod.snd hcc, congrArg Prod.fst hcc⟩
        exact ih.step (Or.inr ((List.mem_erase_of_ne hne).mpr hpm))

/-- C3: the engine's `has_cycle` (modelled from the spec's union-based
description, since its code is absent from the sources) takes no input
and never fails — it is a total Boolean function; it returns `false` on
every acyclic API-reachable graph, including the empty graph and a
concrete tree fixture, and returns `true` as soon as one edge closes a
cycle (its endpoints are distinct and still connected after removing
that edge), as on the concrete fixture. -/
theorem C3_claim :
    (∀ g : WGraph, Reachable g → Acyclic g → has_cycle g = false) ∧
    (∀ g : WGraph, Reachable g → ∀ u v w, edgeWeight g u v = some w → u ≠ v →
      ReachP (removeEdge g u v) u v → has_cycle g = true) ∧
    has_cycle (⟨[]⟩ : WGraph) = false ∧
    has_cycle treeGraph = false ∧
    has_cycle cycGraph = true := by
  refine ⟨?_, ?_, rfl, rfl, rfl⟩
  · intro g hre hac
    have hwf := hre.wf
    rcases hscan : scanM (dedupEdges g) (reps g) with _ | m'
    · exfalso
      obtain ⟨e, he, hR⟩ := scanM_none_cycle (dedupEdges g) [] (reps g)
        (repKeys_reps g) (repC_init g)
        (fun q hq => dedupPairs_reg hwf hq) (dedupPairs_nodup hwf) hscan
      have hw := dedupEdges_edge hwf he
      have hidx := dedupEdges_idx he
      apply hac e.1 e.2.1 e.2.2 hw
      refine RVia_toReachP hwf ?_ e.1 e.2.1 (hR.mono (fun z hz => by simpa using hz))
      intro p hp
      have hpel : p ∈ pairsOf (dedupEdges g) := List.mem_of_mem_erase hp
      have hne1 : p ≠ (e.1, e.2.1) :=
        ((List.Nodup.mem_erase_iff (dedupPairs_nodup hwf)).mp hp).1
      refine ⟨dedupPairs_edge hwf hpel, ?_, ?_⟩
      · intro hc
        exact hne1 (Prod.ext hc.1 hc.2)
      · intro hc
        have hpv : p = ((e.2.1, e.1) : String × String) := Prod.ext hc.1 hc.2
        exact rev_not_mem_dedupPairs hidx (hpv ▸ hpel)
    · show (scanM (dedupEdges g) (reps g)).isNone = false
      rw [hscan]
      rfl
  · intro g hre u v w hw huv hreach
    have hwf := hre.wf
    rcases hscan : scanM (dedupEdges g) (reps g) with _ | m'
    · show (scanM (dedupEdges g) (reps g)).isNone = true
      rw [hscan]
      rfl
    · exfalso
      obtain ⟨hK, hC, hF⟩ := scanM_forest (dedupEdges g) m'
        (fun q hq => dedupPairs_reg hwf hq) (dedupPairs_nodup hwf) hscan
      rcases edge_mem_dedup hwf hw huv with hm | hm
      · have hpm : ((u, v) : String × String) ∈ pairsOf (dedupEdges g) :=
          List.mem_map.mpr ⟨(u, v, w), hm, rfl⟩
        have hR := reachP_remove_toRVia hwf (Or.inl rfl) u v hreach
        exact hF (u, v) hpm hR
      · have hpm : ((v, u) : String × String) ∈ pairsOf (dedupEdges g) :=
          List.mem_map.mpr ⟨(v, u, w), hm, rfl⟩
        have hR := reachP_remove_toRVia hwf (Or.inr rfl) u v hreach
        exact hF (v, u) hpm hR.symm

theorem C3_claim_witness : has_cycle cycGraph = true :=
  C3_claim.2.1 cycGraph
    ⟨[.node "A", .node "B", .node "C", .node "D",
      .edge "A" "B" 1, .edge "B" "C" 2, .edge "B" "D" 3, .edge "C" "D" 4], rfl⟩
    "C" "D" 4 rfl (by decide)
    (ReachP.tail (ReachP.tail ReachP.refl
      (show edgeWeight (removeEdge cycGraph "C" "D") "C" "B" = some 2 from rfl))
      (show edgeWeight (removeEdge cycGraph "C" "D") "B" "D" = some 3 from rfl))

theorem kruskalM_append :
    ∀ (E₁ E₂ : List (String × String × Int)) (m : List (String × String)),
      kruskalM (E₁ ++ E₂) m =
        ((kruskalM E₁ m).1 ++ (kruskalM E₂ (kruskalM E₁ m).2).1,
         (kruskalM E₂ (kruskalM E₁ m).2).2) := by
  intro E₁
  induction E₁ with
  | nil => intro E₂ m; rfl
  | cons e rest ih =>
    intro E₂ m
    show kruskalM (e :: (rest ++ E₂)) m = _
    rcases h1 : dget m e.1 with _ | ru
    · simp only [kruskalM, h1]
      exact ih E₂ m
    · rcases h2 : dget m e.2.1 with _ | rv
      · simp only [kruskalM, h1, h2]
        exact ih E₂ m
      · by_cases hr : ru = rv
        · simp only [kruskalM, h1, h2, if_pos hr]
          exact ih E₂ m
        · simp only [kruskalM, h1, h2, Bool.false_eq_true, if_neg hr]
          rw [ih E₂ (unionR m ru rv)]
          rfl

theorem kruskalM_sublist :
    ∀ (E : List (String × String × Int)) (m : List (String × String)),
      (kruskalM E m).1.Sublist E := by
  intro E
  induction E with
  | nil => intro m; exact List.Sublist.refl _
  | cons e rest ih =>
    intro m
    rcases h1 : dget m e.1 with _ | ru
    · simp only [kruskalM, h1]
      exact (ih m).trans (List.sublist_cons_self _ _)
    · rcases h2 : dget m e.2.1 with _ | rv
      · simp only [kruskalM, h1, h2]
        exact (ih m).trans (List.sublist_cons_self _ _)
      · by_cases hr : ru = rv
        · simp only [kruskalM, h1, h2, if_pos hr]
          exact (ih m).trans (List.sublist_cons_self _ _)
        · simp only [kruskalM, h1, h2, Bool.false_eq_true, if_neg hr]
          exact List.Sublist.cons₂ e (ih (unionR m ru rv))

/-- Appending a pair whose endpoints are not yet connected keeps the
accumulated pair set a forest. -/
theorem forest_extend {P : List (String × String)} {u v : String}
    (hnd : (P ++ [(u, v)]).Nodup)
    (hF : ∀ eh ∈ P, ¬ RVia (P.erase eh) eh.1 eh.2)
    (hnc : ¬ RVia P u v) :
    ∀ eh ∈ P ++ [(u, v)], ¬ RVia ((P ++ [(u, v)]).erase eh) eh.1 eh.2 := by
  have hnotinE : ((u, v) : String × String) ∉ P := by
    intro hmem
    have hd := (List.nodup_append.mp hnd).2.2
    exact hd hmem (List.mem_cons_self _ _)
  intro eh hmem
  rcases List.mem_append.mp hmem with hmem | hmem
  · intro hR
    rw [List.erase_append_left _ hmem] at hR
    have hR' : RVia ((u, v) :: P.erase eh) eh.1 eh.2 := by
      refine hR.mono ?_
      intro z hz
      rcases List.mem_append.mp hz with hz | hz
      · exact List.mem_cons_of_mem _ hz
      · rcases List.mem_cons.mp hz with hz | hz
        · exact hz ▸ List.mem_cons_self _ _
        · cases hz
    have hsub : ∀ z ∈ P.erase eh, z ∈ P := fun z hz => List.mem_of_mem_erase hz
    rcases RVia_cons hR' with hR2 | ⟨ha, hb⟩
    · exact hF eh hmem hR2
    · have hstep : RVia P eh.1 eh.2 := RVia.single (Or.inl hmem)
      rcases ha with ha | ha <;> rcases hb with hb | hb
      · exact hF eh hmem (ha.trans hb)
      · exact hnc ((ha.mono hsub).symm.trans (hstep.trans (hb.mono hsub).symm))
      · exact hnc (((ha.mono hsub).symm.trans
          (hstep.trans (hb.mono hsub).symm)).symm)
      · exact hF eh hmem (ha.trans hb)
  · simp only [List.mem_singleton] at hmem
    subst hmem
    intro hR
    rw [List.erase_append_right _ hnotinE, List.erase_cons_head,
      List.append_nil] at hR
    exact hnc hR

/-- The Kruskal scan's accepted edges form a forest, and the final map's
components are connectivity through them. -/
theorem kruskalM_forest {g : WGraph} :
    ∀ E : List (String × String × Int),
      (∀ e ∈ E, isRegistered g e.1 = true ∧ isRegistered g e.2.1 = true) →
      (pairsOf E).Nodup →
      RepKeys g (kruskalM E (reps g)).2 ∧
      RepC (pairsOf (kruskalM E (reps g)).1) (kruskalM E (reps g)).2 ∧
      (∀ eh ∈ pairsOf (kruskalM E (reps g)).1,
        ¬ RVia ((pairsOf (kruskalM E (reps g)).1).erase eh) eh.1 eh.2) := by
  intro E
  induction E using List.reverseRecOn with
  | nil =>
    intro _ _
    refine ⟨repKeys_reps g, repC_init g, ?_⟩
    intro eh hmem
    simp [kruskalM, pairsOf] at hmem
  | append_singleton E₀ e ih =>
    intro hreg hnd
    obtain ⟨hK₁, hC₁, hF₁⟩ := ih (fun q hq => hreg q (List.mem_append_left _ hq))
      (by
        rw [pairsOf_append] at hnd
        exact (List.nodup_append.mp hnd).1)
    obtain ⟨hre1, hre2⟩ := hreg e (List.mem_append_right _ (List.mem_cons_self _ _))
    obtain ⟨ru, hru⟩ := Option.isSome_iff_exists.mp (by rw [hK₁ e.1]; exact hre1)
    obtain ⟨rv, hrv⟩ := Option.isSome_iff_exists.mp (by rw [hK₁ e.2.1]; exact hre2)
    rw [kruskalM_append]
    by_cases hr : ru = rv
    · have h1 : kruskalM [e] (kruskalM E₀ (reps g)).2 =
          ([], (kruskalM E₀ (reps g)).2) := by
        simp only [kruskalM, hru, hrv, if_pos hr]
      rw [h1, List.append_nil]
      exact ⟨hK₁, hC₁, hF₁⟩
    · have h1 : kruskalM [e] (kruskalM E₀ (reps g)).2 =
          ([e], unionR (kruskalM E₀ (reps g)).2 ru rv) := by
        simp only [kruskalM, hru, hrv, Bool.false_eq_true, if_neg hr]
      rw [h1]
      have hnc : ¬ RVia (pairsOf (kruskalM E₀ (reps g)).1) e.1 e.2.1 := by
        intro hcon
        exact hr ((hC₁ e.1 e.2.1 ru rv hru hrv).mpr hcon)
      have hndA : (pairsOf ((kruskalM E₀ (reps g)).1 ++ [e])).Nodup := by
        refine List.Nodup.sublist ?_ hnd
        unfold pairsOf
        exact List.Sublist.map _
          (List.Sublist.append (kruskalM_sublist E₀ (reps g)) (List.Sublist.refl _))
      have hndP : (pairsOf (kruskalM E₀ (reps g)).1 ++ [(e.1, e.2.1)]).Nodup := by
        rw [pairsOf_append, show pairsOf [e] = [(e.1, e.2.1)] from rfl] at hndA
        exact hndA
      have hmemiff : ∀ z : String × String,
          z ∈ (e.1, e.2.1) :: pairsOf (kruskalM E₀ (reps g)).1 ↔
            z ∈ pairsOf ((kruskalM E₀ (reps g)).1 ++ [e]) := by
        intro z
        rw [pairsOf_append]
        simp [pairsOf, List.mem_append, List.mem_cons, or_comm]
      refine ⟨repKeys_unionR hK₁, repC_congr hmemiff (repC_union hC₁ hru hrv hr), ?_⟩
      intro eh hmem
      rw [pairsOf_append, show pairsOf [e] = [(e.1, e.2.1)] from rfl] at hmem ⊢
      exact forest_extend hndP hF₁ hnc eh hmem

theorem sizeR_cons (p : String × String) (rest : List (String × String)) (r : String) :
    sizeR (p :: rest) r = (if p.2 = r then 1 else 0) + sizeR rest r := by
  simp only [sizeR, List.filter_cons]
  by_cases h : p.2 = r
  · simp [h, Nat.add_comm]
  · simp [h]

theorem cntR_cons (m : List (String × String)) (e : String × String × Int)
    (acc : List (String × String × Int)) (r : String) :
    cntR m (e :: acc) r = (if dget m e.1 = some r then 1 else 0) + cntR m acc r := by
  simp only [cntR, List.filter_cons]
  by_cases h : dget m e.1 = some r
  · simp [h, Nat.add_comm]
  · simp [h]

theorem cntR_append (m : List (String × String)) (A B : List (String × String × Int))
    (r : String) : cntR m (A ++ B) r = cntR m A r + cntR m B r := by
  simp [cntR, List.filter_append]

theorem sizeR_pos_of_dget {m : List (String × String)} {k r : String}
    (h : dget m k = some r) : 0 < sizeR m r := by
  have hmem : (k, r) ∈ m := dget_some_mem h
  unfold sizeR
  rw [← List.countP_eq_length_filter]
  exact List.countP_pos_iff.mpr ⟨(k, r), hmem, by simp⟩

theorem sizeR_unionR {ru rv : String} (hne : ru ≠ rv) :
    ∀ (m : List (String × String)) (r : String),
      sizeR (unionR m ru rv) r =
        if r = ru then sizeR m ru + sizeR m rv
        else if r = rv then 0 else sizeR m r := by
  intro m
  induction m with
  | nil => intro r; simp [sizeR, unionR]
  | cons p rest ih =>
    intro r
    have hL : unionR (p :: rest) ru rv =
        ((p.1, if p.2 = rv then ru else p.2) : String × String) :: unionR rest ru rv := rfl
    rw [hL]
    simp only [sizeR_cons]
    rw [ih r]
    clear ih
    have hne' : rv ≠ ru := fun h => hne h.symm
    by_cases h1 : p.2 = rv <;> by_cases h2 : r = ru <;> by_cases h3 : r = rv <;>
      simp_all [eq_comm] <;> omega

theorem cntR_unionR {ru rv : String} (hne : ru ≠ rv) :
    ∀ (acc : List (String × String × Int)) (m : List (String × String)) (r : String),
      cntR (unionR m ru rv) acc r =
        if r = ru then cntR m acc ru + cntR m acc rv
        else if r = rv then 0 else cntR m acc r := by
  intro acc
  induction acc with
  | nil => intro m r; simp [cntR]
  | cons e rest ih =>
    intro m r
    simp only [cntR_cons]
    rw [ih m r, dget_unionR]
    clear ih
    have hne' : rv ≠ ru := fun h => hne h.symm
    rcases hd : dget m e.1 with _ | x
    · clear hd
      by_cases h2 : r = ru <;> by_cases h3 : r = rv <;> simp_all [eq_comm] <;> omega
    · clear hd
      by_cases h1 : x = rv <;> by_cases h2 : r = ru <;> by_cases h3 : r = rv <;>
        by_cases h4 : x = ru <;> by_cases h5 : x = r <;> simp_all [eq_comm] <;> omega

theorem sizeR_reps_zero (r : String) :
    ∀ nodes : List (String × List (String × Int)),
      r ∉ nodes.map Prod.fst →
      sizeR (nodes.map (fun p => (p.1, p.1))) r = 0 := by
  intro nodes
  induction nodes with
  | nil => intro _; rfl
  | cons p rest ih =>
    intro hmem
    rw [List.map_cons, List.mem_cons] at hmem
    push_neg at hmem
    rw [List.map_cons]
    simp only [sizeR_cons]
    rw [if_neg (fun h => hmem.1 h.symm), ih hmem.2]

theorem sizeR_reps_le_one (r : String) :
    ∀ nodes : List (String × List (String × Int)),
      (nodes.map Prod.fst).Nodup →
      sizeR (nodes.map (fun p => (p.1, p.1))) r ≤ 1 := by
  intro nodes
  induction nodes with
  | nil => intro _; simp [sizeR]
  | cons p rest ih =>
    intro hnd
    rw [List.map_cons, List.nodup_cons] at hnd
    rw [List.map_cons]
    simp only [sizeR_cons]
    by_cases hp : p.1 = r
    · have h0 : sizeR (rest.map (fun q => (q.1, q.1))) r = 0 :=
        sizeR_reps_zero r rest (by rw [← hp]; exact hnd.1)
      rw [if_pos hp, h0]
    · rw [if_neg hp]
      have := ih hnd.2
      omega

theorem insertEdge_perm (e : String × String × Int) :
    ∀ l : List (String × String × Int), List.Perm (insertEdge e l) (e :: l) := by
  intro l
  induction l with
  | nil => exact List.Perm.refl _
  | cons x xs ih =>
    show List.Perm (if x.2.2 ≤ e.2.2 then x :: insertEdge e xs else e :: x :: xs) _
    by_cases h : x.2.2 ≤ e.2.2
    · rw [if_pos h]
      exact (ih.cons x).trans (List.Perm.swap e x xs)
    · rw [if_neg h]

theorem sortFold_perm :
    ∀ (l acc : List (String × String × Int)),
      List.Perm (l.foldl (fun acc e => insertEdge e acc) acc) (acc ++ l) := by
  intro l
  induction l with
  | nil => intro acc; simp
  | cons x xs ih =>
    intro acc
    show List.Perm (xs.foldl (fun acc e => insertEdge e acc) (insertEdge x acc)) _
    refine (ih (insertEdge x acc)).trans ?_
    refine (((insertEdge_perm x acc).append_right xs).trans ?_)
    exact List.perm_middle.symm

theorem sortEdges_perm (g : WGraph) :
    List.Perm (sortEdges g) (dedupEdges g) := by
  have h := sortFold_perm (dedupEdges g) []
  simpa [sortEdges] using h

theorem sortEdges_mem {g : WGraph} {e : String × String × Int} :
    e ∈ sortEdges g ↔ e ∈ dedupEdges g :=
  (sortEdges_perm g).mem_iff

theorem sortPairs_nodup {g : WGraph} (hwf : wfB g = true) :
    (pairsOf (sortEdges g)).Nodup := by
  have hperm : List.Perm (pairsOf (sortEdges g)) (pairsOf (dedupEdges g)) :=
    (sortEdges_perm g).map _
  exact hperm.nodup_iff.mpr (dedupPairs_nodup hwf)

/-- Per-component edge count: processing the edges keeps the count of
accepted edges in each non-empty component exactly one less than the
component size. -/
theorem kruskalM_cnt :
    ∀ (E : List (String × String × Int)) (m : List (String × String))
      (A : List (String × String × Int)),
      (∀ r, 0 < sizeR m r → cntR m A r + 1 = sizeR m r) →
      ∀ r, 0 < sizeR (kruskalM E m).2 r →
        cntR (kruskalM E m).2 (A ++ (kruskalM E m).1) r + 1 =
          sizeR (kruskalM E m).2 r := by
  intro E
  induction E with
  | nil =>
    intro m A hinv r hpos
    simpa [kruskalM] using hinv r (by simpa [kruskalM] using hpos)
  | cons e rest ih =>
    intro m A hinv r hpos
    rcases h1 : dget m e.1 with _ | ru
    · simp only [kruskalM, h1] at hpos ⊢
      exact ih m A hinv r hpos
    · rcases h2 : dget m e.2.1 with _ | rv
      · simp only [kruskalM, h1, h2] at hpos ⊢
        exact ih m A hinv r hpos
      · by_cases hr : ru = rv
        · simp only [kruskalM, h1, h2, if_pos hr] at hpos ⊢
          exact ih m A hinv r hpos
        · simp only [kruskalM, h1, h2, Bool.false_eq_true, if_neg hr] at hpos ⊢
          rw [List.append_cons A e (kruskalM rest (unionR m ru rv)).1]
          refine ih (unionR m ru rv) (A ++ [e]) ?_ r hpos
          intro r' hpos'
          have hiru := hinv ru (sizeR_pos_of_dget h1)
          have hirv := hinv rv (sizeR_pos_of_dget h2)
          have hcases : cntR m A r' + 1 = sizeR m r' ∨ sizeR m r' = 0 := by
            rcases Nat.eq_zero_or_pos (sizeR m r') with h | h
            · exact Or.inr h
            · exact Or.inl (hinv r' h)
          have hone : cntR (unionR m ru rv) [e] r' = if r' = ru then 1 else 0 := by
            rw [cntR_cons, dget_unionR, h1]
            by_cases hc : r' = ru
            · simp [cntR, hc]
            · have hcs : ¬ ru = r' := fun h => hc h.symm
              simp [cntR, hc, hcs]
          rw [sizeR_unionR hr m r'] at hpos' ⊢
          rw [cntR_append, cntR_unionR hr A m r', hone]
          split_ifs at hpos' ⊢ <;> omega

/-- C4: (spec-modelled) the spanning-tree builder of the spec: on every
API-reachable graph the accepted edge set is a forest (no accepted edge
survives as a connection once erased from the accepted pairs), and each
non-empty component of the final disjoint-set map with `n` member nodes
contains exactly `n - 1` accepted edges (hence never more than `n - 1`);
an empty graph and a single-node graph render the empty output, and the
spec scenario on nodes `A`\u2013`E` renders the expected adjacency listing. -/
theorem C4_claim :
    (∀ g : WGraph, Reachable g →
      (∀ eh ∈ pairsOf (mstEdges g),
        ¬ RVia ((pairsOf (mstEdges g)).erase eh) eh.1 eh.2) ∧
      (∀ r, 0 < sizeR (mstFinal g) r →
        cntR (mstFinal g) (mstEdges g) r + 1 = sizeR (mstFinal g) r)) ∧
    minimum_spanning_tree (⟨[]⟩ : WGraph) = "" ∧
    (∀ v, minimum_spanning_tree (addNode ⟨[]⟩ v) = "") ∧
    minimum_spanning_tree mstDemo =
      "A is connected to [B, C]\nB is connected to [A]\nC is connected to [A, D]\nD is connected to [C, E]\nE is connected to [D]\n" := by
  refine ⟨?_, rfl, ?_, ?_⟩
  · intro g hre
    have hwf := hre.wf
    obtain ⟨hK, hC, hF⟩ := kruskalM_forest (sortEdges g)
      (fun q hq => dedupPairs_reg hwf (sortEdges_mem.mp hq)) (sortPairs_nodup hwf)
    refine ⟨hF, ?_⟩
    intro r hpos
    have hinit : ∀ r', 0 < sizeR (reps g) r' →
        cntR (reps g) [] r' + 1 = sizeR (reps g) r' := by
      intro r' hpos'
      have hle : sizeR (reps g) r' ≤ 1 := sizeR_reps_le_one r' g.nodes (wf_nodup hwf)
      have hc0 : cntR (reps g) [] r' = 0 := rfl
      omega
    have hcnt := kruskalM_cnt (sortEdges g) (reps g) [] hinit r hpos
    simpa [mstFinal, mstEdges] using hcnt
  · intro v
    rfl
  · rfl

theorem C4_claim_witness :
    cntR (mstFinal mstDemo) (mstEdges mstDemo) "A" + 1 = sizeR (mstFinal mstDemo) "A" :=
  (C4_claim.1 mstDemo ⟨[.node "A", .node "B", .node "C", .node "D", .node "E",
    .edge "A" "B" 1, .edge "A" "C" 2, .edge "A" "D" 5, .edge "B" "D" 3,
    .edge "B" "E" 7, .edge "C" "D" 1, .edge "D" "E" 2], rfl⟩).2 "A" (by decide)

end WG
